import Mathlib

/-!
Verification of the `vinser/maze` Go package against its specification.

The Go sources are shallowly embedded: Go `int` becomes `Int` (with Go's
truncated `%` and `/` rendered as `Int.tmod` / `Int.tdiv`), the mutable
`[][]Cell` grid becomes a total function `Point → Cell` (the Go code reads and
writes the grid only at in-bounds points, so out-of-bounds values of the
function are immaterial), Go maps with zero-value reads become `Point → Option _`
reads with `Option.getD`, and the unbounded Go loops become fuel-indexed
recursions whose fuel is provably sufficient wherever a claim needs the loop
to run to its natural termination.  Go's `end` field is spelled `endP`
(`end` is a Lean keyword) and the Go method `Cell` is spelled `cellAt`
(it would clash with the `Cell` type).
-/

set_option maxHeartbeats 1600000

/-- Go's truncated remainder `a % b` on `int`. -/
def goMod (a b : Int) : Int := Int.tmod a b

/-- Go's truncated quotient `a / b` on `int`. -/
def goDiv (a b : Int) : Int := Int.tdiv a b

/-- `Point` from the Go source: a coordinate pair of Go `int`s. -/
structure Point where
  X : Int
  Y : Int
deriving DecidableEq, Repr

/-- `Cell` from the Go source: the closed enumeration of cell kinds
(`Wall`, `Path`, `Start`, `End`, `SolutionPath`). -/
inductive Cell where
  | Wall
  | Path
  | Start
  | End
  | SolutionPath
deriving DecidableEq, Repr

/-- `Maze` from the Go source.  The grid is modelled as a total function;
Go's `end` field is spelled `endP`. -/
structure Maze where
  width : Int
  height : Int
  grid : Point → Cell
  start : Point
  endP : Point
  door : Point
  denWidth : Int
  denHeight : Int
  denStartX : Int
  denStartY : Int

/-- The distinct error outcomes of `New` and `Generate`.  Go reports errors as
strings; the embedding keeps one constructor per `fmt.Errorf` site.
`outOfFuel` is an artifact of the fuel-based embedding of the unbounded
random-start retry loop and of the search loops; no theorem below relies on it
occurring. -/
inductive GenErr where
  | nonPositiveDims
  | negativeDenDims
  | denWidthTooLarge
  | denHeightTooLarge
  | invalidStartPoint
  | startInsideDen
  | invalidDoorSide
  | doorTooCloseToEdge
  | invalidDoorNotWall
  | doorNotConnecting
  | noPathToConnect
  | outOfFuel
deriving DecidableEq, Repr

/-- `adjustToOdd` from the Go source. -/
def adjustToOdd (dim : Int) : Int :=
  if dim > 0 ∧ goMod dim 2 = 0 then dim + 1 else dim

/-- `validateAndAdjustDimensions` from the Go source. -/
def validateAndAdjustDimensions (width height denWidth denHeight : Int) :
    Except GenErr (Int × Int × Int × Int) :=
  if width ≤ 0 ∨ height ≤ 0 then
    Except.error GenErr.nonPositiveDims
  else if denWidth < 0 ∨ denHeight < 0 then
    Except.error GenErr.negativeDenDims
  else
    let adjWidth := adjustToOdd width
    let adjHeight := adjustToOdd height
    let adjDenWidth := adjustToOdd denWidth
    let adjDenHeight := adjustToOdd denHeight
    if adjDenWidth > 0 ∧ adjDenWidth ≥ adjWidth - 2 then
      Except.error GenErr.denWidthTooLarge
    else if adjDenHeight > 0 ∧ adjDenHeight ≥ adjHeight - 2 then
      Except.error GenErr.denHeightTooLarge
    else
      Except.ok (adjWidth, adjHeight, adjDenWidth, adjDenHeight)

/-- `calculateDenPosition` from the Go source. -/
def calculateDenPosition (width denWidth height denHeight : Int) : Int × Int :=
  let denStartX := goDiv (width - denWidth) 2
  let denStartY := goDiv (height - denHeight) 2
  let denStartX := if denStartX > 0 ∧ goMod denStartX 2 = 0 then denStartX - 1 else denStartX
  let denStartY := if denStartY > 0 ∧ goMod denStartY 2 = 0 then denStartY - 1 else denStartY
  (denStartX, denStartY)

/-- `IsInsideDen` from the Go source. -/
def Maze.IsInsideDen (m : Maze) (p : Point) : Bool :=
  if m.denWidth ≤ 0 ∨ m.denHeight ≤ 0 then false
  else
    decide (p.X ≥ m.denStartX ∧ p.X < m.denStartX + m.denWidth ∧
      p.Y ≥ m.denStartY ∧ p.Y < m.denStartY + m.denHeight)

/-- The four cardinal direction offsets `{0,-1},{0,1},{-1,0},{1,0}`, in the
scan order fixed throughout the Go source. -/
def cardinalDirs : List Point :=
  [⟨0, -1⟩, ⟨0, 1⟩, ⟨-1, 0⟩, ⟨1, 0⟩]

/-- Pointwise translation of a point by a direction offset. -/
def Point.add (p d : Point) : Point := ⟨p.X + d.X, p.Y + d.Y⟩

/-- `IsAdjacentToDen` from the Go source. -/
def Maze.IsAdjacentToDen (m : Maze) (p : Point) : Bool :=
  if m.denWidth ≤ 0 ∨ m.denHeight ≤ 0 then false
  else if m.IsInsideDen p then false
  else cardinalDirs.any fun dir => m.IsInsideDen (p.add dir)

/-- `initializeGrid` from the Go source, as the grid function it produces:
the den interior is pre-carved to `Path`, everything else is `Wall`. -/
def initialGrid (m : Maze) : Point → Cell :=
  fun p => if m.IsInsideDen p then Cell.Path else Cell.Wall

/-- `New` from the Go source. -/
def New (width height denWidth denHeight : Int) : Except GenErr Maze :=
  match validateAndAdjustDimensions width height denWidth denHeight with
  | Except.error e => Except.error e
  | Except.ok (adjWidth, adjHeight, adjDenWidth, adjDenHeight) =>
    let pos :=
      if adjDenWidth > 0 ∧ adjDenHeight > 0 then
        calculateDenPosition adjWidth adjDenWidth adjHeight adjDenHeight
      else (0, 0)
    let m0 : Maze :=
      { width := adjWidth, height := adjHeight, grid := fun _ => Cell.Wall,
        start := ⟨0, 0⟩, endP := ⟨0, 0⟩, door := ⟨0, 0⟩,
        denWidth := adjDenWidth, denHeight := adjDenHeight,
        denStartX := pos.1, denStartY := pos.2 }
    Except.ok { m0 with grid := initialGrid m0 }

/-- `Cell` (the method) from the Go source, spelled `cellAt`: the cell at a
coordinate together with an in-bounds flag. -/
def Maze.cellAt (m : Maze) (x y : Int) : Cell × Bool :=
  if x < 0 ∨ x ≥ m.width ∨ y < 0 ∨ y ≥ m.height then (Cell.Wall, false)
  else (m.grid ⟨x, y⟩, true)

/-- C3, helper: the rejection condition of `New`, written out in plain
arithmetic (the spec's words), not via the source's helpers. -/
def newRejects (w h dw dh : Int) : Prop :=
  w ≤ 0 ∨ h ≤ 0 ∨ dw < 0 ∨ dh < 0 ∨
    (0 < (if 0 < dw ∧ 2 ∣ dw then dw + 1 else dw) ∧
      (if 0 < w ∧ 2 ∣ w then w + 1 else w) - 2 ≤ (if 0 < dw ∧ 2 ∣ dw then dw + 1 else dw)) ∨
    (0 < (if 0 < dh ∧ 2 ∣ dh then dh + 1 else dh) ∧
      (if 0 < h ∧ 2 ∣ h then h + 1 else h) - 2 ≤ (if 0 < dh ∧ 2 ∣ dh then dh + 1 else dh))

instance (w h dw dh : Int) : Decidable (newRejects w h dw dh) := by
  unfold newRejects; infer_instance

/-- The maze record that `New` produces from the four adjusted dimensions. -/
def newOk (aw ah adw adh : Int) : Maze :=
  let pos :=
    if adw > 0 ∧ adh > 0 then calculateDenPosition aw adw ah adh else (0, 0)
  let m0 : Maze :=
    { width := aw, height := ah, grid := fun _ => Cell.Wall,
      start := ⟨0, 0⟩, endP := ⟨0, 0⟩, door := ⟨0, 0⟩,
      denWidth := adw, denHeight := adh,
      denStartX := pos.1, denStartY := pos.2 }
  { m0 with grid := initialGrid m0 }

/-- Pointwise update of a function on points (the embedding of a write to a Go
grid, `visited` array, or `map`). -/
def updF {α : Type} (f : Point → α) (p : Point) (v : α) : Point → α :=
  fun q => if q = p then v else f q

/-- The bounds test of the `Solve` BFS (the whole grid, border included),
mirroring `next.X < 0 || next.X >= m.width || next.Y < 0 || next.Y >= m.height`
negated. -/
def Maze.inGrid (m : Maze) (p : Point) : Bool :=
  decide (0 ≤ p.X ∧ p.X < m.width ∧ 0 ≤ p.Y ∧ p.Y < m.height)

/-- The mutable state of the `Solve` BFS loop: the queue (never popped — the
Go code advances a `head` index over it), the `visited` grid and the `parent`
map. -/
structure BfsSt where
  queue : List Point
  visited : Point → Bool
  parent : Point → Option Point

/-- One direction of the neighbor scan in the `Solve` BFS body: bounds check,
then walkable-and-unvisited check, then mark/parent/enqueue. -/
def solveStepDir (m : Maze) (current : Point) (st : BfsSt) (dir : Point) : BfsSt :=
  let next := current.add dir
  if ¬ m.inGrid next then st
  else if m.grid next ≠ Cell.Wall ∧ st.visited next = false then
    { queue := st.queue ++ [next],
      visited := updF st.visited next true,
      parent := updF st.parent next (some current) }
  else st

/-- The full four-direction neighbor scan of one dequeued point. -/
def solveExpand (m : Maze) (current : Point) (st : BfsSt) : BfsSt :=
  cardinalDirs.foldl (solveStepDir m current) st

/-- The `Solve` BFS loop.  `fuel` only bounds the number of iterations of the
Go `for head < len(queue)` loop; `none` is the out-of-fuel artifact (proved
unreachable where claims need it).  Returns the final state and the
`pathFound` flag. -/
def solveLoop (m : Maze) : Nat → BfsSt → Nat → Option (BfsSt × Bool)
  | 0, _, _ => none
  | fuel + 1, st, head =>
    if h : head < st.queue.length then
      let current := st.queue.get ⟨head, h⟩
      if current = m.endP then some (st, true)
      else solveLoop m fuel (solveExpand m current st) (head + 1)
    else some (st, false)

/-- The initial `Solve` BFS state: queue `[start]`, only `start` visited,
empty parent map. -/
def solveInit (m : Maze) : BfsSt :=
  { queue := [m.start],
    visited := updF (fun _ => false) m.start true,
    parent := fun _ => none }

/-- Path reconstruction of `solve.go`: walk backward from `end` through the
parent map (a missing key reads as the zero `Point`, as for a Go map),
collecting points until `start` is appended.  Produces the end-to-start list;
`Solve` then reverses it. -/
def buildPathBack (parent : Point → Option Point) (startP : Point) :
    Nat → Point → Option (List Point)
  | 0, _ => none
  | fuel + 1, p =>
    if p = startP then some [p]
    else
      match buildPathBack parent startP fuel ((parent p).getD ⟨0, 0⟩) with
      | none => none
      | some l => some (p :: l)

/-- The fuel used by both `Solve` embeddings. -/
def solveFuel (m : Maze) : Nat := (m.width * m.height).toNat + 1

/-- `Solve` from `solve.go`: BFS then backward reconstruction and reversal.
The result is `(path?, found)`; the outer `Option` is the fuel artifact. -/
def Solve (m : Maze) : Option (Option (List Point) × Bool) :=
  match solveLoop m (solveFuel m) (solveInit m) 0 with
  | none => none
  | some (st, true) =>
    match buildPathBack st.parent m.start (solveFuel m) m.endP with
    | none => none
    | some l => some (some l.reverse, true)
  | some (_, false) => some (none, false)

/-- The first reconstruction loop of the `Solve` variant in `part_003`:
compute the path length by walking the parent map from `end` to `start`
(`pathLen` starts at 1 and counts every step). -/
def chainLength (parent : Point → Option Point) (startP : Point) :
    Nat → Point → Option Nat
  | 0, _ => none
  | fuel + 1, p =>
    if p = startP then some 1
    else (chainLength parent startP fuel ((parent p).getD ⟨0, 0⟩)).map (· + 1)

/-- The second reconstruction loop of the `Solve` variant in `part_003`: fill
the pre-allocated slice back to front (`for i := pathLen-1; i >= 0; i--`);
prepending to `acc` is writing at descending indices. -/
def fillLoop (parent : Point → Option Point) : Nat → Point → List Point → List Point
  | 0, p, acc => p :: acc
  | i + 1, p, acc => fillLoop parent i ((parent p).getD ⟨0, 0⟩) (p :: acc)

/-- `Solve` from `part_003`: identical BFS, then length pre-computation and
back-to-front fill instead of collect-and-reverse. -/
def SolvePrealloc (m : Maze) : Option (Option (List Point) × Bool) :=
  match solveLoop m (solveFuel m) (solveInit m) 0 with
  | none => none
  | some (st, true) =>
    match chainLength st.parent m.start (solveFuel m) m.endP with
    | none => none
    | some n => some (some (fillLoop st.parent (n - 1) m.endP []), true)
  | some (_, false) => some (none, false)

/-- A hand-built 3×3 all-`Wall` maze whose start and end coincide (the
"Start equals End" scenario of the test suite, with the start cell left as a
`Wall`). -/
def wallMaze3 : Maze :=
  { width := 3, height := 3, grid := fun _ => Cell.Wall,
    start := ⟨1, 1⟩, endP := ⟨1, 1⟩, door := ⟨0, 0⟩,
    denWidth := 0, denHeight := 0, denStartX := 0, denStartY := 0 }

/-- The four cardinal neighbors of a point, in scan order. -/
def Point.nbrs (p : Point) : List Point := cardinalDirs.map p.add

/-- A point the `Solve` BFS may step onto: in the grid and not a `Wall`. -/
def stepOKB (m : Maze) (p : Point) : Bool :=
  m.inGrid p && decide (m.grid p ≠ Cell.Wall)

/-- A solution walk from `a` to `b`: a nonempty point list starting at `a`,
ending at `b`, with consecutive points cardinally adjacent and every point
after the first in-grid and non-`Wall` (the first point's own cell value is
irrelevant to the `Solve` BFS). -/
def SolPath (m : Maze) (a b : Point) (l : List Point) : Prop :=
  l.head? = some a ∧ l.getLast? = some b ∧
    l.Chain' (fun u v => v ∈ u.nbrs) ∧ ∀ v ∈ l.tail, stepOKB m v = true

/-- Executable test that consecutive points of a list are cardinally adjacent. -/
def adjChainB : List Point → Bool
  | [] => true
  | [_] => true
  | u :: v :: rest => decide (v ∈ u.nbrs) && adjChainB (v :: rest)

instance (m : Maze) (a b : Point) (l : List Point) : Decidable (SolPath m a b l) :=
  decidable_of_iff (l.head? = some a ∧ l.getLast? = some b ∧ adjChainB l = true ∧
    ∀ v ∈ l.tail, stepOKB m v = true)
    (by
      unfold SolPath
      have hiff : ∀ l2 : List Point,
          adjChainB l2 = true ↔ l2.Chain' (fun u v => v ∈ u.nbrs) := by
        intro l2
        induction l2 with
        | nil => simp [adjChainB]
        | cons x rest ih =>
          cases rest with
          | nil => simp [adjChainB]
          | cons y rest2 =>
            rw [List.chain'_cons, ← ih]
            show (decide (y ∈ x.nbrs) && adjChainB (y :: rest2)) = true ↔ _
            rw [Bool.and_eq_true, decide_eq_true_eq]
      rw [hiff l])

/-- `b` is reachable from `a` along a solution walk. -/
def ReachableS (m : Maze) (a b : Point) : Prop := ∃ l, SolPath m a b l

/-- The hand-built solvable 5×3 maze of the test suite (`S . E` corridor). -/
def laneMaze : Maze :=
  { width := 5, height := 3,
    grid := fun p =>
      if p = ⟨1, 1⟩ then Cell.Start
      else if p = ⟨2, 1⟩ then Cell.Path
      else if p = ⟨3, 1⟩ then Cell.End
      else Cell.Wall,
    start := ⟨1, 1⟩, endP := ⟨3, 1⟩, door := ⟨0, 0⟩,
    denWidth := 0, denHeight := 0, denStartX := 0, denStartY := 0 }

/-- Step-counted reachability along solution walks. -/
inductive SolReach (m : Maze) (s : Point) : Point → Nat → Prop
  | base : SolReach m s s 0
  | step {u v : Point} {n : Nat} : SolReach m s u n → v ∈ u.nbrs →
      stepOKB m v = true → SolReach m s v (n + 1)

/-- `n` is the exact BFS graph distance from `s` to `b`. -/
def distIs (m : Maze) (s b : Point) (n : Nat) : Prop :=
  SolReach m s b n ∧ ∀ k, SolReach m s b k → n ≤ k

/-- The backward parent-pointer chain from `p` down to `s`, as the list
`buildPathBack` would collect. -/
inductive ChainOK (parent : Point → Option Point) (s : Point) : Point → List Point → Prop
  | base : ChainOK parent s s [s]
  | step {p u : Point} {l : List Point} : p ≠ s → parent p = some u →
      ChainOK parent s u l → ChainOK parent s p (p :: l)

/-- The in-grid points of a maze as a finite set. -/
def gridFinset (m : Maze) : Finset Point :=
  ((Finset.Ico 0 m.width) ×ˢ (Finset.Ico 0 m.height)).map
    ⟨fun xy => ⟨xy.1, xy.2⟩, fun a b hab => by
      cases a; cases b; cases hab; rfl⟩

/-- The `Solve` BFS loop invariant, with an explicit distance assignment `df`.
`st.queue` lists every visited cell in visitation order; `head` counts the
processed prefix. -/
structure SolveInvD (m : Maze) (df : Point → Nat) (st : BfsSt) (head : Nat) : Prop where
  mem_iff : ∀ p, st.visited p = true ↔ p ∈ st.queue
  nodup : st.queue.Nodup
  head_le : head ≤ st.queue.length
  start_mem : m.start ∈ st.queue
  inb : ∀ p ∈ st.queue, m.inGrid p = true
  dist : ∀ p ∈ st.queue, distIs m m.start p (df p)
  mono : st.queue.Pairwise (fun a b => df a ≤ df b)
  level : ∀ q ∈ (st.queue.drop head).head?, ∀ p ∈ st.queue, df p ≤ df q + 1
  chain : ∀ p ∈ st.queue, ∃ l, ChainOK st.parent m.start p l ∧ l.Nodup ∧
    (∀ x ∈ l, x ∈ st.queue) ∧ l.length = df p + 1 ∧
    SolPath m m.start p l.reverse
  closed : ∀ p ∈ st.queue.take head, ∀ v ∈ p.nbrs, stepOKB m v = true →
    st.visited v = true
  not_done : ∀ p ∈ st.queue.take head, p ≠ m.endP

/-- Write one grid cell (the embedding of `m.grid[p.Y][p.X] = c`). -/
def setCell (mz : Maze) (p : Point) (c : Cell) : Maze :=
  { mz with grid := updF mz.grid p c }

/-- Modelled from the spec: the "caller-seedable pseudo-random source threaded
explicitly through generation calls".  `math/rand`'s internal algorithm is not
part of src/, so an explicit 64-bit LCG stands in for it; every claim below is
independent of the particular stream. -/
structure Rng where
  state : Nat

/-- One step of the modelled pseudo-random source. -/
def Rng.next (r : Rng) : Nat × Rng :=
  let s := (r.state * 6364136223846793005 + 1442695040888963407) % 18446744073709551616
  (s, ⟨s⟩)

/-- Modelled `rand.Intn`: a value in `[0, n)` for `n > 0` (Go panics on
`n ≤ 0`; the model returns 0 there, and no claim exercises that case). -/
def Rng.intn (r : Rng) (n : Int) : Int × Rng :=
  let (s, r') := r.next
  (if n ≤ 0 then 0 else (Int.ofNat s) % n, r')

/-- Modelled `rand.Float64`: a rational in `[0, 1)`. -/
def Rng.float64 (r : Rng) : ℚ × Rng :=
  let (s, r') := r.next
  ((s : ℚ) / 18446744073709551616, r')

/-- Modelled `rand.New(rand.NewSource(seed))`. -/
def rngOfSeed (seed : Int) : Rng := ⟨(seed.emod 18446744073709551616).toNat⟩

/-- `findValidNeighbors` from the Go source: the four 2-step neighbors that
are strictly inside the border, still `Wall`, whose connecting wall cell is
not inside the den and which are not themselves den-adjacent. -/
def findValidNeighbors (mz : Maze) (p : Point) : List Point :=
  let directions : List Point := [⟨0, -2⟩, ⟨0, 2⟩, ⟨-2, 0⟩, ⟨2, 0⟩]
  directions.foldl
    (fun acc dir =>
      let next := p.add dir
      if next.X > 0 ∧ next.X < mz.width - 1 ∧ next.Y > 0 ∧ next.Y < mz.height - 1 ∧
          mz.grid next = Cell.Wall then
        let wallBetween : Point := ⟨p.X + goDiv dir.X 2, p.Y + goDiv dir.Y 2⟩
        if mz.IsInsideDen wallBetween ∨ mz.IsAdjacentToDen next then acc
        else acc ++ [next]
      else acc)
    []

/-- `chooseBiasedNeighbor` from the Go source.  The stack is modelled with its
top at the head (the Go slice keeps its top at the end), so `stack[len-1]` is
the head and `stack[len-2]` the second element.  `r.Float64()` is consumed only
when a straight-continuation option exists, as in the Go short-circuit. -/
def chooseBiasedNeighbor (neighbors stack : List Point) (bias : ℚ) (r : Rng) :
    Point × Rng :=
  let lastDirection : Point :=
    match stack with
    | current :: previous :: _ => ⟨current.X - previous.X, current.Y - previous.Y⟩
    | _ => ⟨0, 0⟩
  let current : Point := stack.headD ⟨0, 0⟩
  let straightOption : Option Point :=
    neighbors.find? fun n =>
      decide (n.X - current.X = lastDirection.X ∧ n.Y - current.Y = lastDirection.Y)
  match straightOption with
  | some n =>
    let (f, r') := r.float64
    if f < bias then (n, r')
    else
      let (i, r'') := r'.intn (neighbors.length : Int)
      (neighbors.getD i.toNat ⟨0, 0⟩, r'')
  | none =>
    let (i, r') := r.intn (neighbors.length : Int)
    (neighbors.getD i.toNat ⟨0, 0⟩, r')

/-- The fuel of the DFS carving loop (each iteration pushes a freshly carved
cell or pops, so twice the cell count plus slack always suffices). -/
def dfsFuel (mz : Maze) : Nat := 2 * (mz.width * mz.height).toNat + 2

/-- The `for len(stack) > 0` loop body of `runDFS`. -/
def runDFSLoop (bias : ℚ) : Nat → List Point → Maze → Rng → Maze × Rng
  | 0, _, mz, r => (mz, r)
  | fuel + 1, stack, mz, r =>
    match stack with
    | [] => (mz, r)
    | current :: rest =>
      let neighbors := findValidNeighbors mz current
      if neighbors.length > 0 then
        let (next, r') := chooseBiasedNeighbor neighbors (current :: rest) bias r
        let wallToRemove : Point :=
          ⟨current.X + goDiv (next.X - current.X) 2,
            current.Y + goDiv (next.Y - current.Y) 2⟩
        let mz' := setCell (setCell mz wallToRemove Cell.Path) next Cell.Path
        runDFSLoop bias fuel (next :: current :: rest) mz' r'
      else
        runDFSLoop bias fuel rest mz r

/-- `runDFS` from the Go source: carve the start cell, then run the stack loop. -/
def runDFS (mz : Maze) (r : Rng) (start : Point) (bias : ℚ) : Maze × Rng :=
  runDFSLoop bias (dfsFuel mz) [start] (setCell mz start Cell.Path) r

/-- The state of the `carvePathToNearest` wall-tunnelling BFS. -/
structure CarveSt where
  queue : List Point
  visited : Point → Bool
  parent : Point → Option Point

/-- The neighbor scan of one `carvePathToNearest` iteration; returns the
updated state and, when an existing `Path` cell is found, that target (the
Go `break head_loop`). -/
def carveScan (mz : Maze) (current : Point) : CarveSt → List Point → CarveSt × Option Point
  | st, [] => (st, none)
  | st, dir :: dirs =>
    let next := current.add dir
    if next.X ≤ 0 ∨ next.X ≥ mz.width - 1 ∨ next.Y ≤ 0 ∨ next.Y ≥ mz.height - 1 then
      carveScan mz current st dirs
    else if mz.grid next = Cell.Path then
      ({ st with parent := updF st.parent next (some current) }, some next)
    else if mz.grid next = Cell.Wall ∧ st.visited next = false then
      carveScan mz current
        { queue := st.queue ++ [next],
          visited := updF st.visited next true,
          parent := updF st.parent next (some current) } dirs
    else carveScan mz current st dirs

/-- The `head_loop` of `carvePathToNearest`. -/
def carveLoop (mz : Maze) : Nat → CarveSt → Nat → Option ((Point → Option Point) × Option Point)
  | 0, _, _ => none
  | fuel + 1, st, head =>
    if h : head < st.queue.length then
      let current := st.queue.get ⟨head, h⟩
      match carveScan mz current st cardinalDirs with
      | (st', some target) => some (st'.parent, some target)
      | (st', none) => carveLoop mz fuel st' (head + 1)
    else some (st.parent, none)

/-- The backtracking loop of `carvePathToNearest`: from the found target step
to the parent first, then carve, until the origin is reached. -/
def carveBackLoop (parent : Point → Option Point) (startP : Point) :
    Nat → Point → Maze → Maze
  | 0, _, mz => mz
  | fuel + 1, p, mz =>
    if p = startP then mz
    else
      let p' := (parent p).getD ⟨0, 0⟩
      carveBackLoop parent startP fuel p' (setCell mz p' Cell.Path)

/-- `carvePathToNearest` from the Go source. -/
def carvePathToNearest (mz : Maze) (start : Point) : Maze × Option GenErr :=
  match carveLoop mz (solveFuel mz)
      { queue := [start], visited := updF (fun _ => false) start true,
        parent := fun _ => none } 0 with
  | none => (mz, some GenErr.outOfFuel)
  | some (_, none) => (mz, some GenErr.noPathToConnect)
  | some (parent, some target) =>
    (carveBackLoop parent start (solveFuel mz) target mz, none)

/-- The shared tail of `connectDenAtSide` after the `switch` has computed the
door and its outward neighbor: bounds check, open directly if the neighbor is
already a path, otherwise carve to the nearest path first. -/
def connectDenDoorAt (mz : Maze) (door neighbor : Point) : Maze × Option GenErr :=
  if door.X ≤ 0 ∨ door.X ≥ mz.width - 1 ∨ door.Y ≤ 0 ∨ door.Y ≥ mz.height - 1 ∨
      neighbor.X ≤ 0 ∨ neighbor.X ≥ mz.width - 1 ∨
      neighbor.Y ≤ 0 ∨ neighbor.Y ≥ mz.height - 1 then
    (mz, some GenErr.doorTooCloseToEdge)
  else if mz.grid neighbor = Cell.Path then
    ({ mz with grid := updF mz.grid door Cell.Path, door := door }, none)
  else
    match carvePathToNearest mz neighbor with
    | (mz', some e) => (mz', some e)
    | (mz', none) =>
      ({ mz' with grid := updF mz'.grid door Cell.Path, door := door }, none)

/-- `connectDenAtSide` from the Go source: the `switch` on the side name. -/
def connectDenAtSide (mz : Maze) (doorSide : String) : Maze × Option GenErr :=
  if doorSide = "top" then
    let door : Point := ⟨mz.denStartX + goDiv mz.denWidth 2, mz.denStartY - 1⟩
    connectDenDoorAt mz door ⟨door.X, door.Y - 1⟩
  else if doorSide = "bottom" then
    let door : Point := ⟨mz.denStartX + goDiv mz.denWidth 2, mz.denStartY + mz.denHeight⟩
    connectDenDoorAt mz door ⟨door.X, door.Y + 1⟩
  else if doorSide = "left" then
    let door : Point := ⟨mz.denStartX - 1, mz.denStartY + goDiv mz.denHeight 2⟩
    connectDenDoorAt mz door ⟨door.X - 1, door.Y⟩
  else if doorSide = "right" then
    let door : Point := ⟨mz.denStartX + mz.denWidth, mz.denStartY + goDiv mz.denHeight 2⟩
    connectDenDoorAt mz door ⟨door.X + 1, door.Y⟩
  else (mz, some GenErr.invalidDoorSide)

/-- `connectDenAtPoint` from the Go source. -/
def connectDenAtPoint (mz : Maze) (userDoor : Point) : Maze × Option GenErr :=
  if userDoor.X ≤ 0 ∨ userDoor.X ≥ mz.width - 1 ∨
      userDoor.Y ≤ 0 ∨ userDoor.Y ≥ mz.height - 1 ∨
      mz.grid userDoor ≠ Cell.Wall then
    (mz, some GenErr.invalidDoorNotWall)
  else
    let p1h : Point := ⟨userDoor.X - 1, userDoor.Y⟩
    let p2h : Point := ⟨userDoor.X + 1, userDoor.Y⟩
    if mz.grid p1h = Cell.Path ∧ mz.grid p2h = Cell.Path ∧
        mz.IsInsideDen p1h ≠ mz.IsInsideDen p2h then
      ({ mz with grid := updF mz.grid userDoor Cell.Path, door := userDoor }, none)
    else
      let p1v : Point := ⟨userDoor.X, userDoor.Y - 1⟩
      let p2v : Point := ⟨userDoor.X, userDoor.Y + 1⟩
      if mz.grid p1v = Cell.Path ∧ mz.grid p2v = Cell.Path ∧
          mz.IsInsideDen p1v ≠ mz.IsInsideDen p2v then
        ({ mz with grid := updF mz.grid userDoor Cell.Path, door := userDoor }, none)
      else (mz, some GenErr.doorNotConnecting)

/-- The candidate-door scan of `connectRandomDenDoor`, in the Go scan order
(`y` outer from 1 to height−2, `x` inner from 1 to width−2). -/
def potentialDoors (mz : Maze) : List Point :=
  (List.range (mz.height - 2).toNat).foldl
    (fun acc iy =>
      let y : Int := 1 + iy
      (List.range (mz.width - 2).toNat).foldl
        (fun acc2 ix =>
          let x : Int := 1 + ix
          if mz.grid ⟨x, y⟩ ≠ Cell.Wall then acc2
          else
            let p1h : Point := ⟨x - 1, y⟩
            let p2h : Point := ⟨x + 1, y⟩
            if mz.grid p1h = Cell.Path ∧ mz.grid p2h = Cell.Path ∧
                mz.IsInsideDen p1h ≠ mz.IsInsideDen p2h then
              acc2 ++ [⟨x, y⟩]
            else
              let p1v : Point := ⟨x, y - 1⟩
              let p2v : Point := ⟨x, y + 1⟩
              if mz.grid p1v = Cell.Path ∧ mz.grid p2v = Cell.Path ∧
                  mz.IsInsideDen p1v ≠ mz.IsInsideDen p2v then
                acc2 ++ [⟨x, y⟩]
              else acc2)
        acc)
    []

/-- `connectRandomDenDoor` from the Go source. -/
def connectRandomDenDoor (mz : Maze) (r : Rng) : (Maze × Rng) × Option GenErr :=
  let pd := potentialDoors mz
  if pd.length > 0 then
    let (i, r') := r.intn (pd.length : Int)
    let door := pd.getD i.toNat ⟨0, 0⟩
    (({ mz with grid := updF mz.grid door Cell.Path, door := door }, r'), none)
  else ((mz, r), none)

/-- `connectDen` from the Go source: side name takes precedence over an
explicit point, which takes precedence over the random strategy. -/
def connectDen (mz : Maze) (r : Rng) (userDoor : Option Point) (doorSide : String) :
    (Maze × Rng) × Option GenErr :=
  if mz.denWidth ≤ 0 ∨ mz.denHeight ≤ 0 then ((mz, r), none)
  else if doorSide ≠ "" then
    let (mz', e) := connectDenAtSide mz doorSide
    ((mz', r), e)
  else
    match userDoor with
    | some d =>
      let (mz', e) := connectDenAtPoint mz d
      ((mz', r), e)
    | none => connectRandomDenDoor mz r

/-- The state of the `findFarthestPoint` BFS: the queue, the distances map
(also the visited set) and the running farthest/maxDistance accumulators. -/
structure FarSt where
  queue : List Point
  distances : Point → Option Int
  farthest : Point
  maxDistance : Int

/-- One direction of the `findFarthestPoint` neighbor scan. -/
def farStepDir (mz : Maze) (current : Point) (st : FarSt) (dir : Point) : FarSt :=
  let next := current.add dir
  if next.X > 0 ∧ next.X < mz.width - 1 ∧ next.Y > 0 ∧ next.Y < mz.height - 1 ∧
      mz.grid next ≠ Cell.Wall then
    match st.distances next with
    | some _ => st
    | none =>
      let dist := (st.distances current).getD 0 + 1
      let upd : FarSt :=
        { queue := st.queue ++ [next],
          distances := updF st.distances next (some dist),
          farthest := st.farthest, maxDistance := st.maxDistance }
      if dist > st.maxDistance ∧ mz.IsInsideDen next = false ∧
          mz.IsAdjacentToDen next = false then
        { upd with farthest := next, maxDistance := dist }
      else upd
  else st

/-- The `findFarthestPoint` BFS loop. -/
def farLoop (mz : Maze) : Nat → FarSt → Nat → Option FarSt
  | 0, _, _ => none
  | fuel + 1, st, head =>
    if h : head < st.queue.length then
      let current := st.queue.get ⟨head, h⟩
      farLoop mz fuel (cardinalDirs.foldl (farStepDir mz current) st) (head + 1)
    else some st

/-- The full `findFarthestPoint` run, exposing the final BFS state. -/
def farRun (mz : Maze) (start : Point) : Option FarSt :=
  farLoop mz (solveFuel mz + 1)
    { queue := [start], distances := updF (fun _ => none) start (some 0),
      farthest := start, maxDistance := 0 } 0

/-- `findFarthestPoint` from the Go source: the farthest point and its
distance.  The fuel-exhaustion fallback `(start, 0)` is an embedding artifact,
proved unreachable where a claim needs it. -/
def findFarthestPoint (mz : Maze) (start : Point) : Point × Int :=
  match farRun mz start with
  | some st => (st.farthest, st.maxDistance)
  | none => (start, 0)

/-- `placeStartAndEnd` from the Go source. -/
def placeStartAndEnd (mz : Maze) (generationStart : Point) (useProvidedStart : Bool) :
    Maze :=
  let mz1 :=
    if useProvidedStart then { mz with start := generationStart }
    else { mz with start := (findFarthestPoint mz generationStart).1 }
  let mz2 := { mz1 with endP := (findFarthestPoint mz1 mz1.start).1 }
  let mz3 := setCell mz2 mz2.start Cell.Start
  setCell mz3 mz3.endP Cell.End

/-- The random-start retry loop of `Generate` (`for { ... }`), fuelled. -/
def selectStart (mz : Maze) : Nat → Rng → Option (Point × Rng)
  | 0, _ => none
  | fuel + 1, r =>
    let (sx, r1) := r.intn (goDiv (mz.width - 1) 2)
    let (sy, r2) := r1.intn (goDiv (mz.height - 1) 2)
    let p : Point := ⟨sx * 2 + 1, sy * 2 + 1⟩
    if mz.IsInsideDen p = false then some (p, r2)
    else selectStart mz fuel r2

/-- The caller-supplied start point is rejected by `Generate` when a
coordinate is even or the point is not strictly inside the border. -/
def badStartGeom (mz : Maze) (s : Point) : Prop :=
  s.X ≤ 0 ∨ s.X ≥ mz.width - 1 ∨ s.Y ≤ 0 ∨ s.Y ≥ mz.height - 1 ∨
    goMod s.X 2 = 0 ∨ goMod s.Y 2 = 0

instance (mz : Maze) (s : Point) : Decidable (badStartGeom mz s) :=
  inferInstanceAs (Decidable (_ ∨ _ ∨ _ ∨ _ ∨ _ ∨ _))

/-- Steps 2–4 of `Generate` (after the start point is settled): run the DFS,
connect the den, place start and end. -/
def generateCore (mz : Maze) (r : Rng) (generationStart : Point)
    (useProvidedStart : Bool) (door : Option Point) (doorSide : String)
    (bias : ℚ) : Maze × Option GenErr :=
  let (mz1, r1) := runDFS mz r generationStart bias
  match connectDen mz1 r1 door doorSide with
  | ((mz2, _), some e) => (mz2, some e)
  | ((mz2, _), none) => (placeStartAndEnd mz2 generationStart useProvidedStart, none)

/-- `Generate` from the Go source, as a state-passing function: the returned
maze is the receiver's state after the call, alongside the error. -/
def Generate (mz : Maze) (seed : Int) (start : Option Point) (door : Option Point)
    (doorSide : String) (bias : ℚ) : Maze × Option GenErr :=
  let r := rngOfSeed seed
  match start with
  | some s =>
    if badStartGeom mz s then (mz, some GenErr.invalidStartPoint)
    else if mz.IsInsideDen s then (mz, some GenErr.startInsideDen)
    else generateCore mz r s true door doorSide bias
  | none =>
    match selectStart mz (solveFuel mz) r with
    | none => (mz, some GenErr.outOfFuel)
    | some (gs, r') => generateCore mz r' gs false door doorSide bias

/-- A cell the farthest-point search may report: neither den-interior nor
den-adjacent. -/
def eligDen (m : Maze) (p : Point) : Prop :=
  m.IsInsideDen p = false ∧ m.IsAdjacentToDen p = false

instance (m : Maze) (p : Point) : Decidable (eligDen m p) :=
  inferInstanceAs (Decidable (_ ∧ _))

/-- The `findFarthestPoint` loop invariant: the distances map's domain is the
queue, every visited eligible cell's distance is bounded by `maxDistance`, and
`farthest` is either the reference point (while `maxDistance = 0`) or the
first-enqueued eligible cell realizing `maxDistance`. -/
structure FarInv (m : Maze) (s : Point) (st : FarSt) : Prop where
  dom_iff : ∀ q, (st.distances q).isSome = true ↔ q ∈ st.queue
  nodup : st.queue.Nodup
  inQ : ∀ q ∈ st.queue,
    q = s ∨ (q.X > 0 ∧ q.X < m.width - 1 ∧ q.Y > 0 ∧ q.Y < m.height - 1 ∧
      m.grid q ≠ Cell.Wall)
  dist_s : st.distances s = some 0
  nonneg : ∀ q dq, st.distances q = some dq → 0 ≤ dq
  maxNonneg : 0 ≤ st.maxDistance
  le_max : ∀ q dq, st.distances q = some dq → eligDen m q → dq ≤ st.maxDistance
  far_pos : 0 < st.maxDistance →
    eligDen m st.farthest ∧ st.distances st.farthest = some st.maxDistance ∧
    ∃ i : Fin st.queue.length, st.queue.get i = st.farthest ∧
      ∀ j : Fin st.queue.length, j.1 < i.1 →
        ∀ dj, st.distances (st.queue.get j) = some dj →
          eligDen m (st.queue.get j) → dj < st.maxDistance
  far_zero : st.maxDistance = 0 → st.farthest = s

/-- A DFS lattice node: an interior cell with both coordinates odd. -/
def OddCell (m : Maze) (p : Point) : Prop :=
  Odd p.X ∧ Odd p.Y ∧ 0 < p.X ∧ p.X < m.width - 1 ∧ 0 < p.Y ∧ p.Y < m.height - 1

instance (n : Int) : Decidable (Odd n) :=
  decidable_of_iff (n % 2 = 1) Int.odd_iff.symm

instance (m : Maze) (p : Point) : Decidable (OddCell m p) :=
  inferInstanceAs (Decidable (_ ∧ _))

/-- The two-step neighbor offsets scanned by `findValidNeighbors`. -/
def twoStepDirs : List Point := [⟨0, -2⟩, ⟨0, 2⟩, ⟨-2, 0⟩, ⟨2, 0⟩]

/-- The four two-step neighbors of a lattice node. -/
def twoNbrs (p : Point) : List Point := twoStepDirs.map p.add

/-- The wall cell between a lattice node and a two-step neighbor (the
`wallBetween` / `wallToRemove` formula of the Go source). -/
def Mid (p q : Point) : Point :=
  ⟨p.X + goDiv (q.X - p.X) 2, p.Y + goDiv (q.Y - p.Y) 2⟩

/-- A simple path through cells satisfying `good`: nonempty, from `a` to `b`,
consecutive cells cardinally adjacent, no repeated cell. -/
def SimplePathIn (good : Point → Prop) (a b : Point) (l : List Point) : Prop :=
  l.head? = some a ∧ l.getLast? = some b ∧ l.Chain' (fun u v => v ∈ u.nbrs) ∧
  (∀ v ∈ l, good v) ∧ l.Nodup

/-- The loop invariant of `runDFSLoop` on a den-less maze: the carved cells
form a parent tree on interior odd nodes rooted at the initial cell `s`, every
carved non-node cell is the wall opened between a node and its parent, the
stack holds carved nodes, and every carved node off the stack has all its
in-bounds two-step neighbors already carved. -/
structure DfsTreeInv (m : Maze) (s : Point) (g : Point → Cell)
    (par : Point → Point) (d : Point → Nat) (stack : List Point) : Prop where
  s_carved : g s ≠ Cell.Wall
  s_odd : OddCell m s
  d_s : d s = 0
  node_par : ∀ p, g p ≠ Cell.Wall → OddCell m p → p ≠ s →
    OddCell m (par p) ∧ g (par p) ≠ Cell.Wall ∧ par p ∈ twoNbrs p ∧
    g (Mid p (par p)) ≠ Cell.Wall ∧ d p = d (par p) + 1
  carved_shape : ∀ p, g p ≠ Cell.Wall → ¬ OddCell m p →
    ∃ q, g q ≠ Cell.Wall ∧ OddCell m q ∧ q ≠ s ∧ p = Mid q (par q)
  stack_ok : ∀ p ∈ stack, g p ≠ Cell.Wall ∧ OddCell m p
  sat : ∀ p, g p ≠ Cell.Wall → OddCell m p → p ∉ stack →
    ∀ q ∈ twoNbrs p, 0 < q.X → q.X < m.width - 1 → 0 < q.Y → q.Y < m.height - 1 →
      g q ≠ Cell.Wall

/-- The interior odd cells still to be carved (the DFS termination measure). -/
def uncarvedOdds (m : Maze) (g : Point → Cell) : Finset Point :=
  (gridFinset m).filter (fun p => OddCell m p ∧ g p = Cell.Wall)

/-- A one-cell step that goes down one depth level. -/
def DStep (D : Point → Nat) (u v : Point) : Prop := v ∈ u.nbrs ∧ D v + 1 = D u

/-- A one-cell step that goes up one depth level. -/
def UStep (D : Point → Nat) (u v : Point) : Prop := v ∈ u.nbrs ∧ D v = D u + 1

instance (D : Point → Nat) : IsTrans Point (fun u v => D v < D u) :=
  ⟨fun _ _ _ h1 h2 => lt_trans h2 h1⟩

/-- An abstract rooted-tree presentation of a cell set by a depth function:
the root `s` is the unique cell of depth 0, adjacent cells differ in depth by
exactly one, and every non-root cell has exactly one neighbor one level down.
The carved corridors of the den-less DFS satisfy this, and it forces unique
simple paths. -/
structure TreeDepth (good : Point → Prop) (D : Point → Nat) (s : Point) : Prop where
  root_good : good s
  root_d : D s = 0
  d_zero : ∀ p, good p → D p = 0 → p = s
  step_pm : ∀ p q, good p → good q → q ∈ p.nbrs → D q = D p + 1 ∨ D p = D q + 1
  down_ex : ∀ p, good p → 0 < D p → ∃ u, good u ∧ u ∈ p.nbrs ∧ D u + 1 = D p
  down_uniq : ∀ p u v, good p → good u → good v → u ∈ p.nbrs → v ∈ p.nbrs →
    D u + 1 = D p → D v + 1 = D p → u = v

theorem tmod_two_eq_zero_iff (d : Int) : goMod d 2 = 0 ↔ 2 ∣ d := by
  constructor
  · exact fun h => Int.dvd_of_tmod_eq_zero h
  · exact fun h => Int.tmod_eq_zero_of_dvd h

theorem adjustToOdd_eq (d : Int) :
    adjustToOdd d = if 0 < d ∧ 2 ∣ d then d + 1 else d := by
  unfold adjustToOdd
  by_cases h : 0 < d ∧ 2 ∣ d
  · rw [if_pos ⟨h.1, (tmod_two_eq_zero_iff d).mpr h.2⟩, if_pos h]
  · rw [if_neg (fun hc => h ⟨hc.1, (tmod_two_eq_zero_iff d).mp hc.2⟩), if_neg h]

theorem newRejects_iff (w h dw dh : Int) :
    newRejects w h dw dh ↔
      (w ≤ 0 ∨ h ≤ 0) ∨ (dw < 0 ∨ dh < 0) ∨
        (adjustToOdd dw > 0 ∧ adjustToOdd dw ≥ adjustToOdd w - 2) ∨
        (adjustToOdd dh > 0 ∧ adjustToOdd dh ≥ adjustToOdd h - 2) := by
  simp only [adjustToOdd_eq]
  unfold newRejects
  tauto

theorem validate_spec (w h dw dh : Int) :
    validateAndAdjustDimensions w h dw dh =
      if w ≤ 0 ∨ h ≤ 0 then Except.error GenErr.nonPositiveDims
      else if dw < 0 ∨ dh < 0 then Except.error GenErr.negativeDenDims
      else if adjustToOdd dw > 0 ∧ adjustToOdd dw ≥ adjustToOdd w - 2 then
        Except.error GenErr.denWidthTooLarge
      else if adjustToOdd dh > 0 ∧ adjustToOdd dh ≥ adjustToOdd h - 2 then
        Except.error GenErr.denHeightTooLarge
      else Except.ok (adjustToOdd w, adjustToOdd h, adjustToOdd dw, adjustToOdd dh) := rfl

theorem New_eq (w h dw dh : Int) :
    New w h dw dh =
      if w ≤ 0 ∨ h ≤ 0 then Except.error GenErr.nonPositiveDims
      else if dw < 0 ∨ dh < 0 then Except.error GenErr.negativeDenDims
      else if adjustToOdd dw > 0 ∧ adjustToOdd dw ≥ adjustToOdd w - 2 then
        Except.error GenErr.denWidthTooLarge
      else if adjustToOdd dh > 0 ∧ adjustToOdd dh ≥ adjustToOdd h - 2 then
        Except.error GenErr.denHeightTooLarge
      else
        Except.ok (newOk (adjustToOdd w) (adjustToOdd h) (adjustToOdd dw) (adjustToOdd dh)) := by
  unfold New
  rw [validate_spec]
  split_ifs <;> rfl

theorem adjustToOdd_odd_of_pos (d : Int) (hd : 0 < d) : Odd (adjustToOdd d) := by
  rw [adjustToOdd_eq, Int.odd_iff]
  by_cases hdvd : 2 ∣ d
  · rw [if_pos ⟨hd, hdvd⟩]; omega
  · rw [if_neg (by tauto)]; omega

theorem adjustToOdd_plain (d : Int) (hd : 0 < d) :
    adjustToOdd d = if 2 ∣ d then d + 1 else d := by
  rw [adjustToOdd_eq]
  by_cases hdvd : 2 ∣ d
  · rw [if_pos ⟨hd, hdvd⟩, if_pos hdvd]
  · rw [if_neg (by tauto), if_neg hdvd]

/-- C3: `New` returns an error if and only if `width ≤ 0`, or `height ≤ 0`, or
`denWidth < 0`, or `denHeight < 0`, or a positive odd-adjusted den dimension is
`≥` the corresponding odd-adjusted maze dimension `− 2`; on success the stored
width and height equal the inputs with any even value incremented by one, hence
are always odd. -/
theorem C3_new_validation (w h dw dh : Int) :
    ((∃ e, New w h dw dh = Except.error e) ↔ newRejects w h dw dh) ∧
    (¬ newRejects w h dw dh →
      ∃ m, New w h dw dh = Except.ok m ∧
        m.width = (if 2 ∣ w then w + 1 else w) ∧
        m.height = (if 2 ∣ h then h + 1 else h) ∧
        Odd m.width ∧ Odd m.height) := by
  have hiff := newRejects_iff w h dw dh
  rw [New_eq]
  by_cases c1 : w ≤ 0 ∨ h ≤ 0
  · rw [if_pos c1]
    exact ⟨⟨fun _ => hiff.mpr (Or.inl c1), fun _ => ⟨_, rfl⟩⟩,
      fun hr => absurd (hiff.mpr (Or.inl c1)) hr⟩
  rw [if_neg c1]
  by_cases c2 : dw < 0 ∨ dh < 0
  · rw [if_pos c2]
    exact ⟨⟨fun _ => hiff.mpr (Or.inr (Or.inl c2)), fun _ => ⟨_, rfl⟩⟩,
      fun hr => absurd (hiff.mpr (Or.inr (Or.inl c2))) hr⟩
  rw [if_neg c2]
  by_cases c3 : adjustToOdd dw > 0 ∧ adjustToOdd dw ≥ adjustToOdd w - 2
  · rw [if_pos c3]
    exact ⟨⟨fun _ => hiff.mpr (Or.inr (Or.inr (Or.inl c3))), fun _ => ⟨_, rfl⟩⟩,
      fun hr => absurd (hiff.mpr (Or.inr (Or.inr (Or.inl c3)))) hr⟩
  rw [if_neg c3]
  by_cases c4 : adjustToOdd dh > 0 ∧ adjustToOdd dh ≥ adjustToOdd h - 2
  · rw [if_pos c4]
    exact ⟨⟨fun _ => hiff.mpr (Or.inr (Or.inr (Or.inr c4))), fun _ => ⟨_, rfl⟩⟩,
      fun hr => absurd (hiff.mpr (Or.inr (Or.inr (Or.inr c4)))) hr⟩
  rw [if_neg c4]
  refine ⟨⟨fun he => ?_, fun hr => absurd (hiff.mp hr) (by tauto)⟩,
    fun _ => ⟨_, rfl, ?_, ?_, ?_, ?_⟩⟩
  · obtain ⟨e, he⟩ := he
    exact Except.noConfusion he
  · exact adjustToOdd_plain w (by omega)
  · exact adjustToOdd_plain h (by omega)
  · exact adjustToOdd_odd_of_pos w (by omega)
  · exact adjustToOdd_odd_of_pos h (by omega)

theorem fillLoop_succ (par : Point → Option Point) (i : Nat) (p : Point) (acc : List Point) :
    fillLoop par (i + 1) p acc = fillLoop par i ((par p).getD ⟨0, 0⟩) (p :: acc) := rfl

theorem recon_aux (par : Point → Option Point) (s : Point) :
    ∀ fuel p,
      (buildPathBack par s fuel p = none ↔ chainLength par s fuel p = none) ∧
      (∀ l n, buildPathBack par s fuel p = some l → chainLength par s fuel p = some n →
        1 ≤ n ∧ n = l.length ∧ ∀ acc, fillLoop par (n - 1) p acc = l.reverse ++ acc) := by
  intro fuel
  induction fuel with
  | zero =>
    intro p
    refine ⟨⟨fun _ => rfl, fun _ => rfl⟩, fun l n hl _ => ?_⟩
    simp [buildPathBack] at hl
  | succ f ih =>
    intro p
    by_cases hp : p = s
    · refine ⟨by simp [buildPathBack, chainLength, hp], fun l n hl hn => ?_⟩
      simp only [buildPathBack, chainLength, if_pos hp, Option.some.injEq] at hl hn
      subst hl
      subst hn
      exact ⟨le_refl 1, rfl, fun acc => by simp [fillLoop, hp]⟩
    · have hb : buildPathBack par s (f + 1) p =
          match buildPathBack par s f ((par p).getD ⟨0, 0⟩) with
          | none => none
          | some l => some (p :: l) := by
        simp [buildPathBack, hp]
      have hc : chainLength par s (f + 1) p =
          (chainLength par s f ((par p).getD ⟨0, 0⟩)).map (· + 1) := by
        simp [chainLength, hp]
      cases hq : buildPathBack par s f ((par p).getD ⟨0, 0⟩) with
      | none =>
        have := ((ih ((par p).getD ⟨0, 0⟩)).1).mp hq
        rw [hb, hq, hc, this]
        exact ⟨by simp, fun l n hl _ => by simp at hl⟩
      | some l' =>
        cases hck : chainLength par s f ((par p).getD ⟨0, 0⟩) with
        | none =>
          exact absurd (((ih ((par p).getD ⟨0, 0⟩)).1).mpr hck) (by simp [hq])
        | some k =>
          obtain ⟨hk1, hklen, hfill⟩ := (ih ((par p).getD ⟨0, 0⟩)).2 l' k hq hck
          rw [hb, hq, hc, hck]
          refine ⟨by simp, fun l n hl hn => ?_⟩
          simp only [Option.some.injEq, Option.map_some'] at hl hn
          subst hl
          subst hn
          refine ⟨by omega, by simp [hklen], fun acc => ?_⟩
          have hkk : k + 1 - 1 = (k - 1) + 1 := by omega
          rw [hkk, fillLoop_succ, hfill (p :: acc)]
          simp

/-- C8: the two `Solve` implementations — collect-then-reverse (`solve.go`)
and pre-computed-length back-to-front fill (`part_003`) — return equal
results on every maze state. -/
theorem C8_solve_variants_agree (m : Maze) : Solve m = SolvePrealloc m := by
  unfold Solve SolvePrealloc
  cases hres : solveLoop m (solveFuel m) (solveInit m) 0 with
  | none => rfl
  | some r =>
    obtain ⟨st, found⟩ := r
    cases found
    · rfl
    · have haux := recon_aux st.parent m.start (solveFuel m) m.endP
      show (match buildPathBack st.parent m.start (solveFuel m) m.endP with
            | none => none
            | some l => some (some l.reverse, true)) =
          (match chainLength st.parent m.start (solveFuel m) m.endP with
            | none => none
            | some n => some (some (fillLoop st.parent (n - 1) m.endP []), true))
      cases hb : buildPathBack st.parent m.start (solveFuel m) m.endP with
      | none => rw [haux.1.mp hb]
      | some l =>
        cases hck : chainLength st.parent m.start (solveFuel m) m.endP with
        | none => exact absurd (haux.1.mpr hck) (by simp [hb])
        | some n =>
          obtain ⟨h1, hlen, hfill⟩ := haux.2 l n hb hck
          show some (some l.reverse, true) =
            some (some (fillLoop st.parent (n - 1) m.endP []), true)
          rw [hfill []]
          simp

/-- C10: when `start` and `end` coincide at an in-bounds point, `Solve`
returns the one-point path and `true` whatever cell value is stored there
(the end test happens on dequeue, before any walkability test). -/
theorem C10_start_eq_end (m : Maze) (p : Point)
    (hs : m.start = p) (he : m.endP = p)
    (hx : 0 ≤ p.X ∧ p.X < m.width ∧ 0 ≤ p.Y ∧ p.Y < m.height) :
    Solve m = some (some [p], true) := by
  unfold Solve solveFuel
  simp [solveLoop, solveInit, buildPathBack, hs, he]

theorem C10_start_eq_end_witness : Solve wallMaze3 = some (some [⟨1, 1⟩], true) :=
  C10_start_eq_end wallMaze3 ⟨1, 1⟩ rfl rfl (by decide)

/-- C1 counterexample: on `wallMaze3` (start = end stored as a `Wall` cell)
`Solve` returns `(path, true)` although the returned path contains a `Wall`
cell and `end` is not reachable from `start` through non-`Wall` cells, so the
claim as stated fails at this concrete input. -/
theorem C1_counterexample :
    Solve wallMaze3 = some (some [⟨1, 1⟩], true) ∧
      wallMaze3.grid ⟨1, 1⟩ = Cell.Wall ∧
      wallMaze3.start = ⟨1, 1⟩ ∧ wallMaze3.endP = ⟨1, 1⟩ := by
  exact ⟨by decide, rfl, rfl, rfl⟩

theorem C3_new_validation_witness :
    ¬ newRejects 4 4 0 0 ∧
      ∃ m, New 4 4 0 0 = Except.ok m ∧
        m.width = (if 2 ∣ (4 : Int) then 4 + 1 else 4) ∧
        m.height = (if 2 ∣ (4 : Int) then 4 + 1 else 4) ∧
        Odd m.width ∧ Odd m.height :=
  ⟨by decide, (C3_new_validation 4 4 0 0).2 (by decide)⟩

theorem solPath_single (m : Maze) (s : Point) : SolPath m s s [s] :=
  ⟨rfl, rfl, List.chain'_singleton s, by simp⟩

theorem solPath_ne_nil {m : Maze} {a b : Point} {l : List Point}
    (h : SolPath m a b l) : l ≠ [] := by
  intro hl
  rw [hl] at h
  exact Option.noConfusion h.1

theorem solPath_snoc {m : Maze} {s u v : Point} {l : List Point}
    (h : SolPath m s u l) (hnb : v ∈ u.nbrs) (hok : stepOKB m v = true) :
    SolPath m s v (l ++ [v]) := by
  obtain ⟨hh, hl, hc, ht⟩ := h
  refine ⟨?_, List.getLast?_concat l, ?_, ?_⟩
  · rw [List.head?_append_of_ne_nil _ (solPath_ne_nil ⟨hh, hl, hc, ht⟩)]
    exact hh
  · refine List.Chain'.append hc (List.chain'_singleton v) ?_
    intro x hx y hy
    simp only [Option.mem_def, List.head?_cons, Option.some.injEq] at hx hy
    rw [hl] at hx
    injection hx with hx
    subst hx
    subst hy
    exact hnb
  · intro w hw
    have hne := solPath_ne_nil ⟨hh, hl, hc, ht⟩
    rcases l with _ | ⟨x, xs⟩
    · exact absurd rfl hne
    · simp only [List.cons_append, List.tail_cons, List.mem_append,
        List.mem_singleton] at hw
      rcases hw with hw | hw
      · exact ht w (by simpa using hw)
      · rw [hw]; exact hok

theorem spath_of_reach {m : Maze} {s b : Point} {n : Nat}
    (h : SolReach m s b n) : ∃ l, SolPath m s b l ∧ l.length = n + 1 := by
  induction h with
  | base => exact ⟨[s], solPath_single m s, rfl⟩
  | step _ hnb hok ih =>
    obtain ⟨l, hp, hlen⟩ := ih
    exact ⟨l ++ [_], solPath_snoc hp hnb hok, by simp [hlen]⟩

theorem solPath_dropLast {m : Maze} {s v : Point} {l : List Point}
    (h : SolPath m s v (l ++ [v])) (hne : l ≠ []) :
    SolPath m s (l.getLast hne) l ∧ v ∈ (l.getLast hne).nbrs ∧ stepOKB m v = true := by
  obtain ⟨hh, hl, hc, ht⟩ := h
  have hchain := hc
  rw [List.chain'_append] at hchain
  obtain ⟨hcl, _, hlink⟩ := hchain
  have hlast : l.getLast? = some (l.getLast hne) := List.getLast?_eq_getLast l hne
  refine ⟨⟨?_, hlast, hcl, ?_⟩, ?_, ?_⟩
  · rw [List.head?_append_of_ne_nil _ hne] at hh
    exact hh
  · intro w hw
    refine ht w ?_
    rcases l with _ | ⟨x, xs⟩
    · exact absurd rfl hne
    · simp only [List.cons_append, List.tail_cons]
      exact List.mem_append_left _ hw
  · exact hlink _ hlast _ rfl
  · rcases l with _ | ⟨x, xs⟩
    · exact absurd rfl hne
    · exact ht v (by simp)

theorem reach_of_spath {m : Maze} {s b : Point} {l : List Point}
    (h : SolPath m s b l) : SolReach m s b (l.length - 1) := by
  induction l using List.reverseRecOn generalizing b with
  | nil => exact absurd rfl (solPath_ne_nil h)
  | append_singleton l v ih =>
    have hb : b = v := by
      have := h.2.1
      rw [List.getLast?_concat] at this
      exact (Option.some.injEq _ _ ▸ this.symm)
    subst hb
    rcases eq_or_ne l [] with hl | hl
    · subst hl
      have hs : b = s := by
        have := h.1
        simp only [List.nil_append, List.head?_cons, Option.some.injEq] at this
        exact this
      subst hs
      exact SolReach.base
    · obtain ⟨hp, hnb, hok⟩ := solPath_dropLast h hl
      have := ih hp
      have hlen : l.length - 1 + 1 = l.length := Nat.succ_pred_eq_of_pos (List.length_pos.mpr hl)
      have hr := SolReach.step this hnb hok
      rw [hlen] at hr
      simpa using hr

theorem distIs_exists {m : Maze} {s b : Point} {k : Nat}
    (h : SolReach m s b k) : ∃ n, distIs m s b n := by
  classical
  have hex : ∃ n, SolReach m s b n := ⟨k, h⟩
  exact ⟨Nat.find hex, Nat.find_spec hex, fun j hj => Nat.find_min' hex hj⟩

theorem distIs_unique {m : Maze} {s b : Point} {n n' : Nat}
    (h : distIs m s b n) (h' : distIs m s b n') : n = n' :=
  le_antisymm (h.2 n' h'.1) (h'.2 n h.1)

theorem distIs_zero (m : Maze) (s : Point) : distIs m s s 0 :=
  ⟨SolReach.base, fun k _ => Nat.zero_le k⟩

theorem solReach_zero {m : Maze} {s b : Point} (h : SolReach m s b 0) : b = s := by
  cases h
  rfl

theorem distIs_pred {m : Maze} {s v : Point} {n : Nat}
    (h : distIs m s v n) (hn : n ≠ 0) :
    ∃ u, v ∈ u.nbrs ∧ stepOKB m v = true ∧ distIs m s u (n - 1) := by
  obtain ⟨hr, hmin⟩ := h
  cases hr with
  | base => exact absurd rfl hn
  | step hu hnb hok =>
    rename_i u k
    obtain ⟨nu, hnu⟩ := distIs_exists hu
    have h1 : nu ≤ k := hnu.2 k hu
    have h2 : k + 1 ≤ nu + 1 := hmin (nu + 1) (SolReach.step hnu.1 hnb hok)
    have : nu = k := by omega
    subst this
    exact ⟨u, hnb, hok, by simpa using hnu⟩

theorem distIs_le_succ {m : Maze} {s u v : Point} {n : Nat}
    (h : distIs m s u n) (hnb : v ∈ u.nbrs) (hok : stepOKB m v = true) :
    ∃ k, distIs m s v k ∧ k ≤ n + 1 := by
  have hr := SolReach.step h.1 hnb hok
  obtain ⟨k, hk⟩ := distIs_exists hr
  exact ⟨k, hk, hk.2 _ hr⟩

theorem chainOK_length_pos {parent : Point → Option Point} {s p : Point}
    {l : List Point} (h : ChainOK parent s p l) : 1 ≤ l.length := by
  cases h <;> simp

theorem chainOK_buildPathBack {parent : Point → Option Point} {s p : Point}
    {l : List Point} (h : ChainOK parent s p l) :
    ∀ fuel, l.length ≤ fuel → buildPathBack parent s fuel p = some l := by
  induction h with
  | base =>
    intro fuel hf
    cases fuel with
    | zero => simp at hf
    | succ f => simp [buildPathBack]
  | @step p' u l' hps hpar _ ih =>
    intro fuel hf
    cases fuel with
    | zero => simp at hf
    | succ f =>
      have : buildPathBack parent s f ((parent p').getD ⟨0, 0⟩) = some l' := by
        rw [hpar, Option.getD_some]
        apply ih
        simp only [List.length_cons] at hf
        omega
      simp only [buildPathBack, if_neg hps, this]

theorem mem_of_getElem? {l : List Point} {i : Nat} {a : Point} (h : l[i]? = some a) :
    a ∈ l := by
  have hi : i < l.length := by
    by_contra hc
    rw [List.getElem?_eq_none (le_of_not_lt hc)] at h
    cases h
  rw [List.getElem?_eq_getElem hi] at h
  injection h with h
  rw [← h]
  exact List.getElem_mem hi

theorem getElem_mem_take {l : List Point} {i j : Nat} (hi : i < l.length) (hj : j < i) :
    l.get ⟨j, by omega⟩ ∈ l.take i := by
  have hlt : j < (l.take i).length := by simp [List.length_take]; omega
  have heq : (l.take i).get ⟨j, hlt⟩ = l.get ⟨j, by omega⟩ := by
    rw [List.get_eq_getElem, List.get_eq_getElem]
    exact List.getElem_take ..
  rw [← heq]
  exact List.get_mem _ _ _

theorem int_toNat_mul {a b : Int} (ha : 0 ≤ a) (hb : 0 ≤ b) :
    (a * b).toNat = a.toNat * b.toNat := by
  lift a to ℕ using ha with p
  lift b to ℕ using hb with q
  rw [← Nat.cast_mul, Int.toNat_natCast, Int.toNat_natCast, Int.toNat_natCast]

theorem mem_gridFinset {m : Maze} {p : Point} :
    p ∈ gridFinset m ↔ m.inGrid p = true := by
  unfold gridFinset Maze.inGrid
  simp only [Finset.mem_map, Finset.mem_product, Finset.mem_Ico,
    Function.Embedding.coeFn_mk, decide_eq_true_eq]
  constructor
  · rintro ⟨⟨x, y⟩, ⟨⟨hx0, hxw⟩, hy0, hyh⟩, rfl⟩
    exact ⟨hx0, hxw, hy0, hyh⟩
  · rintro ⟨hx0, hxw, hy0, hyh⟩
    exact ⟨(p.X, p.Y), ⟨⟨hx0, hxw⟩, hy0, hyh⟩, rfl⟩

theorem length_le_gridCard {m : Maze} {l : List Point} (hn : l.Nodup)
    (hb : ∀ p ∈ l, m.inGrid p = true) : l.length ≤ (gridFinset m).card := by
  rw [← List.toFinset_card_of_nodup hn]
  apply Finset.card_le_card
  intro p hp
  rw [List.mem_toFinset] at hp
  exact mem_gridFinset.mpr (hb p hp)

theorem card_gridFinset (m : Maze) :
    (gridFinset m).card = m.width.toNat * m.height.toNat := by
  unfold gridFinset
  rw [Finset.card_map, Finset.card_product, Int.card_Ico, Int.card_Ico]
  simp

theorem solveFuel_ge {m : Maze} (hw : 0 ≤ m.width) (hh : 0 ≤ m.height) :
    (gridFinset m).card + 1 ≤ solveFuel m := by
  rw [card_gridFinset]
  unfold solveFuel
  rw [int_toNat_mul hw hh]

theorem queue_len_le {m : Maze} {df : Point → Nat} {st : BfsSt} {head : Nat}
    (inv : SolveInvD m df st head) : st.queue.length ≤ (gridFinset m).card :=
  length_le_gridCard inv.nodup inv.inb

theorem mem_take_of_df_lt {m : Maze} {df : Point → Nat} {st : BfsSt} {head : Nat}
    (inv : SolveInvD m df st head)
    {q : Point} (hq : st.queue[head]? = some q) {w : Point} (hw : w ∈ st.queue)
    (hlt : df w < df q) : w ∈ st.queue.take head := by
  have hhead : head < st.queue.length := by
    by_contra hc
    rw [List.getElem?_eq_none (le_of_not_lt hc)] at hq
    cases hq
  have hget : st.queue[head] = q := by
    rw [List.getElem?_eq_getElem hhead] at hq
    injection hq
  obtain ⟨⟨j, hjlen⟩, hj⟩ := List.mem_iff_get.mp hw
  rcases lt_or_ge j head with hj' | hj'
  · rw [← hj]
    exact getElem_mem_take hhead hj'
  · exfalso
    rcases eq_or_lt_of_le hj' with hj2 | hj2
    · subst hj2
      have hwq : w = q := by
        rw [← hj, ← hget]
        exact List.get_eq_getElem st.queue ⟨head, hjlen⟩
      rw [hwq] at hlt
      exact lt_irrefl _ hlt
    · have hp := List.pairwise_iff_get.mp inv.mono ⟨head, hhead⟩ ⟨j, hjlen⟩ hj2
      rw [hj] at hp
      have : (st.queue.get ⟨head, hhead⟩) = q := hget
      rw [this] at hp
      omega

theorem level_of_inv {m : Maze} {df : Point → Nat} {st : BfsSt} {head : Nat}
    (inv : SolveInvD m df st head)
    {q : Point} (hq : st.queue[head]? = some q) :
    ∀ p ∈ st.queue, df p ≤ df q + 1 := by
  intro p hp
  apply inv.level q _ p hp
  rw [Option.mem_def, List.head?_drop]
  exact hq

theorem headq_mem {st : BfsSt} {head : Nat} {q : Point}
    (hq : st.queue[head]? = some q) : q ∈ st.queue :=
  mem_of_getElem? hq

/-- At any mid-BFS state: every cell whose exact distance is at most the
current cell's distance is already visited, and strictly closer cells are
already processed. -/
theorem level_visited {m : Maze} {df : Point → Nat} {st : BfsSt} {head : Nat}
    (inv : SolveInvD m df st head)
    {q : Point} (hq : st.queue[head]? = some q) :
    ∀ d w, distIs m m.start w d → d ≤ df q →
      st.visited w = true ∧ (d < df q → w ∈ st.queue.take head) := by
  intro d
  induction d using Nat.strong_induction_on with
  | _ d ih =>
    intro w hdw hdle
    by_cases hd0 : d = 0
    · subst hd0
      have hw : w = m.start := solReach_zero hdw.1
      subst hw
      refine ⟨(inv.mem_iff _).mpr inv.start_mem, fun hlt => ?_⟩
      have hds : df m.start = 0 :=
        distIs_unique (inv.dist _ inv.start_mem) (distIs_zero m _)
      exact mem_take_of_df_lt inv hq inv.start_mem (by omega)
    · obtain ⟨u, hnb, hok, hdu⟩ := distIs_pred hdw hd0
      have hu := ih (d - 1) (by omega) u hdu (by omega)
      have hu_proc : u ∈ st.queue.take head := hu.2 (by omega)
      have hv : st.visited w = true := inv.closed u hu_proc w hnb hok
      refine ⟨hv, fun hlt => ?_⟩
      have hwq : w ∈ st.queue := (inv.mem_iff _).mp hv
      have hdfw : df w = d := distIs_unique (inv.dist _ hwq) hdw
      exact mem_take_of_df_lt inv hq hwq (by omega)

/-- A fresh (unvisited) eligible neighbor of the current cell lies at exactly
one more than the current cell's distance. -/
theorem fresh_dist {m : Maze} {df : Point → Nat} {st : BfsSt} {head : Nat}
    (inv : SolveInvD m df st head)
    {q : Point} (hq : st.queue[head]? = some q)
    {v : Point} (hfresh : st.visited v = false) (hnb : v ∈ q.nbrs)
    (hok : stepOKB m v = true) :
    distIs m m.start v (df q + 1) := by
  have hqmem : q ∈ st.queue := headq_mem hq
  have hdq := inv.dist q hqmem
  obtain ⟨k, hk, hkle⟩ := distIs_le_succ hdq hnb hok
  rcases eq_or_lt_of_le hkle with he | hlt'
  · rw [← he]
    exact hk
  · exfalso
    have := (level_visited inv hq k v hk (by omega)).1
    rw [hfresh] at this
    cases this

theorem updF_self {α : Type} (f : Point → α) (p : Point) (v : α) : updF f p v p = v := by
  simp [updF]

theorem updF_ne {α : Type} (f : Point → α) (p : Point) (v : α) {q : Point} (h : q ≠ p) :
    updF f p v q = f q := by
  simp [updF, h]

theorem updF_true_mono (f : Point → Bool) (p : Point) {x : Point} (h : f x = true) :
    updF f p true x = true := by
  by_cases hx : x = p
  · subst hx; exact updF_self f x true
  · rw [updF_ne f p true hx]; exact h

theorem stepOK_inGrid {m : Maze} {v : Point} (hok : stepOKB m v = true) :
    m.inGrid v = true := by
  unfold stepOKB at hok
  exact (Bool.and_eq_true _ _).mp hok |>.1

theorem chainOK_parent_congr {parent parent' : Point → Option Point} {s p : Point}
    {l : List Point} (h : ChainOK parent s p l)
    (hagree : ∀ x ∈ l, parent' x = parent x) : ChainOK parent' s p l := by
  induction h with
  | base => exact ChainOK.base
  | @step p' u l' hps hpar _ ih =>
    refine ChainOK.step hps ?_ (ih ?_)
    · rw [hagree p' (by simp)]
      exact hpar
    · intro x hx
      exact hagree x (by simp [hx])

theorem ne_of_not_mem {l : List Point} {a b : Point} (hb : b ∉ l) (ha : a ∈ l) :
    a ≠ b := fun h => hb (h ▸ ha)

theorem inv_append {m : Maze} {df : Point → Nat} {st : BfsSt} {head : Nat}
    {q v : Point} (inv : SolveInvD m df st head)
    (hq : st.queue[head]? = some q) (hfresh : st.visited v = false)
    (hnb : v ∈ q.nbrs) (hok : stepOKB m v = true) :
    SolveInvD m (updF df v (df q + 1))
      { queue := st.queue ++ [v], visited := updF st.visited v true,
        parent := updF st.parent v (some q) } head := by
  have hhead : head < st.queue.length := by
    by_contra hc
    rw [List.getElem?_eq_none (le_of_not_lt hc)] at hq
    cases hq
  have hvnotmem : v ∉ st.queue := by
    intro hmem
    rw [(inv.mem_iff v).mpr hmem] at hfresh
    cases hfresh
  have hqmem : q ∈ st.queue := headq_mem hq
  have hqv : q ≠ v := ne_of_not_mem hvnotmem hqmem
  have hd_v : distIs m m.start v (df q + 1) := fresh_dist inv hq hfresh hnb hok
  have hlevel_all : ∀ p ∈ st.queue, df p ≤ df q + 1 := level_of_inv inv hq
  have hvs : v ≠ m.start := (ne_of_not_mem hvnotmem inv.start_mem).symm
  refine ⟨?_, ?_, ?_, ?_, ?_, ?_, ?_, ?_, ?_, ?_, ?_⟩ <;> dsimp only
  · intro p
    by_cases hp : p = v
    · subst hp
      simp [updF_self]
    · rw [updF_ne _ _ _ hp]
      simp only [List.mem_append, List.mem_singleton]
      rw [inv.mem_iff p]
      exact ⟨Or.inl, fun h => h.elim id fun h' => absurd h' hp⟩
  · rw [List.nodup_append]
    exact ⟨inv.nodup, List.nodup_singleton v,
      fun a ha hav => (ne_of_not_mem hvnotmem ha) (List.mem_singleton.mp hav)⟩
  · exact le_trans inv.head_le (by simp)
  · exact List.mem_append_left _ inv.start_mem
  · intro p hp
    rcases List.mem_append.mp hp with hp | hp
    · exact inv.inb p hp
    · rw [List.mem_singleton.mp hp]
      exact stepOK_inGrid hok
  · intro p hp
    rcases List.mem_append.mp hp with hp | hp
    · rw [updF_ne _ _ _ (ne_of_not_mem hvnotmem hp)]
      exact inv.dist p hp
    · rw [List.mem_singleton.mp hp, updF_self]
      exact hd_v
  · rw [List.pairwise_append]
    refine ⟨?_, List.pairwise_singleton _ _, ?_⟩
    · refine List.Pairwise.imp_of_mem ?_ inv.mono
      intro a b ha hb hab
      rw [updF_ne _ _ _ (ne_of_not_mem hvnotmem ha),
        updF_ne _ _ _ (ne_of_not_mem hvnotmem hb)]
      exact hab
    · intro a ha b hb
      rw [List.mem_singleton.mp hb, updF_self,
        updF_ne _ _ _ (ne_of_not_mem hvnotmem ha)]
      exact hlevel_all a ha
  · intro q2 hq2 p hp
    have hdrop : (st.queue ++ [v]).drop head = st.queue.drop head ++ [v] :=
      List.drop_append_of_le_length (le_of_lt hhead)
    have hne2 : st.queue.drop head ≠ [] := by
      intro h
      have := congrArg List.length h
      simp only [List.length_drop, List.length_nil] at this
      omega
    have hq2' : q2 = q := by
      simp only [Option.mem_def, hdrop] at hq2
      rw [List.head?_append_of_ne_nil _ hne2, List.head?_drop, hq] at hq2
      injection hq2 with hq2
      exact hq2.symm
    subst hq2'
    rw [updF_ne _ _ _ hqv]
    rcases List.mem_append.mp hp with hp | hp
    · rw [updF_ne _ _ _ (ne_of_not_mem hvnotmem hp)]
      exact hlevel_all p hp
    · rw [List.mem_singleton.mp hp, updF_self]
  · intro p hp
    rcases List.mem_append.mp hp with hp | hp
    · obtain ⟨l, hco, hnd, hsub, hlen, hsp⟩ := inv.chain p hp
      refine ⟨l, ?_, hnd, ?_, ?_, hsp⟩
      · refine chainOK_parent_congr hco ?_
        intro x hx
        exact updF_ne _ _ _ (ne_of_not_mem hvnotmem (hsub x hx))
      · intro x hx
        exact List.mem_append_left _ (hsub x hx)
      · rw [updF_ne _ _ _ (ne_of_not_mem hvnotmem hp)]
        exact hlen
    · rw [List.mem_singleton.mp hp]
      obtain ⟨lq, hcoq, hndq, hsubq, hlenq, hspq⟩ := inv.chain q hqmem
      have hvnotl : v ∉ lq := fun h => hvnotmem (hsubq v h)
      refine ⟨v :: lq, ?_, ?_, ?_, ?_, ?_⟩
      · refine ChainOK.step hvs (updF_self _ _ _) ?_
        refine chainOK_parent_congr hcoq ?_
        intro x hx
        exact updF_ne _ _ _ (ne_of_not_mem hvnotmem (hsubq x hx))
      · exact List.nodup_cons.mpr ⟨hvnotl, hndq⟩
      · intro x hx
        rcases List.mem_cons.mp hx with hx | hx
        · rw [hx]
          exact List.mem_append_right _ (List.mem_singleton.mpr rfl)
        · exact List.mem_append_left _ (hsubq x hx)
      · simp only [List.length_cons, hlenq, updF_self]
      · rw [List.reverse_cons]
        exact solPath_snoc hspq hnb hok
  · intro p hp v2 hv2 hok2
    rw [List.take_append_of_le_length inv.head_le] at hp
    exact updF_true_mono _ _ (inv.closed p hp v2 hv2 hok2)
  · intro p hp
    rw [List.take_append_of_le_length inv.head_le] at hp
    exact inv.not_done p hp

theorem solveStepDir_spec (m : Maze) (cur : Point) (st : BfsSt) (dir : Point) :
    (stepOKB m (cur.add dir) = true ∧ st.visited (cur.add dir) = false ∧
      solveStepDir m cur st dir =
        { queue := st.queue ++ [cur.add dir],
          visited := updF st.visited (cur.add dir) true,
          parent := updF st.parent (cur.add dir) (some cur) }) ∨
    ((stepOKB m (cur.add dir) = true → st.visited (cur.add dir) = true) ∧
      solveStepDir m cur st dir = st) := by
  unfold solveStepDir
  by_cases hg : m.inGrid (cur.add dir) = true
  · by_cases hw : m.grid (cur.add dir) ≠ Cell.Wall
    · by_cases hv : st.visited (cur.add dir) = false
      · left
        refine ⟨?_, hv, ?_⟩
        · simp [stepOKB, hg, hw]
        · simp [hg, hw, hv]
      · right
        refine ⟨fun _ => by revert hv; cases st.visited (cur.add dir) <;> simp, ?_⟩
        simp [hg, hw, hv]
    · right
      refine ⟨fun hok => absurd ((Bool.and_eq_true _ _).mp hok).2 (by simpa using hw), ?_⟩
      simp [hg, hw]
  · right
    refine ⟨fun hok => absurd (stepOK_inGrid hok) hg, ?_⟩
    simp [hg]

theorem inv_expand {m : Maze} {q : Point} :
    ∀ (dirs : List Point) (df : Point → Nat) (st : BfsSt) (head : Nat),
      SolveInvD m df st head → st.queue[head]? = some q →
      (∀ d ∈ dirs, q.add d ∈ q.nbrs) →
      ∃ df' added,
        SolveInvD m df' (dirs.foldl (solveStepDir m q) st) head ∧
        (dirs.foldl (solveStepDir m q) st).queue = st.queue ++ added ∧
        (∀ x, st.visited x = true → (dirs.foldl (solveStepDir m q) st).visited x = true) ∧
        (∀ d ∈ dirs, stepOKB m (q.add d) = true →
          (dirs.foldl (solveStepDir m q) st).visited (q.add d) = true) := by
  intro dirs
  induction dirs with
  | nil =>
    intro df st head inv hq _
    exact ⟨df, [], inv, by simp, fun _ h => h, by simp⟩
  | cons d dirs ih =>
    intro df st head inv hq hdirs
    rcases solveStepDir_spec m q st d with ⟨hok, hfresh, heq⟩ | ⟨himp, heq⟩
    · have hnb : q.add d ∈ q.nbrs := hdirs d (by simp)
      have hhead : head < st.queue.length := by
        by_contra hc
        rw [List.getElem?_eq_none (le_of_not_lt hc)] at hq
        cases hq
      have inv1 : SolveInvD m (updF df (q.add d) (df q + 1)) (solveStepDir m q st d) head := by
        rw [heq]
        exact inv_append inv hq hfresh hnb hok
      have hq1 : (solveStepDir m q st d).queue[head]? = some q := by
        rw [heq]
        dsimp only
        rw [List.getElem?_append_left hhead]
        exact hq
      obtain ⟨df', added, hinv', hqueue', hmono', hdirs'⟩ :=
        ih (updF df (q.add d) (df q + 1)) (solveStepDir m q st d) head inv1 hq1
          (fun d' hd' => hdirs d' (by simp [hd']))
      rw [List.foldl_cons]
      refine ⟨df', [q.add d] ++ added, hinv', ?_, ?_, ?_⟩
      · rw [hqueue', heq]
        dsimp only
        rw [List.append_assoc]
      · intro x hx
        apply hmono'
        rw [heq]
        dsimp only
        exact updF_true_mono _ _ hx
      · intro d' hd' hok'
        rcases List.mem_cons.mp hd' with hd' | hd'
        · subst hd'
          apply hmono'
          rw [heq]
          dsimp only
          exact updF_self _ _ _
        · exact hdirs' d' hd' hok'
    · rw [List.foldl_cons, heq]
      obtain ⟨df', added, hinv', hqueue', hmono', hdirs'⟩ :=
        ih df st head inv hq (fun d' hd' => hdirs d' (by simp [hd']))
      refine ⟨df', added, hinv', hqueue', hmono', ?_⟩
      intro d' hd' hok'
      rcases List.mem_cons.mp hd' with hd' | hd'
      · subst hd'
        exact hmono' _ (himp hok')
      · exact hdirs' d' hd' hok'

theorem getElem?_some_eq {l : List Point} {i : Nat} {a : Point} (h : l[i]? = some a)
    (hlt : i < l.length) : l.get ⟨i, hlt⟩ = a := by
  rw [List.getElem?_eq_getElem hlt] at h
  injection h

theorem inv_step {m : Maze} {df : Point → Nat} {st : BfsSt} {head : Nat} {q : Point}
    (inv : SolveInvD m df st head) (hq : st.queue[head]? = some q)
    (hne : q ≠ m.endP) :
    ∃ df', SolveInvD m df' (solveExpand m q st) (head + 1) := by
  have hhead : head < st.queue.length := by
    by_contra hc
    rw [List.getElem?_eq_none (le_of_not_lt hc)] at hq
    cases hq
  obtain ⟨df', added, hinv', hqueue', _, hdirs'⟩ :=
    inv_expand cardinalDirs df st head inv hq
      (fun d hd => List.mem_map.mpr ⟨d, hd, rfl⟩)
  show ∃ df', SolveInvD m df' (cardinalDirs.foldl (solveStepDir m q) st) (head + 1)
  have hq' : (cardinalDirs.foldl (solveStepDir m q) st).queue[head]? = some q := by
    rw [hqueue', List.getElem?_append_left hhead]
    exact hq
  have hlen' : head < (cardinalDirs.foldl (solveStepDir m q) st).queue.length := by
    by_contra hc
    rw [List.getElem?_eq_none (le_of_not_lt hc)] at hq'
    cases hq'
  refine ⟨df', hinv'.mem_iff, hinv'.nodup, by omega, hinv'.start_mem, hinv'.inb,
    hinv'.dist, hinv'.mono, ?_, hinv'.chain, ?_, ?_⟩
  · intro q2 hq2 p hp
    have hq2' : (cardinalDirs.foldl (solveStepDir m q) st).queue[head + 1]? = some q2 := by
      rw [← List.head?_drop]
      exact hq2
    have hlen2 : head + 1 < (cardinalDirs.foldl (solveStepDir m q) st).queue.length := by
      by_contra hc
      rw [List.getElem?_eq_none (le_of_not_lt hc)] at hq2'
      cases hq2'
    have hpw := List.pairwise_iff_get.mp hinv'.mono ⟨head, by omega⟩ ⟨head + 1, hlen2⟩
      (by simp)
    have hg1 := getElem?_some_eq hq' (by omega)
    have hg2 := getElem?_some_eq hq2' hlen2
    rw [hg1, hg2] at hpw
    have hlev := level_of_inv hinv' hq' p hp
    omega
  · intro p hp v hv hok
    rw [List.take_succ, hq'] at hp
    rcases List.mem_append.mp hp with hp | hp
    · exact hinv'.closed p hp v hv hok
    · have hpq : p = q := by
        simp only [Option.toList_some, List.mem_singleton] at hp
        exact hp
      subst hpq
      obtain ⟨d, hd, hdv⟩ := List.mem_map.mp hv
      rw [← hdv]
      apply hdirs' d hd
      rw [hdv]
      exact hok
  · intro p hp
    rw [List.take_succ, hq'] at hp
    rcases List.mem_append.mp hp with hp | hp
    · exact hinv'.not_done p hp
    · have hpq : p = q := by
        simp only [Option.toList_some, List.mem_singleton] at hp
        exact hp
      rw [hpq]
      exact hne

theorem solveLoop_run {m : Maze} :
    ∀ (fuel : Nat) (st : BfsSt) (head : Nat) (df : Point → Nat),
      SolveInvD m df st head →
      (gridFinset m).card + 1 ≤ fuel + head →
      ∃ st' found, solveLoop m fuel st head = some (st', found) ∧
        ∃ df',
          (found = true →
            ∃ head', SolveInvD m df' st' head' ∧ st'.queue[head']? = some m.endP) ∧
          (found = false → SolveInvD m df' st' st'.queue.length) := by
  intro fuel
  induction fuel with
  | zero =>
    intro st head df inv hfuel
    exfalso
    have h1 := queue_len_le inv
    have h2 := inv.head_le
    omega
  | succ f ih =>
    intro st head df inv hfuel
    by_cases hlt : head < st.queue.length
    · have hq : st.queue[head]? = some (st.queue.get ⟨head, hlt⟩) := by
        rw [List.getElem?_eq_getElem hlt]
        rfl
      by_cases hend : st.queue.get ⟨head, hlt⟩ = m.endP
      · refine ⟨st, true, ?_, df, fun _ => ⟨head, inv, ?_⟩,
          fun hc => Bool.noConfusion hc⟩
        · simp only [solveLoop, dif_pos hlt, if_pos hend]
        · rw [hq, hend]
      · obtain ⟨df', inv'⟩ := inv_step inv hq hend
        have hrec := ih (solveExpand m (st.queue.get ⟨head, hlt⟩) st) (head + 1) df'
          inv' (by omega)
        obtain ⟨st', found, hloop, hpost⟩ := hrec
        refine ⟨st', found, ?_, hpost⟩
        simp only [solveLoop, dif_pos hlt, if_neg hend]
        exact hloop
    · have hhead : head = st.queue.length := le_antisymm inv.head_le (le_of_not_lt hlt)
      refine ⟨st, false, ?_, df, fun hc => Bool.noConfusion hc, fun _ => hhead ▸ inv⟩
      simp only [solveLoop, dif_neg hlt]

theorem inv_init {m : Maze} (hin : m.inGrid m.start = true) :
    SolveInvD m (fun _ => 0) (solveInit m) 0 := by
  refine ⟨?_, ?_, ?_, ?_, ?_, ?_, ?_, ?_, ?_, ?_, ?_⟩ <;> dsimp only [solveInit]
  · intro p
    by_cases hp : p = m.start
    · subst hp
      simp [updF_self]
    · rw [updF_ne _ _ _ hp]
      simp [hp]
  · exact List.nodup_singleton _
  · simp
  · exact List.mem_singleton.mpr rfl
  · intro p hp
    rw [List.mem_singleton.mp hp]
    exact hin
  · intro p hp
    rw [List.mem_singleton.mp hp]
    exact distIs_zero m m.start
  · exact List.pairwise_singleton _ _
  · intro q2 _ p _
    omega
  · intro p hp
    rw [List.mem_singleton.mp hp]
    refine ⟨[m.start], ChainOK.base, List.nodup_singleton _, ?_, by simp, ?_⟩
    · intro x hx
      exact hx
    · exact solPath_single m m.start
  · intro p hp
    simp at hp
  · intro p hp
    simp at hp

theorem reach_mem_of_closed {m : Maze} {df : Point → Nat} {st : BfsSt}
    (inv : SolveInvD m df st st.queue.length) :
    ∀ w k, SolReach m m.start w k → w ∈ st.queue := by
  intro w k h
  induction h with
  | base => exact inv.start_mem
  | @step u v n _ hnb hok ihu =>
    have hproc : u ∈ st.queue.take st.queue.length := by
      rw [List.take_length]
      exact ihu
    exact (inv.mem_iff v).mp (inv.closed u hproc v hnb hok)

/-- C1 (amended): for every maze whose start is in the grid, `Solve` returns
`(path, true)` exactly when `end` is reachable from `start` by cardinal steps
through in-grid non-`Wall` cells (the start cell's own value exempt); the
returned path runs from `start` to `end` inclusive, consecutive points are
cardinally adjacent, every point after the first is non-`Wall`, and its length
is minimal among all such walks; when `end` is unreachable it returns
`(nil, false)`. -/
theorem C1_solve_correct (m : Maze) (hin : m.inGrid m.start = true) :
    (ReachableS m m.start m.endP →
      ∃ l, Solve m = some (some l, true) ∧ SolPath m m.start m.endP l ∧
        ∀ l', SolPath m m.start m.endP l' → l.length ≤ l'.length) ∧
    (¬ ReachableS m m.start m.endP → Solve m = some (none, false)) := by
  have hw : 0 ≤ m.width := by
    unfold Maze.inGrid at hin
    simp only [decide_eq_true_eq] at hin
    omega
  have hh : 0 ≤ m.height := by
    unfold Maze.inGrid at hin
    simp only [decide_eq_true_eq] at hin
    omega
  have hfuel := solveFuel_ge hw hh
  obtain ⟨st', found, hloop, df', hposts⟩ :=
    solveLoop_run (solveFuel m) (solveInit m) 0 (fun _ => 0) (inv_init hin) (by omega)
  cases found
  · have inv'' := hposts.2 rfl
    have hnr : ¬ ReachableS m m.start m.endP := by
      rintro ⟨l', hsp'⟩
      have hr := reach_of_spath hsp'
      have hmem := reach_mem_of_closed inv'' m.endP _ hr
      have hmem' : m.endP ∈ st'.queue.take st'.queue.length := by
        rw [List.take_length]
        exact hmem
      exact inv''.not_done m.endP hmem' rfl
    refine ⟨fun hr => absurd hr hnr, fun _ => ?_⟩
    unfold Solve
    rw [hloop]
  · obtain ⟨head', inv', hq'⟩ := hposts.1 rfl
    have hendmem : m.endP ∈ st'.queue := headq_mem hq'
    obtain ⟨l, hco, hnd, hsub, hlen, hsp⟩ := inv'.chain m.endP hendmem
    have hdist := inv'.dist m.endP hendmem
    have hlenle : l.length ≤ solveFuel m := by
      have h1 : l.length ≤ st'.queue.length :=
        (List.subperm_of_subset hnd fun x hx => hsub x hx).length_le
      have h2 := queue_len_le inv'
      omega
    have hbuild := chainOK_buildPathBack hco (solveFuel m) hlenle
    have hsolve : Solve m = some (some l.reverse, true) := by
      unfold Solve
      rw [hloop]
      show (match buildPathBack st'.parent m.start (solveFuel m) m.endP with
            | none => none
            | some l2 => some (some l2.reverse, true)) = some (some l.reverse, true)
      rw [hbuild]
    refine ⟨fun _ => ⟨l.reverse, hsolve, hsp, ?_⟩, fun hnr => absurd ⟨l.reverse, hsp⟩ hnr⟩
    intro l' hsp'
    have hr' := reach_of_spath hsp'
    have hmin := hdist.2 _ hr'
    have hpos : 1 ≤ l'.length := List.length_pos.mpr (solPath_ne_nil hsp')
    rw [List.length_reverse]
    omega

theorem C1_solve_correct_witness :
    ∃ l, Solve laneMaze = some (some l, true) ∧
      SolPath laneMaze laneMaze.start laneMaze.endP l ∧
      ∀ l', SolPath laneMaze laneMaze.start laneMaze.endP l' → l.length ≤ l'.length :=
  (C1_solve_correct laneMaze (by decide)).1 ⟨[⟨1, 1⟩, ⟨2, 1⟩, ⟨3, 1⟩], by decide⟩

/-- C9: a start-point validation failure aborts `Generate` before any carving:
the returned state is the untouched input maze (grid, start, end and door all
unchanged), unlike later door failures which follow the DFS carving. -/
theorem C9_invalid_start_atomic (mz : Maze) (seed : Int) (s : Point)
    (door : Option Point) (doorSide : String) (bias : ℚ)
    (hbad : badStartGeom mz s ∨ mz.IsInsideDen s = true) :
    ∃ e, Generate mz seed (some s) door doorSide bias = (mz, some e) := by
  simp only [Generate]
  by_cases hgeom : badStartGeom mz s
  · rw [if_pos hgeom]
    exact ⟨_, rfl⟩
  · rcases hbad with hbad | hbad
    · exact absurd hbad hgeom
    · rw [if_neg hgeom, if_pos hbad]
      exact ⟨_, rfl⟩

theorem C9_invalid_start_atomic_witness :
    ∃ e, Generate (newOk 5 5 0 0) 3 (some ⟨2, 2⟩) none "" 0 = (newOk 5 5 0 0, some e) :=
  C9_invalid_start_atomic (newOk 5 5 0 0) 3 ⟨2, 2⟩ none "" 0 (Or.inl (by decide))

/-- C4: generation is a pure function of the constructed maze and the
arguments: two mazes freshly constructed with identical dimensions, generated
with the same seed, start point, door point, door side and bias, yield
identical results (grid, start, end and door included). -/
theorem C4_generate_deterministic (w h dw dh seed : Int) (s d : Option Point)
    (ds : String) (bias : ℚ) (m1 m2 : Maze)
    (h1 : New w h dw dh = Except.ok m1) (h2 : New w h dw dh = Except.ok m2) :
    Generate m1 seed s d ds bias = Generate m2 seed s d ds bias := by
  rw [h1] at h2
  injection h2 with h2
  rw [h2]

theorem C4_generate_deterministic_witness :
    Generate (newOk 5 5 0 0) 1 none none "" 0 = Generate (newOk 5 5 0 0) 1 none none "" 0 :=
  C4_generate_deterministic 5 5 0 0 1 none none "" 0 (newOk 5 5 0 0) (newOk 5 5 0 0) rfl rfl

theorem connectRandomDenDoor_no_err (mz : Maze) (r : Rng) :
    (connectRandomDenDoor mz r).2 = none := by
  rcases hint : r.intn ((potentialDoors mz).length : Int) with ⟨i, r'⟩
  simp only [connectRandomDenDoor, hint]
  split_ifs <;> rfl

theorem carvePathToNearest_err {mz : Maze} {s : Point} {e : GenErr}
    (h : (carvePathToNearest mz s).2 = some e) :
    e = GenErr.noPathToConnect ∨ e = GenErr.outOfFuel := by
  unfold carvePathToNearest at h
  cases hcl : carveLoop mz (solveFuel mz)
      { queue := [s], visited := updF (fun _ => false) s true,
        parent := fun _ => none } 0 with
  | none =>
    rw [hcl] at h
    injection h with h
    exact Or.inr h.symm
  | some pr =>
    obtain ⟨parent, tgt⟩ := pr
    cases tgt with
    | none =>
      rw [hcl] at h
      injection h with h
      exact Or.inl h.symm
    | some t =>
      rw [hcl] at h
      cases h

theorem connectDenDoorAt_err {mz : Maze} {door nb : Point} {e : GenErr}
    (h : (connectDenDoorAt mz door nb).2 = some e) :
    e = GenErr.doorTooCloseToEdge ∨ e = GenErr.noPathToConnect ∨
      e = GenErr.outOfFuel := by
  unfold connectDenDoorAt at h
  split_ifs at h with h1 h2
  · injection h with h
    exact Or.inl h.symm
  · rcases hcp : carvePathToNearest mz nb with ⟨mz', e'⟩
    rw [hcp] at h
    cases e' with
    | none => exact Option.noConfusion h
    | some e2 =>
      injection h with h
      subst h
      rcases carvePathToNearest_err
          (show (carvePathToNearest mz nb).2 = some e2 by rw [hcp]) with h2 | h2
      · exact Or.inr (Or.inl h2)
      · exact Or.inr (Or.inr h2)

theorem connectDenAtSide_err {mz : Maze} {ds : String} {e : GenErr}
    (h : (connectDenAtSide mz ds).2 = some e) :
    e = GenErr.invalidDoorSide ∨ e = GenErr.doorTooCloseToEdge ∨
      e = GenErr.noPathToConnect ∨ e = GenErr.outOfFuel := by
  unfold connectDenAtSide at h
  split_ifs at h
  case neg =>
    injection h with h
    exact Or.inl h.symm
  all_goals
    rcases connectDenDoorAt_err h with h2 | h2 | h2 <;> simp [h2]

theorem connectDenAtPoint_err {mz : Maze} {p : Point} {e : GenErr}
    (h : (connectDenAtPoint mz p).2 = some e) :
    e = GenErr.invalidDoorNotWall ∨ e = GenErr.doorNotConnecting := by
  unfold connectDenAtPoint at h
  dsimp only at h
  split_ifs at h <;> (injection h with h; subst h; simp)

theorem connectDen_not_start_err {mz : Maze} {r : Rng} {d : Option Point}
    {ds : String} {e : GenErr}
    (h : (connectDen mz r d ds).2 = some e) :
    e ≠ GenErr.invalidStartPoint ∧ e ≠ GenErr.startInsideDen := by
  unfold connectDen at h
  split_ifs at h with h1 h2
  · rcases connectDenAtSide_err h with h3 | h3 | h3 | h3 <;>
      (subst h3; exact ⟨fun hc => (nomatch hc), fun hc => (nomatch hc)⟩)
  · cases d with
    | none =>
      rw [connectRandomDenDoor_no_err mz r] at h
      exact Option.noConfusion h
    | some dp =>
      dsimp only at h
      rcases hcp : connectDenAtPoint mz dp with ⟨mz2, e'⟩
      rw [hcp] at h
      dsimp only at h
      cases e' with
      | none => exact Option.noConfusion h
      | some e2 =>
        injection h with h
        subst h
        rcases connectDenAtPoint_err
            (show (connectDenAtPoint mz dp).2 = some e2 by rw [hcp]) with h3 | h3 <;>
          (subst h3; exact ⟨fun hc => (nomatch hc), fun hc => (nomatch hc)⟩)

theorem runDFSLoop_grid_only (bias : ℚ) :
    ∀ (fuel : Nat) (stack : List Point) (mz : Maze) (r : Rng),
      ∃ g r', runDFSLoop bias fuel stack mz r = ({ mz with grid := g }, r') := by
  intro fuel
  induction fuel with
  | zero => exact fun stack mz r => ⟨mz.grid, r, rfl⟩
  | succ f ih =>
    intro stack mz r
    cases stack with
    | nil => exact ⟨mz.grid, r, rfl⟩
    | cons current rest =>
      simp only [runDFSLoop]
      by_cases hn : (findValidNeighbors mz current).length > 0
      · rw [if_pos hn]
        rcases hcb : chooseBiasedNeighbor (findValidNeighbors mz current)
            (current :: rest) bias r with ⟨next, r'⟩
        obtain ⟨g, r'', heq⟩ := ih (next :: current :: rest)
          (setCell (setCell mz
            ⟨current.X + goDiv (next.X - current.X) 2,
              current.Y + goDiv (next.Y - current.Y) 2⟩ Cell.Path) next Cell.Path) r'
        exact ⟨g, r'', heq⟩
      · rw [if_neg hn]
        exact ih rest mz r

theorem runDFS_grid_only (mz : Maze) (r : Rng) (start : Point) (bias : ℚ) :
    ∃ g r', runDFS mz r start bias = ({ mz with grid := g }, r') := by
  unfold runDFS
  obtain ⟨g, r', h⟩ :=
    runDFSLoop_grid_only bias (dfsFuel mz) [start] (setCell mz start Cell.Path) r
  exact ⟨g, r', h⟩

theorem intn_bounds {r : Rng} {n : Int} (hn : 0 < n) :
    0 ≤ (r.intn n).1 ∧ (r.intn n).1 < n := by
  unfold Rng.intn Rng.next
  dsimp only
  rw [if_neg (by omega)]
  exact ⟨Int.emod_nonneg _ (by omega), Int.emod_lt_of_pos _ hn⟩

theorem getD_mem {l : List Point} {i : Nat} (h : i < l.length) :
    l.getD i ⟨0, 0⟩ ∈ l := by
  rw [List.getD_eq_getElem l _ h]
  exact List.getElem_mem h

/-- C7: under the random door strategy (no door point, no door side) on a maze
with a den, `connectRandomDenDoor` never errors; if no interior wall cell
qualifies, the maze is returned completely unchanged (doorless den); if
candidates exist, exactly one of them is carved to `Path` and recorded as the
door, and nothing else changes.  Consequently `Generate` with a valid start
point and the random strategy always succeeds. -/
theorem C7_random_door (mz : Maze) (r : Rng)
    (hden : 0 < mz.denWidth ∧ 0 < mz.denHeight) :
    (connectRandomDenDoor mz r).2 = none ∧
    (potentialDoors mz = [] → (connectRandomDenDoor mz r).1.1 = mz) ∧
    (potentialDoors mz ≠ [] →
      ∃ c ∈ potentialDoors mz,
        (connectRandomDenDoor mz r).1.1 =
          { mz with grid := updF mz.grid c Cell.Path, door := c }) ∧
    (∀ (seed : Int) (s : Point) (bias : ℚ), ¬ badStartGeom mz s →
      mz.IsInsideDen s = false →
      (Generate mz seed (some s) none "" bias).2 = none) := by
  refine ⟨connectRandomDenDoor_no_err mz r, ?_, ?_, ?_⟩
  · intro hpd
    rcases hint : r.intn ((potentialDoors mz).length : Int) with ⟨i, r'⟩
    simp only [connectRandomDenDoor, hint]
    rw [if_neg (by simp [hpd])]
  · intro hpd
    rcases hint : r.intn ((potentialDoors mz).length : Int) with ⟨i, r'⟩
    have hlen : 0 < (potentialDoors mz).length := List.length_pos.mpr hpd
    have hib := intn_bounds (r := r) (n := ((potentialDoors mz).length : Int))
      (by exact_mod_cast hlen)
    rw [hint] at hib
    simp only [connectRandomDenDoor, hint]
    rw [if_pos hlen]
    refine ⟨(potentialDoors mz).getD i.toNat ⟨0, 0⟩, getD_mem ?_, rfl⟩
    omega
  · intro seed s bias hgeom hden2
    simp only [Generate, if_neg hgeom]
    rw [if_neg (by simp [hden2])]
    simp only [generateCore]
    obtain ⟨g, r1, hdfs⟩ := runDFS_grid_only mz (rngOfSeed seed) s bias
    rw [hdfs]
    have hcd : connectDen { mz with grid := g } r1 none "" =
        connectRandomDenDoor { mz with grid := g } r1 := by
      simp only [connectDen]
      rw [if_neg (by omega), if_neg (by simp)]
    dsimp only
    rw [hcd]
    rcases hrcd : connectRandomDenDoor { mz with grid := g } r1 with ⟨⟨mz2, r2⟩, e⟩
    have := connectRandomDenDoor_no_err { mz with grid := g } r1
    rw [hrcd] at this
    dsimp only at this
    subst this
    rfl

theorem C7_random_door_witness :
    (connectRandomDenDoor (newOk 11 11 3 3) ⟨0⟩).2 = none ∧
    (potentialDoors (newOk 11 11 3 3) = [] →
      (connectRandomDenDoor (newOk 11 11 3 3) ⟨0⟩).1.1 = newOk 11 11 3 3) ∧
    (potentialDoors (newOk 11 11 3 3) ≠ [] →
      ∃ c ∈ potentialDoors (newOk 11 11 3 3),
        (connectRandomDenDoor (newOk 11 11 3 3) ⟨0⟩).1.1 =
          { (newOk 11 11 3 3) with
            grid := updF (newOk 11 11 3 3).grid c Cell.Path, door := c }) ∧
    (∀ (seed : Int) (s : Point) (bias : ℚ), ¬ badStartGeom (newOk 11 11 3 3) s →
      (newOk 11 11 3 3).IsInsideDen s = false →
      (Generate (newOk 11 11 3 3) seed (some s) none "" bias).2 = none) :=
  C7_random_door (newOk 11 11 3 3) ⟨0⟩ (by decide)

/-- C6: with a caller-supplied start point, `Generate` returns a start-point
validation error exactly when the point has an even X or Y coordinate, does
not lie strictly inside the outer border, or lies inside the den (later
door-related errors are distinct constructors); when generation succeeds, that
exact point becomes the maze's start. -/
theorem C6_start_validation (mz : Maze) (seed : Int) (s : Point)
    (door : Option Point) (doorSide : String) (bias : ℚ) :
    (((Generate mz seed (some s) door doorSide bias).2 = some GenErr.invalidStartPoint ∨
      (Generate mz seed (some s) door doorSide bias).2 = some GenErr.startInsideDen) ↔
      (badStartGeom mz s ∨ mz.IsInsideDen s = true)) ∧
    ((Generate mz seed (some s) door doorSide bias).2 = none →
      (Generate mz seed (some s) door doorSide bias).1.start = s) := by
  by_cases hgeom : badStartGeom mz s
  · have hg : Generate mz seed (some s) door doorSide bias =
        (mz, some GenErr.invalidStartPoint) := by
      simp only [Generate, if_pos hgeom]
    rw [hg]
    exact ⟨⟨fun _ => Or.inl hgeom, fun _ => Or.inl rfl⟩,
      fun hc => Option.noConfusion hc⟩
  · by_cases hden : mz.IsInsideDen s = true
    · have hg : Generate mz seed (some s) door doorSide bias =
          (mz, some GenErr.startInsideDen) := by
        simp only [Generate, if_neg hgeom, if_pos hden]
      rw [hg]
      exact ⟨⟨fun _ => Or.inr hden, fun _ => Or.inr rfl⟩,
        fun hc => Option.noConfusion hc⟩
    · obtain ⟨g, r1, hdfs⟩ := runDFS_grid_only mz (rngOfSeed seed) s bias
      rcases hcd : connectDen { mz with grid := g } r1 door doorSide with ⟨⟨mz2, r2⟩, e⟩
      have hg : Generate mz seed (some s) door doorSide bias =
          (match (⟨⟨mz2, r2⟩, e⟩ : (Maze × Rng) × Option GenErr) with
            | ((mz2, _), some e) => (mz2, some e)
            | ((mz2, _), none) => (placeStartAndEnd mz2 s true, none)) := by
        simp only [Generate, if_neg hgeom, if_neg hden]
        simp only [generateCore]
        rw [hdfs]
        dsimp only
        rw [hcd]
      rw [hg]
      cases e with
      | some e2 =>
        dsimp only
        have hnse := connectDen_not_start_err
          (show (connectDen { mz with grid := g } r1 door doorSide).2 = some e2 by
            rw [hcd])
        refine ⟨⟨fun hor => ?_, fun hor => ?_⟩, fun hc => Option.noConfusion hc⟩
        · exfalso
          rcases hor with h | h <;> (injection h with h; subst h)
          · exact hnse.1 rfl
          · exact hnse.2 rfl
        · rcases hor with h | h
          · exact absurd h hgeom
          · exact absurd h hden
      | none =>
        dsimp only
        refine ⟨⟨fun hor => ?_, fun hor => ?_⟩, fun _ => rfl⟩
        · rcases hor with h | h <;> exact Option.noConfusion h
        · rcases hor with h | h
          · exact absurd h hgeom
          · exact absurd h hden

theorem C6_start_validation_witness :
    (((Generate (newOk 11 11 3 3) 5 (some ⟨1, 1⟩) none "" 0).2 =
        some GenErr.invalidStartPoint ∨
      (Generate (newOk 11 11 3 3) 5 (some ⟨1, 1⟩) none "" 0).2 =
        some GenErr.startInsideDen) ↔
      (badStartGeom (newOk 11 11 3 3) ⟨1, 1⟩ ∨
        (newOk 11 11 3 3).IsInsideDen ⟨1, 1⟩ = true)) ∧
    ((Generate (newOk 11 11 3 3) 5 (some ⟨1, 1⟩) none "" 0).2 = none →
      (Generate (newOk 11 11 3 3) 5 (some ⟨1, 1⟩) none "" 0).1.start = ⟨1, 1⟩) :=
  C6_start_validation (newOk 11 11 3 3) 5 ⟨1, 1⟩ none "" 0

theorem get_append_left {l t : List Point} (j : Nat)
    (hj : j < l.length) (hj2 : j < (l ++ t).length) :
    (l ++ t).get ⟨j, hj2⟩ = l.get ⟨j, hj⟩ := by
  rw [List.get_eq_getElem, List.get_eq_getElem]
  exact List.getElem_append_left hj

theorem get_append_last {l : List Point} (a : Point) (h : l.length < (l ++ [a]).length) :
    (l ++ [a]).get ⟨l.length, h⟩ = a := by
  rw [List.get_eq_getElem]
  simp

theorem farInv_step {m : Maze} {s : Point} {st : FarSt} (inv : FarInv m s st)
    (current dir : Point) :
    FarInv m s (farStepDir m current st dir) ∧
    ∃ t, (farStepDir m current st dir).queue = st.queue ++ t := by
  simp only [farStepDir]
  by_cases hb : (current.add dir).X > 0 ∧ (current.add dir).X < m.width - 1 ∧
      (current.add dir).Y > 0 ∧ (current.add dir).Y < m.height - 1 ∧
      m.grid (current.add dir) ≠ Cell.Wall
  case neg =>
    rw [if_neg hb]
    exact ⟨inv, [], by simp⟩
  case pos =>
  rw [if_pos hb]
  cases hdn : st.distances (current.add dir) with
  | some d => exact ⟨inv, [], by simp⟩
  | none =>
    dsimp only
    set next := current.add dir with hnextdef
    have hfresh : next ∉ st.queue := by
      intro hmem
      have h1 := (inv.dom_iff next).mpr hmem
      rw [hdn] at h1
      exact Bool.noConfusion h1
    have hsne : s ≠ next := by
      intro he
      have hds0 := inv.dist_s
      rw [he, hdn] at hds0
      exact Option.noConfusion hds0
    set dist := (st.distances current).getD 0 + 1 with hdd
    have hdist1 : 1 ≤ dist := by
      rw [hdd]
      cases hcur : st.distances current with
      | none => simp
      | some dc =>
        have := inv.nonneg current dc hcur
        simp only [Option.getD_some]
        omega
    have hdom : ∀ q, (updF st.distances next (some dist) q).isSome = true ↔
        q ∈ st.queue ++ [next] := by
      intro q
      by_cases hq : q = next
      · subst hq
        rw [updF_self]
        simp
      · rw [updF_ne _ _ _ hq, List.mem_append]
        simp only [List.mem_singleton, hq, or_false]
        exact inv.dom_iff q
    have hnd : (st.queue ++ [next]).Nodup := by
      rw [List.nodup_append]
      exact ⟨inv.nodup, List.nodup_singleton _,
        fun a ha hb2 => hfresh ((List.mem_singleton.mp hb2) ▸ ha)⟩
    have hinq : ∀ q ∈ st.queue ++ [next],
        q = s ∨ (q.X > 0 ∧ q.X < m.width - 1 ∧ q.Y > 0 ∧ q.Y < m.height - 1 ∧
          m.grid q ≠ Cell.Wall) := by
      intro q hq
      rcases List.mem_append.mp hq with h | h
      · exact inv.inQ q h
      · rw [List.mem_singleton.mp h]
        exact Or.inr hb
    have hds : updF st.distances next (some dist) s = some 0 := by
      rw [updF_ne _ _ _ hsne]
      exact inv.dist_s
    have hnn : ∀ q dq, updF st.distances next (some dist) q = some dq → 0 ≤ dq := by
      intro q dq hq
      by_cases hqn : q = next
      · subst hqn
        rw [updF_self] at hq
        injection hq with hq
        omega
      · rw [updF_ne _ _ _ hqn] at hq
        exact inv.nonneg q dq hq
    by_cases hc : dist > st.maxDistance ∧ m.IsInsideDen next = false ∧
        m.IsAdjacentToDen next = false
    · rw [if_pos hc]
      obtain ⟨hc1, hc2, hc3⟩ := hc
      refine ⟨⟨hdom, hnd, hinq, hds, hnn, ?_, ?_, ?_, ?_⟩, [next], rfl⟩
      all_goals dsimp only
      · omega
      · intro q dq hq he
        by_cases hqn : q = next
        · subst hqn
          rw [updF_self] at hq
          injection hq with hq
          omega
        · rw [updF_ne _ _ _ hqn] at hq
          have := inv.le_max q dq hq he
          omega
      · intro _
        refine ⟨⟨hc2, hc3⟩, by rw [updF_self], ?_⟩
        have hlen : st.queue.length < (st.queue ++ [next]).length := by simp
        refine ⟨⟨st.queue.length, hlen⟩, get_append_last next hlen, ?_⟩
        intro j hjlt dj hdj hel
        have hjq : j.1 < st.queue.length := hjlt
        rw [get_append_left j.1 hjq j.2] at hdj hel
        have hqn2 : st.queue.get ⟨j.1, hjq⟩ ≠ next :=
          ne_of_not_mem hfresh (List.get_mem _ _ _)
        rw [updF_ne _ _ _ hqn2] at hdj
        have := inv.le_max _ _ hdj hel
        omega
      · intro h0
        exact absurd h0 (by omega)
    · rw [if_neg hc]
      refine ⟨⟨hdom, hnd, hinq, hds, hnn, inv.maxNonneg, ?_, ?_, inv.far_zero⟩,
        [next], rfl⟩
      all_goals dsimp only
      · intro q dq hq he
        by_cases hqn : q = next
        · subst hqn
          rw [updF_self] at hq
          injection hq with hq
          subst hq
          by_contra hgt
          exact hc ⟨by omega, he.1, he.2⟩
        · rw [updF_ne _ _ _ hqn] at hq
          exact inv.le_max q dq hq he
      · intro hpos
        obtain ⟨he, hd, i, hi, hj⟩ := inv.far_pos hpos
        have hfq : st.farthest ∈ st.queue :=
          (inv.dom_iff st.farthest).mp (by rw [hd]; rfl)
        have hfne : st.farthest ≠ next := ne_of_not_mem hfresh hfq
        refine ⟨he, by rw [updF_ne _ _ _ hfne]; exact hd, ?_⟩
        have hilt : i.1 < (st.queue ++ [next]).length := by
          have := i.isLt
          simp only [List.length_append, List.length_singleton]
          omega
        refine ⟨⟨i.1, hilt⟩, ?_, ?_⟩
        · rw [get_append_left i.1 i.isLt hilt]
          exact hi
        · intro j hjlt dj hdj hel
          have hjq : j.1 < st.queue.length := Nat.lt_trans hjlt i.isLt
          rw [get_append_left j.1 hjq j.2] at hdj hel
          have hqn2 : st.queue.get ⟨j.1, hjq⟩ ≠ next :=
            ne_of_not_mem hfresh (List.get_mem _ _ _)
          rw [updF_ne _ _ _ hqn2] at hdj
          exact hj ⟨j.1, hjq⟩ hjlt dj hdj hel

theorem farInv_fold {m : Maze} {s : Point} (current : Point) :
    ∀ (dirs : List Point) (st : FarSt), FarInv m s st →
      FarInv m s (dirs.foldl (farStepDir m current) st) ∧
      ∃ t, (dirs.foldl (farStepDir m current) st).queue = st.queue ++ t := by
  intro dirs
  induction dirs with
  | nil => exact fun st inv => ⟨inv, [], by simp⟩
  | cons d ds ih =>
    intro st inv
    obtain ⟨inv1, t1, ht1⟩ := farInv_step inv current d
    obtain ⟨inv2, t2, ht2⟩ := ih _ inv1
    rw [List.foldl_cons]
    exact ⟨inv2, t1 ++ t2, by rw [ht2, ht1, List.append_assoc]⟩

theorem far_queue_len {m : Maze} {s : Point} {l : List Point} (hn : l.Nodup)
    (hq : ∀ q ∈ l, q = s ∨ (q.X > 0 ∧ q.X < m.width - 1 ∧ q.Y > 0 ∧
      q.Y < m.height - 1 ∧ m.grid q ≠ Cell.Wall)) :
    l.length ≤ (gridFinset m).card + 1 := by
  have hsub : l.toFinset ⊆ insert s (gridFinset m) := by
    intro p hp
    rw [List.mem_toFinset] at hp
    rcases hq p hp with h | h
    · subst h
      exact Finset.mem_insert_self _ _
    · refine Finset.mem_insert_of_mem (mem_gridFinset.mpr ?_)
      unfold Maze.inGrid
      exact decide_eq_true (by omega)
  calc l.length = l.toFinset.card := (List.toFinset_card_of_nodup hn).symm
    _ ≤ (insert s (gridFinset m)).card := Finset.card_le_card hsub
    _ ≤ (gridFinset m).card + 1 := Finset.card_insert_le _ _

theorem farLoop_some {m : Maze} {s : Point} :
    ∀ (fuel : Nat) (st : FarSt) (head : Nat), FarInv m s st →
      head ≤ st.queue.length → (gridFinset m).card + 2 ≤ fuel + head →
      ∃ st', farLoop m fuel st head = some st' ∧ FarInv m s st' := by
  intro fuel
  induction fuel with
  | zero =>
    intro st head inv hh hf
    exfalso
    have := far_queue_len inv.nodup inv.inQ
    omega
  | succ f ih =>
    intro st head inv hh hf
    rw [farLoop]
    by_cases h : head < st.queue.length
    · rw [dif_pos h]
      obtain ⟨inv', t, ht⟩ := farInv_fold _ cardinalDirs st inv
      refine ih _ (head + 1) inv' ?_ (by omega)
      rw [ht, List.length_append]
      omega
    · rw [dif_neg h]
      exact ⟨st, rfl, inv⟩

theorem farInv_init (m : Maze) (s : Point) :
    FarInv m s ⟨[s], updF (fun _ => none) s (some 0), s, 0⟩ := by
  refine ⟨?_, ?_, ?_, ?_, ?_, ?_, ?_, ?_, ?_⟩ <;> dsimp only
  · intro q
    by_cases hq : q = s
    · subst hq
      rw [updF_self]
      simp
    · rw [updF_ne _ _ _ hq]
      simp [hq]
  · exact List.nodup_singleton s
  · intro q hq
    exact Or.inl (List.mem_singleton.mp hq)
  · exact updF_self _ _ _
  · intro q dq hq
    by_cases hqn : q = s
    · subst hqn
      rw [updF_self] at hq
      injection hq with hq
      omega
    · rw [updF_ne _ _ _ hqn] at hq
      exact Option.noConfusion hq
  · exact le_refl 0
  · intro q dq hq he
    by_cases hqn : q = s
    · subst hqn
      rw [updF_self] at hq
      injection hq with hq
      omega
    · rw [updF_ne _ _ _ hqn] at hq
      exact Option.noConfusion hq
  · intro hpos
    exact absurd hpos (by omega)
  · exact fun _ => rfl

theorem card_le_mulToNat (m : Maze) :
    (gridFinset m).card ≤ (m.width * m.height).toNat := by
  rw [card_gridFinset]
  rcases le_or_lt 0 m.width with hw | hw
  · rcases le_or_lt 0 m.height with hh | hh
    · rw [int_toNat_mul hw hh]
    · rw [Int.toNat_of_nonpos hh.le]
      simp
  · rw [Int.toNat_of_nonpos hw.le]
    simp

theorem farRun_some (m : Maze) (s : Point) :
    ∃ st, farRun m s = some st ∧ FarInv m s st := by
  unfold farRun
  refine farLoop_some (solveFuel m + 1) _ 0 (farInv_init m s) (by simp) ?_
  have := card_le_mulToNat m
  unfold solveFuel
  omega

theorem odd_denStart {v dv : Int} (hv : Odd v) (hdv : Odd dv) (hlt : dv ≤ v - 3) :
    Odd (if goDiv (v - dv) 2 > 0 ∧ goMod (goDiv (v - dv) 2) 2 = 0
      then goDiv (v - dv) 2 - 1 else goDiv (v - dv) 2) := by
  obtain ⟨a, ha⟩ := hv
  obtain ⟨b, hb⟩ := hdv
  have hdiv : goDiv (v - dv) 2 = a - b := by
    have hev : v - dv = 2 * (a - b) := by omega
    rw [hev]
    exact Int.mul_tdiv_cancel_left _ (by norm_num)
  rw [hdiv]
  have hab : 2 ≤ a - b := by omega
  by_cases hc : a - b > 0 ∧ goMod (a - b) 2 = 0
  · rw [if_pos hc]
    have hdvd : 2 ∣ (a - b) := (tmod_two_eq_zero_iff _).mp hc.2
    rw [Int.odd_iff]
    omega
  · rw [if_neg hc]
    have hndvd : ¬ 2 ∣ (a - b) :=
      fun hd => hc ⟨by omega, (tmod_two_eq_zero_iff _).mpr hd⟩
    rw [Int.odd_iff]
    omega

theorem new_den_geom {w h dw dh : Int} {m : Maze} (hnew : New w h dw dh = Except.ok m) :
    0 < m.denWidth → 0 < m.denHeight →
      Odd m.denStartX ∧ Odd m.denStartY ∧ Odd m.denWidth ∧ Odd m.denHeight := by
  rw [New_eq] at hnew
  by_cases h1 : w ≤ 0 ∨ h ≤ 0
  · rw [if_pos h1] at hnew
    exact Except.noConfusion hnew
  rw [if_neg h1] at hnew
  by_cases h2 : dw < 0 ∨ dh < 0
  · rw [if_pos h2] at hnew
    exact Except.noConfusion hnew
  rw [if_neg h2] at hnew
  by_cases h3 : adjustToOdd dw > 0 ∧ adjustToOdd dw ≥ adjustToOdd w - 2
  · rw [if_pos h3] at hnew
    exact Except.noConfusion hnew
  rw [if_neg h3] at hnew
  by_cases h4 : adjustToOdd dh > 0 ∧ adjustToOdd dh ≥ adjustToOdd h - 2
  · rw [if_pos h4] at hnew
    exact Except.noConfusion hnew
  rw [if_neg h4] at hnew
  injection hnew with hm
  subst hm
  simp only [newOk]
  intro hdw hdh
  have hwpos : 0 < w := by omega
  have hhpos : 0 < h := by omega
  have hdwpos : 0 < dw := by
    by_contra hz
    have : dw = 0 := by omega
    rw [this] at hdw
    simp only [adjustToOdd] at hdw
    rw [if_neg (by omega)] at hdw
    omega
  have hdhpos : 0 < dh := by
    by_contra hz
    have : dh = 0 := by omega
    rw [this] at hdh
    simp only [adjustToOdd] at hdh
    rw [if_neg (by omega)] at hdh
    omega
  have how := adjustToOdd_odd_of_pos w hwpos
  have hoh := adjustToOdd_odd_of_pos h hhpos
  have hodw := adjustToOdd_odd_of_pos dw hdwpos
  have hodh := adjustToOdd_odd_of_pos dh hdhpos
  rw [if_pos ⟨hdw, hdh⟩]
  refine ⟨?_, ?_, hodw, hodh⟩
  · simp only [calculateDenPosition]
    exact odd_denStart how hodw (by omega)
  · simp only [calculateDenPosition]
    exact odd_denStart hoh hodh (by omega)

theorem not_adjacent_of_odd {m : Maze} {p : Point}
    (hgx : Odd m.denStartX) (hgy : Odd m.denStartY)
    (hgw : Odd m.denWidth) (hgh : Odd m.denHeight)
    (hx : Odd p.X) (hy : Odd p.Y)
    (hin : m.IsInsideDen p = false) :
    m.IsAdjacentToDen p = false := by
  unfold Maze.IsAdjacentToDen
  by_cases hz : m.denWidth ≤ 0 ∨ m.denHeight ≤ 0
  · rw [if_pos hz]
  rw [if_neg hz, hin]
  simp only [Bool.false_eq_true, if_false]
  cases hA : cardinalDirs.any fun dir => m.IsInsideDen (p.add dir) with
  | false => rfl
  | true =>
    exfalso
    rw [List.any_eq_true] at hA
    obtain ⟨dir, hdir, hins⟩ := hA
    unfold Maze.IsInsideDen at hin hins
    rw [if_neg hz] at hin hins
    have hin' := of_decide_eq_false hin
    have hins' := of_decide_eq_true hins
    obtain ⟨a, ha⟩ := hgx
    obtain ⟨b, hb⟩ := hgy
    obtain ⟨c, hc⟩ := hgw
    obtain ⟨d, hd⟩ := hgh
    obtain ⟨e, he⟩ := hx
    obtain ⟨f, hf⟩ := hy
    simp only [cardinalDirs, List.mem_cons, List.mem_singleton,
      List.not_mem_nil, or_false] at hdir
    rcases hdir with rfl | rfl | rfl | rfl <;>
      (dsimp only [Point.add] at hins'; omega)

theorem eligDen_of_odd {m : Maze} {p : Point}
    (hodd : 0 < m.denWidth → 0 < m.denHeight →
      Odd m.denStartX ∧ Odd m.denStartY ∧ Odd m.denWidth ∧ Odd m.denHeight)
    (hx : Odd p.X) (hy : Odd p.Y) (hin : m.IsInsideDen p = false) :
    eligDen m p := by
  refine ⟨hin, ?_⟩
  by_cases hz : m.denWidth ≤ 0 ∨ m.denHeight ≤ 0
  · unfold Maze.IsAdjacentToDen
    rw [if_pos hz]
  · obtain ⟨h1, h2, h3, h4⟩ := hodd (by omega) (by omega)
    exact not_adjacent_of_odd h1 h2 h3 h4 hx hy hin

theorem far_elig {mz : Maze} {gs : Point} (helig : eligDen mz gs) :
    eligDen mz (findFarthestPoint mz gs).1 := by
  obtain ⟨st, hrun, hinv⟩ := farRun_some mz gs
  unfold findFarthestPoint
  rw [hrun]
  dsimp only
  rcases lt_or_eq_of_le hinv.maxNonneg with hpos | hzero
  · exact (hinv.far_pos hpos).1
  · rw [hinv.far_zero hzero.symm]
    exact helig

theorem carveBackLoop_fields (parent : Point → Option Point) (startP : Point) :
    ∀ (fuel : Nat) (p : Point) (mz : Maze),
      ∃ g, carveBackLoop parent startP fuel p mz = { mz with grid := g } := by
  intro fuel
  induction fuel with
  | zero => exact fun p mz => ⟨mz.grid, rfl⟩
  | succ f ih =>
    intro p mz
    rw [carveBackLoop]
    by_cases hp : p = startP
    · rw [if_pos hp]
      exact ⟨mz.grid, rfl⟩
    · rw [if_neg hp]
      obtain ⟨g, hg⟩ :=
        ih ((parent p).getD ⟨0, 0⟩) (setCell mz ((parent p).getD ⟨0, 0⟩) Cell.Path)
      exact ⟨g, hg⟩

theorem carvePathToNearest_fields (mz : Maze) (s : Point) :
    ∃ g e, carvePathToNearest mz s = ({ mz with grid := g }, e) := by
  unfold carvePathToNearest
  cases hcl : carveLoop mz (solveFuel mz)
      { queue := [s], visited := updF (fun _ => false) s true,
        parent := fun _ => none } 0 with
  | none => exact ⟨mz.grid, some GenErr.outOfFuel, rfl⟩
  | some pr =>
    obtain ⟨par, tgt⟩ := pr
    cases tgt with
    | none => exact ⟨mz.grid, some GenErr.noPathToConnect, rfl⟩
    | some target =>
      obtain ⟨g, hg⟩ := carveBackLoop_fields par s (solveFuel mz) target mz
      exact ⟨g, none, by dsimp only; rw [hg]⟩

theorem connectDenDoorAt_fields (mz : Maze) (door nbr : Point) :
    ∃ g d e, connectDenDoorAt mz door nbr = ({ mz with grid := g, door := d }, e) := by
  unfold connectDenDoorAt
  by_cases h1 : door.X ≤ 0 ∨ door.X ≥ mz.width - 1 ∨ door.Y ≤ 0 ∨
      door.Y ≥ mz.height - 1 ∨ nbr.X ≤ 0 ∨ nbr.X ≥ mz.width - 1 ∨
      nbr.Y ≤ 0 ∨ nbr.Y ≥ mz.height - 1
  · rw [if_pos h1]
    exact ⟨mz.grid, mz.door, some GenErr.doorTooCloseToEdge, rfl⟩
  rw [if_neg h1]
  by_cases h2 : mz.grid nbr = Cell.Path
  · rw [if_pos h2]
    exact ⟨updF mz.grid door Cell.Path, door, none, rfl⟩
  rw [if_neg h2]
  obtain ⟨g, e, hce⟩ := carvePathToNearest_fields mz nbr
  rw [hce]
  cases e with
  | some e0 => exact ⟨g, mz.door, some e0, rfl⟩
  | none => exact ⟨updF g door Cell.Path, door, none, rfl⟩

theorem connectDenAtSide_fields (mz : Maze) (ds : String) :
    ∃ g d e, connectDenAtSide mz ds = ({ mz with grid := g, door := d }, e) := by
  unfold connectDenAtSide
  by_cases h1 : ds = "top"
  · rw [if_pos h1]
    exact connectDenDoorAt_fields mz _ _
  rw [if_neg h1]
  by_cases h2 : ds = "bottom"
  · rw [if_pos h2]
    exact connectDenDoorAt_fields mz _ _
  rw [if_neg h2]
  by_cases h3 : ds = "left"
  · rw [if_pos h3]
    exact connectDenDoorAt_fields mz _ _
  rw [if_neg h3]
  by_cases h4 : ds = "right"
  · rw [if_pos h4]
    exact connectDenDoorAt_fields mz _ _
  rw [if_neg h4]
  exact ⟨mz.grid, mz.door, some GenErr.invalidDoorSide, rfl⟩

theorem connectDenAtPoint_fields (mz : Maze) (ud : Point) :
    ∃ g d e, connectDenAtPoint mz ud = ({ mz with grid := g, door := d }, e) := by
  unfold connectDenAtPoint
  by_cases h1 : ud.X ≤ 0 ∨ ud.X ≥ mz.width - 1 ∨ ud.Y ≤ 0 ∨ ud.Y ≥ mz.height - 1 ∨
      mz.grid ud ≠ Cell.Wall
  · rw [if_pos h1]
    exact ⟨mz.grid, mz.door, some GenErr.invalidDoorNotWall, rfl⟩
  rw [if_neg h1]
  by_cases h2 : mz.grid ⟨ud.X - 1, ud.Y⟩ = Cell.Path ∧
      mz.grid ⟨ud.X + 1, ud.Y⟩ = Cell.Path ∧
      mz.IsInsideDen ⟨ud.X - 1, ud.Y⟩ ≠ mz.IsInsideDen ⟨ud.X + 1, ud.Y⟩
  · rw [if_pos h2]
    exact ⟨updF mz.grid ud Cell.Path, ud, none, rfl⟩
  rw [if_neg h2]
  by_cases h3 : mz.grid ⟨ud.X, ud.Y - 1⟩ = Cell.Path ∧
      mz.grid ⟨ud.X, ud.Y + 1⟩ = Cell.Path ∧
      mz.IsInsideDen ⟨ud.X, ud.Y - 1⟩ ≠ mz.IsInsideDen ⟨ud.X, ud.Y + 1⟩
  · rw [if_pos h3]
    exact ⟨updF mz.grid ud Cell.Path, ud, none, rfl⟩
  rw [if_neg h3]
  exact ⟨mz.grid, mz.door, some GenErr.doorNotConnecting, rfl⟩

theorem connectRandomDenDoor_fields (mz : Maze) (r : Rng) :
    ∃ g d r2 e,
      connectRandomDenDoor mz r = (({ mz with grid := g, door := d }, r2), e) := by
  rcases hint : r.intn ((potentialDoors mz).length : Int) with ⟨i, r'⟩
  simp only [connectRandomDenDoor, hint]
  by_cases h : (potentialDoors mz).length > 0
  · rw [if_pos h]
    exact ⟨_, _, r', none, rfl⟩
  · rw [if_neg h]
    exact ⟨mz.grid, mz.door, r, none, rfl⟩

theorem connectDen_fields (mz : Maze) (r : Rng) (ud : Option Point) (ds : String) :
    ∃ g d r2 e, connectDen mz r ud ds = (({ mz with grid := g, door := d }, r2), e) := by
  unfold connectDen
  by_cases h1 : mz.denWidth ≤ 0 ∨ mz.denHeight ≤ 0
  · rw [if_pos h1]
    exact ⟨mz.grid, mz.door, r, none, rfl⟩
  rw [if_neg h1]
  by_cases h2 : ds ≠ ""
  · rw [if_pos h2]
    obtain ⟨g, d, e, hs⟩ := connectDenAtSide_fields mz ds
    rw [hs]
    exact ⟨g, d, r, e, rfl⟩
  rw [if_neg h2]
  cases ud with
  | some dpt =>
    obtain ⟨g, d, e, hp⟩ := connectDenAtPoint_fields mz dpt
    dsimp only
    rw [hp]
    exact ⟨g, d, r, e, rfl⟩
  | none =>
    dsimp only
    exact connectRandomDenDoor_fields mz r

theorem odd_of_tmod_ne {a : Int} (h : ¬ goMod a 2 = 0) : Odd a := by
  have hnd : ¬ 2 ∣ a := fun hd => h ((tmod_two_eq_zero_iff a).mpr hd)
  rw [Int.odd_iff]
  omega

theorem selectStart_spec {mz : Maze} :
    ∀ (fuel : Nat) (r : Rng) (p : Point) (r2 : Rng),
      selectStart mz fuel r = some (p, r2) →
      Odd p.X ∧ Odd p.Y ∧ mz.IsInsideDen p = false := by
  intro fuel
  induction fuel with
  | zero =>
    intro r p r2 h
    exact Option.noConfusion h
  | succ f ih =>
    intro r p r2 h
    rw [selectStart] at h
    rcases h1 : r.intn (goDiv (mz.width - 1) 2) with ⟨sx, r1⟩
    rw [h1] at h
    dsimp only at h
    rcases h2 : r1.intn (goDiv (mz.height - 1) 2) with ⟨sy, rr⟩
    rw [h2] at h
    dsimp only at h
    by_cases hin : mz.IsInsideDen ⟨sx * 2 + 1, sy * 2 + 1⟩ = false
    · rw [if_pos hin] at h
      injection h with h
      injection h with hp hr
      subst hp
      exact ⟨⟨sx, by show sx * 2 + 1 = 2 * sx + 1; ring⟩,
        ⟨sy, by show sy * 2 + 1 = 2 * sy + 1; ring⟩, hin⟩
    · rw [if_neg hin] at h
      exact ih rr p r2 h

theorem eligDen_den_congr (a b : Maze) (h1 : a.denWidth = b.denWidth)
    (h2 : a.denHeight = b.denHeight) (h3 : a.denStartX = b.denStartX)
    (h4 : a.denStartY = b.denStartY) (p : Point) : eligDen a p ↔ eligDen b p := by
  unfold eligDen Maze.IsAdjacentToDen Maze.IsInsideDen
  simp only [h1, h2, h3, h4]

theorem place_den_fields (mz : Maze) (gs : Point) (ups : Bool) :
    (placeStartAndEnd mz gs ups).denWidth = mz.denWidth ∧
    (placeStartAndEnd mz gs ups).denHeight = mz.denHeight ∧
    (placeStartAndEnd mz gs ups).denStartX = mz.denStartX ∧
    (placeStartAndEnd mz gs ups).denStartY = mz.denStartY := by
  cases ups <;> exact ⟨rfl, rfl, rfl, rfl⟩

theorem place_start_true (mz : Maze) (gs : Point) :
    (placeStartAndEnd mz gs true).start = gs := rfl

theorem place_start_false (mz : Maze) (gs : Point) :
    (placeStartAndEnd mz gs false).start = (findFarthestPoint mz gs).1 := rfl

theorem place_end_true (mz : Maze) (gs : Point) :
    (placeStartAndEnd mz gs true).endP =
      (findFarthestPoint { mz with start := gs } gs).1 := rfl

theorem place_end_false (mz : Maze) (gs : Point) :
    (placeStartAndEnd mz gs false).endP =
      (findFarthestPoint { mz with start := (findFarthestPoint mz gs).1 }
        (findFarthestPoint mz gs).1).1 := rfl

theorem place_elig {mz : Maze} {gs : Point} (ups : Bool)
    (hodd : 0 < mz.denWidth → 0 < mz.denHeight →
      Odd mz.denStartX ∧ Odd mz.denStartY ∧ Odd mz.denWidth ∧ Odd mz.denHeight)
    (hx : Odd gs.X) (hy : Odd gs.Y) (hin : mz.IsInsideDen gs = false) :
    eligDen (placeStartAndEnd mz gs ups) (placeStartAndEnd mz gs ups).start ∧
    eligDen (placeStartAndEnd mz gs ups) (placeStartAndEnd mz gs ups).endP := by
  have hgse : eligDen mz gs := eligDen_of_odd hodd hx hy hin
  cases ups with
  | true =>
    obtain ⟨hf1, hf2, hf3, hf4⟩ := place_den_fields mz gs true
    rw [eligDen_den_congr _ mz hf1 hf2 hf3 hf4, eligDen_den_congr _ mz hf1 hf2 hf3 hf4,
      place_start_true, place_end_true]
    refine ⟨hgse, ?_⟩
    have hgse1 : eligDen { mz with start := gs } gs :=
      (eligDen_den_congr { mz with start := gs } mz rfl rfl rfl rfl gs).mpr hgse
    exact (eligDen_den_congr { mz with start := gs } mz rfl rfl rfl rfl _).mp
      (far_elig hgse1)
  | false =>
    obtain ⟨hf1, hf2, hf3, hf4⟩ := place_den_fields mz gs false
    rw [eligDen_den_congr _ mz hf1 hf2 hf3 hf4, eligDen_den_congr _ mz hf1 hf2 hf3 hf4,
      place_start_false, place_end_false]
    have hfar1 : eligDen mz (findFarthestPoint mz gs).1 := far_elig hgse
    refine ⟨hfar1, ?_⟩
    have hq1 : eligDen { mz with start := (findFarthestPoint mz gs).1 }
        (findFarthestPoint mz gs).1 :=
      (eligDen_den_congr { mz with start := (findFarthestPoint mz gs).1 } mz
        rfl rfl rfl rfl _).mpr hfar1
    exact (eligDen_den_congr { mz with start := (findFarthestPoint mz gs).1 } mz
      rfl rfl rfl rfl _).mp (far_elig hq1)

theorem generateCore_elig {mz : Maze} {r : Rng} {gs : Point} {ups : Bool}
    {door : Option Point} {ds : String} {bias : ℚ} {m' : Maze}
    (hrun : generateCore mz r gs ups door ds bias = (m', none))
    (hodd : 0 < mz.denWidth → 0 < mz.denHeight →
      Odd mz.denStartX ∧ Odd mz.denStartY ∧ Odd mz.denWidth ∧ Odd mz.denHeight)
    (hx : Odd gs.X) (hy : Odd gs.Y) (hin : mz.IsInsideDen gs = false) :
    eligDen m' m'.start ∧ eligDen m' m'.endP := by
  unfold generateCore at hrun
  obtain ⟨g0, r1, hdfs⟩ := runDFS_grid_only mz r gs bias
  rw [hdfs] at hrun
  dsimp only at hrun
  obtain ⟨g2, d2, r2, e2, hcd⟩ := connectDen_fields { mz with grid := g0 } r1 door ds
  rw [hcd] at hrun
  cases e2 with
  | some e =>
    dsimp only at hrun
    have hsnd := congrArg Prod.snd hrun
    exact absurd hsnd (by simp)
  | none =>
    dsimp only at hrun
    have hm := congrArg Prod.fst hrun
    dsimp only at hm
    rw [← hm]
    exact place_elig ups hodd hx hy hin

/-- C5 counterexample: on the freshly constructed 11×11 maze with a 3×3 den,
`findFarthestPoint` from the den-interior reference `(5,5)` returns `(5,5)`
itself (distance 0) — a point inside the den — so "returns a visited cell that
is neither inside the den nor adjacent to the den" fails for an arbitrary
reference point. -/
theorem C5_counterexample :
    (newOk 11 11 3 3).IsInsideDen ⟨5, 5⟩ = true ∧
    findFarthestPoint (newOk 11 11 3 3) ⟨5, 5⟩ = (⟨5, 5⟩, 0) ∧
    (newOk 11 11 3 3).IsInsideDen
      (findFarthestPoint (newOk 11 11 3 3) ⟨5, 5⟩).1 = true := by
  decide

/-- C5 (amended): `findFarthestPoint` always terminates with a final BFS state
in which `maxDistance` bounds the recorded distance of every visited cell that
is neither den-interior nor den-adjacent (eligible); when `maxDistance > 0` the
returned point is a visited walkable eligible cell whose recorded distance is
exactly `maxDistance`, and it is the first cell in BFS visitation (enqueue)
order to realize it (every earlier-enqueued eligible cell has a strictly
smaller distance); when `maxDistance = 0` the returned point is the reference
point itself, which need not be eligible.  Consequently, for a maze built by
`New`, after a successful `Generate` the placed start and end points are never
den-interior or den-adjacent. -/
theorem C5_farthest_point (m : Maze) (s : Point)
    (w h dw dh seed : Int) (os odoor : Option Point) (side : String) (bias : ℚ)
    (m0 m2 : Maze)
    (hnew : New w h dw dh = Except.ok m0)
    (hgen : Generate m0 seed os odoor side bias = (m2, none)) :
    (∃ st, farRun m s = some st ∧
      findFarthestPoint m s = (st.farthest, st.maxDistance) ∧
      (∀ q dq, st.distances q = some dq → eligDen m q → dq ≤ st.maxDistance) ∧
      (0 < st.maxDistance →
        eligDen m st.farthest ∧ m.grid st.farthest ≠ Cell.Wall ∧
        st.distances st.farthest = some st.maxDistance ∧
        ∃ i : Fin st.queue.length, st.queue.get i = st.farthest ∧
          ∀ j : Fin st.queue.length, j.1 < i.1 → ∀ dj,
            st.distances (st.queue.get j) = some dj →
            eligDen m (st.queue.get j) → dj < st.maxDistance) ∧
      (st.maxDistance = 0 → st.farthest = s)) ∧
    eligDen m2 m2.start ∧ eligDen m2 m2.endP := by
  obtain ⟨st, hrun, hinv⟩ := farRun_some m s
  refine ⟨⟨st, hrun, ?_, hinv.le_max, ?_, hinv.far_zero⟩, ?_⟩
  · unfold findFarthestPoint
    rw [hrun]
  · intro hpos
    obtain ⟨he, hd, hidx⟩ := hinv.far_pos hpos
    have hfq : st.farthest ∈ st.queue :=
      (hinv.dom_iff st.farthest).mp (by rw [hd]; rfl)
    rcases hinv.inQ st.farthest hfq with heq | hbounds
    · exfalso
      rw [heq, hinv.dist_s] at hd
      injection hd with hd
      omega
    · exact ⟨he, hbounds.2.2.2.2, hd, hidx⟩
  · have hodd := new_den_geom hnew
    unfold Generate at hgen
    cases os with
    | some s0 =>
      dsimp only at hgen
      by_cases hb1 : badStartGeom m0 s0
      · rw [if_pos hb1] at hgen
        exact absurd (congrArg Prod.snd hgen) (by simp)
      rw [if_neg hb1] at hgen
      by_cases hb2 : m0.IsInsideDen s0 = true
      · rw [if_pos hb2] at hgen
        exact absurd (congrArg Prod.snd hgen) (by simp)
      rw [if_neg hb2] at hgen
      have hin : m0.IsInsideDen s0 = false := by
        cases hq : m0.IsInsideDen s0 with
        | false => rfl
        | true => exact absurd hq hb2
      unfold badStartGeom at hb1
      push_neg at hb1
      obtain ⟨h1, h2, h3, h4, h5, h6⟩ := hb1
      exact generateCore_elig hgen hodd (odd_of_tmod_ne h5) (odd_of_tmod_ne h6) hin
    | none =>
      dsimp only at hgen
      cases hsel : selectStart m0 (solveFuel m0) (rngOfSeed seed) with
      | none =>
        rw [hsel] at hgen
        exact absurd (congrArg Prod.snd hgen) (by simp)
      | some pr =>
        obtain ⟨gs, r'⟩ := pr
        rw [hsel] at hgen
        dsimp only at hgen
        obtain ⟨hgx, hgy, hgin⟩ := selectStart_spec _ _ _ _ hsel
        exact generateCore_elig hgen hodd hgx hgy hgin

theorem C5_farthest_point_witness :
    New (5 : Int) 5 0 0 = Except.ok (newOk 5 5 0 0) ∧
    Generate (newOk 5 5 0 0) 1 (some ⟨1, 1⟩) none "" 0 =
      ((Generate (newOk 5 5 0 0) 1 (some ⟨1, 1⟩) none "" 0).1, none) ∧
    ((∃ st, farRun (newOk 5 5 0 0) ⟨1, 1⟩ = some st ∧
      findFarthestPoint (newOk 5 5 0 0) ⟨1, 1⟩ = (st.farthest, st.maxDistance) ∧
      (∀ q dq, st.distances q = some dq → eligDen (newOk 5 5 0 0) q →
        dq ≤ st.maxDistance) ∧
      (0 < st.maxDistance →
        eligDen (newOk 5 5 0 0) st.farthest ∧
        (newOk 5 5 0 0).grid st.farthest ≠ Cell.Wall ∧
        st.distances st.farthest = some st.maxDistance ∧
        ∃ i : Fin st.queue.length, st.queue.get i = st.farthest ∧
          ∀ j : Fin st.queue.length, j.1 < i.1 → ∀ dj,
            st.distances (st.queue.get j) = some dj →
            eligDen (newOk 5 5 0 0) (st.queue.get j) → dj < st.maxDistance) ∧
      (st.maxDistance = 0 → st.farthest = ⟨1, 1⟩)) ∧
    eligDen (Generate (newOk 5 5 0 0) 1 (some ⟨1, 1⟩) none "" 0).1
      (Generate (newOk 5 5 0 0) 1 (some ⟨1, 1⟩) none "" 0).1.start ∧
    eligDen (Generate (newOk 5 5 0 0) 1 (some ⟨1, 1⟩) none "" 0).1
      (Generate (newOk 5 5 0 0) 1 (some ⟨1, 1⟩) none "" 0).1.endP) := by
  have hnew : New (5 : Int) 5 0 0 = Except.ok (newOk 5 5 0 0) := by
    rw [New_eq]
    rfl
  have h2 : (Generate (newOk 5 5 0 0) 1 (some ⟨1, 1⟩) none "" 0).2 = none := by
    decide
  have hgen : Generate (newOk 5 5 0 0) 1 (some ⟨1, 1⟩) none "" 0 =
      ((Generate (newOk 5 5 0 0) 1 (some ⟨1, 1⟩) none "" 0).1, none) :=
    Prod.ext rfl h2
  exact ⟨hnew, hgen, C5_farthest_point (newOk 5 5 0 0) ⟨1, 1⟩ 5 5 0 0 1
    (some ⟨1, 1⟩) none "" 0 (newOk 5 5 0 0) _ hnew hgen⟩

theorem mem_nbrs_iff (p q : Point) :
    q ∈ p.nbrs ↔ (q.X = p.X ∧ (q.Y = p.Y - 1 ∨ q.Y = p.Y + 1)) ∨
      (q.Y = p.Y ∧ (q.X = p.X - 1 ∨ q.X = p.X + 1)) := by
  cases p with
  | mk px py =>
    cases q with
    | mk qx qy =>
      simp only [Point.nbrs, cardinalDirs, Point.add, List.map_cons, List.map_nil,
        List.mem_cons, List.not_mem_nil, or_false, Point.mk.injEq]
      omega

theorem nbrs_symm {p q : Point} (h : q ∈ p.nbrs) : p ∈ q.nbrs := by
  rw [mem_nbrs_iff] at h ⊢
  omega

theorem spi_singleton (good : Point → Prop) (a : Point) (h : good a) :
    SimplePathIn good a a [a] :=
  ⟨rfl, rfl, List.chain'_singleton a,
    fun v hv => (List.mem_singleton.mp hv) ▸ h, List.nodup_singleton a⟩

theorem spi_same_ends {good : Point → Prop} {a : Point} {l : List Point}
    (h : SimplePathIn good a a l) : l = [a] := by
  obtain ⟨h1, h2, _, _, h5⟩ := h
  cases l with
  | nil => exact Option.noConfusion h1
  | cons x xs =>
    injection h1 with h1
    subst h1
    cases xs with
    | nil => rfl
    | cons y ys =>
      exfalso
      rw [List.getLast?_cons_cons] at h2
      have hmem : x ∈ y :: ys := List.mem_of_mem_getLast? h2
      rw [List.nodup_cons] at h5
      exact h5.1 hmem

theorem spi_tail {good : Point → Prop} {a u b : Point} {rest : List Point}
    (h : SimplePathIn good a b (a :: u :: rest)) :
    SimplePathIn good u b (u :: rest) := by
  obtain ⟨h1, h2, h3, h4, h5⟩ := h
  exact ⟨rfl, by rwa [List.getLast?_cons_cons] at h2, h3.tail,
    fun v hv => h4 v (List.mem_cons_of_mem _ hv), h5.of_cons⟩

theorem desc_head_ge {D : Point → Nat} :
    ∀ (l : List Point) (x : Point), l.Chain' (DStep D) → l.head? = some x →
      ∀ v ∈ l, D v ≤ D x := by
  intro l
  induction l with
  | nil => intro x _ hx; exact Option.noConfusion hx
  | cons z zs ih =>
    intro x hc hx v hv
    injection hx with hx
    subst hx
    rcases List.mem_cons.mp hv with rfl | hv2
    · exact le_refl _
    · cases zs with
      | nil => exact absurd hv2 (List.not_mem_nil v)
      | cons y ys =>
        rw [List.chain'_cons] at hc
        have hstep := hc.1.2
        have := ih y hc.2 rfl v hv2
        omega

theorem desc_nodup {D : Point → Nat} {l : List Point}
    (h : l.Chain' (DStep D)) : l.Nodup := by
  have h2 : l.Chain' (fun u v => D v < D u) :=
    List.Chain'.imp (fun a b hd => by have := hd.2; omega) h
  exact (List.chain'_iff_pairwise.mp h2).imp
    (fun hlt heq => absurd (heq ▸ hlt) (lt_irrefl _))

theorem desc_last_depth {D : Point → Nat} :
    ∀ (l : List Point) (x y : Point), l.Chain' (DStep D) → l.head? = some x →
      l.getLast? = some y → D y + l.length = D x + 1 := by
  intro l
  induction l with
  | nil => intro x y _ hx _; exact Option.noConfusion hx
  | cons z zs ih =>
    intro x y hc hx hy
    injection hx with hx
    subst hx
    cases zs with
    | nil =>
      injection hy with hy
      subst hy
      simp
    | cons u us =>
      rw [List.chain'_cons] at hc
      rw [List.getLast?_cons_cons] at hy
      have hstep := hc.1.2
      have := ih u y hc.2 rfl hy
      simp only [List.length_cons] at *
      omega

theorem desc_exists {good : Point → Prop} {D : Point → Nat} {s : Point}
    (td : TreeDepth good D s) :
    ∀ (n : Nat) (a : Point), good a → D a = n →
      ∃ l, SimplePathIn good a s l ∧ l.Chain' (DStep D) := by
  intro n
  induction n with
  | zero =>
    intro a ha h0
    have has : a = s := td.d_zero a ha h0
    subst has
    exact ⟨[a], spi_singleton _ _ ha, List.chain'_singleton _⟩
  | succ k ih =>
    intro a ha hd
    obtain ⟨u, hu, hun, hdu⟩ := td.down_ex a ha (by omega)
    obtain ⟨l', hspi, hdesc⟩ := ih u hu (by omega)
    obtain ⟨h1, h2, h3, h4, h5⟩ := hspi
    cases l' with
    | nil => exact Option.noConfusion h1
    | cons z zs =>
      injection h1 with h1
      subst h1
      refine ⟨a :: z :: zs, ⟨rfl, by rw [List.getLast?_cons_cons]; exact h2, ?_, ?_, ?_⟩, ?_⟩
      · rw [List.chain'_cons]
        exact ⟨hun, h3⟩
      · intro v hv
        rcases List.mem_cons.mp hv with rfl | hv2
        · exact ha
        · exact h4 v hv2
      · rw [List.nodup_cons]
        refine ⟨fun hmem => ?_, h5⟩
        have := desc_head_ge (z :: zs) z hdesc rfl a hmem
        omega
      · rw [List.chain'_cons]
        exact ⟨⟨hun, by omega⟩, hdesc⟩

theorem desc_prefix {good : Point → Prop} {D : Point → Nat} {s : Point}
    (td : TreeDepth good D s) :
    ∀ (la lb : List Point) (a : Point),
      la.head? = some a → lb.head? = some a →
      la.Chain' (DStep D) → lb.Chain' (DStep D) →
      (∀ v ∈ la, good v) → (∀ v ∈ lb, good v) →
      la <+: lb ∨ lb <+: la := by
  intro la
  induction la with
  | nil =>
    intro lb a _ _ _ _ _ _
    exact Or.inl List.nil_prefix
  | cons x xs ih =>
    intro lb a hxa hba hca hcb hga hgb
    cases lb with
    | nil => exact Or.inr List.nil_prefix
    | cons y ys =>
      injection hxa with hxa
      injection hba with hba
      have hyx : y = x := hba.trans hxa.symm
      subst hyx
      cases xs with
      | nil => exact Or.inl ⟨ys, rfl⟩
      | cons u us =>
        cases ys with
        | nil => exact Or.inr ⟨u :: us, rfl⟩
        | cons v vs =>
          rw [List.chain'_cons] at hca hcb
          have hu := hca.1
          have hv := hcb.1
          have hgy : good y := hga y (List.mem_cons_self _ _)
          have hgu : good u := hga u (List.mem_cons_of_mem _ (List.mem_cons_self _ _))
          have hgv : good v := hgb v (List.mem_cons_of_mem _ (List.mem_cons_self _ _))
          have huv : u = v := td.down_uniq y u v hgy hgu hgv hu.1 hv.1 hu.2 hv.2
          subst huv
          rcases ih (u :: vs) u rfl rfl hca.2 hcb.2
              (fun w hw => hga w (List.mem_cons_of_mem _ hw))
              (fun w hw => hgb w (List.mem_cons_of_mem _ hw)) with h | h
          · obtain ⟨t, ht⟩ := h
            exact Or.inl ⟨t, by rw [List.cons_append, ht]⟩
          · obtain ⟨t, ht⟩ := h
            exact Or.inr ⟨t, by rw [List.cons_append, ht]⟩

theorem valley {good : Point → Prop} {D : Point → Nat} {s : Point}
    (td : TreeDepth good D s) :
    ∀ (l : List Point) (a b : Point), SimplePathIn good a b l →
      ∃ l1 v l2, l = l1 ++ v :: l2 ∧ (l1 ++ [v]).Chain' (DStep D) ∧
        (v :: l2).Chain' (UStep D) := by
  intro l
  induction l with
  | nil =>
    intro a b h
    exact absurd h.1 (by simp)
  | cons x xs ih =>
    intro a b h
    obtain ⟨h1, h2, h3, h4, h5⟩ := h
    injection h1 with h1
    subst h1
    cases xs with
    | nil =>
      exact ⟨[], x, [], rfl, List.chain'_singleton _, List.chain'_singleton _⟩
    | cons u rest =>
      rw [List.chain'_cons] at h3
      have hgx : good x := h4 x (List.mem_cons_self _ _)
      have hgu : good u := h4 u (List.mem_cons_of_mem _ (List.mem_cons_self _ _))
      have hadj := h3.1
      have hpm := td.step_pm x u hgx hgu hadj
      have hspi2 : SimplePathIn good u b (u :: rest) :=
        spi_tail ⟨rfl, h2, by rw [List.chain'_cons]; exact h3, h4, h5⟩
      obtain ⟨l1, v, l2, heq, hdesc, hasc⟩ := ih u b hspi2
      rcases hpm with hup | hdown
      · cases l1 with
        | nil =>
          rw [List.nil_append] at heq
          injection heq with hv hrest
          subst hv
          subst hrest
          refine ⟨[], x, u :: rest, rfl, List.chain'_singleton _, ?_⟩
          rw [List.chain'_cons]
          exact ⟨⟨hadj, hup⟩, hasc⟩
        | cons w l1' =>
          exfalso
          rw [List.cons_append] at heq
          injection heq with hw heq2
          subst hw
          cases hl1v : l1' ++ [v] with
          | nil => exact absurd hl1v (by simp)
          | cons z zs =>
            rw [List.cons_append, hl1v, List.chain'_cons] at hdesc
            have hz := hdesc.1
            have hzmem : z ∈ u :: rest := by
              have : z ∈ l1' ++ [v] := by rw [hl1v]; exact List.mem_cons_self _ _
              rcases List.mem_append.mp this with hz2 | hz2
              · rw [heq2]
                exact List.mem_cons_of_mem _ (List.mem_append_left _ hz2)
              · rw [List.mem_singleton.mp hz2, heq2]
                exact List.mem_cons_of_mem _ (List.mem_append_right _ (List.mem_cons_self _ _))
            have hgz : good z := h4 z (List.mem_cons_of_mem _ hzmem)
            have hxz : x = z := td.down_uniq u x z hgu hgx hgz
              (nbrs_symm hadj) hz.1 (by omega) hz.2
            rw [List.nodup_cons] at h5
            apply h5.1
            rcases List.mem_cons.mp hzmem with hz3 | hz3
            · rw [hxz, hz3]
              exact List.mem_cons_self _ _
            · rw [hxz]
              exact List.mem_cons_of_mem _ hz3
      · refine ⟨x :: l1, v, l2, by rw [List.cons_append, heq], ?_, hasc⟩
        cases l1 with
        | nil =>
          rw [List.nil_append] at heq
          injection heq with hv _
          subst hv
          rw [List.cons_append, List.nil_append, List.chain'_cons]
          exact ⟨⟨hadj, hdown.symm⟩, List.chain'_singleton _⟩
        | cons w l1' =>
          rw [List.cons_append] at heq
          injection heq with hw _
          subst hw
          rw [List.cons_append, List.cons_append, List.chain'_cons]
          rw [List.cons_append] at hdesc
          exact ⟨⟨hadj, hdown.symm⟩, hdesc⟩

theorem asc_reverse_desc {D : Point → Nat} {l : List Point}
    (h : l.Chain' (UStep D)) : l.reverse.Chain' (DStep D) := by
  rw [List.chain'_reverse]
  exact List.Chain'.imp (fun x y hu => ⟨nbrs_symm hu.1, hu.2.symm⟩) h

theorem head_append_cons (l1 : List Point) (v : Point) (l2 : List Point) :
    (l1 ++ v :: l2).head? = (l1 ++ [v]).head? := by
  cases l1 <;> simp

theorem valley_clash {good : Point → Prop} {D : Point → Nat} {s a b : Point}
    (td : TreeDepth good D s)
    {l1 m1 l2 m2 : List Point} {v w : Point}
    (hLa : (l1 ++ [v]).head? = some a) (hMa : (m1 ++ [w]).head? = some a)
    (hcl : (l1 ++ [v]).Chain' (DStep D)) (hcm : (m1 ++ [w]).Chain' (DStep D))
    (hgl : ∀ x ∈ l1 ++ [v], good x) (hgm : ∀ x ∈ m1 ++ [w], good x)
    (hRa : ((v :: l2).reverse).head? = some b)
    (hRb : ((w :: m2).reverse).head? = some b)
    (hcra : ((v :: l2).reverse).Chain' (DStep D))
    (hcrb : ((w :: m2).reverse).Chain' (DStep D))
    (hgra : ∀ x ∈ (v :: l2).reverse, good x)
    (hgrb : ∀ x ∈ (w :: m2).reverse, good x)
    (hnod : (m1 ++ w :: m2).Nodup)
    (hlt : l1.length < m1.length) : False := by
  have e1 := desc_last_depth (l1 ++ [v]) a v hcl hLa (by simp)
  have e2 := desc_last_depth (m1 ++ [w]) a w hcm hMa (by simp)
  have e3 := desc_last_depth ((v :: l2).reverse) b v hcra hRa (by simp)
  have e4 := desc_last_depth ((w :: m2).reverse) b w hcrb hRb (by simp)
  simp only [List.length_append, List.length_singleton, List.length_reverse,
    List.length_cons] at e1 e2 e3 e4
  have hvw : v ≠ w := by
    intro hveq
    rw [hveq] at e1
    omega
  have hpre1 : l1 ++ [v] <+: m1 ++ [w] := by
    rcases desc_prefix td (l1 ++ [v]) (m1 ++ [w]) a hLa hMa hcl hcm hgl hgm with h | h
    · exact h
    · have := h.length_le
      simp only [List.length_append, List.length_singleton] at this
      omega
  have hvm1 : v ∈ m1 := by
    have hv2 : v ∈ m1 ++ [w] := hpre1.subset (by simp)
    rcases List.mem_append.mp hv2 with h | h
    · exact h
    · exact absurd (List.mem_singleton.mp h) hvw
  have hpre2 : (v :: l2).reverse <+: (w :: m2).reverse := by
    rcases desc_prefix td ((v :: l2).reverse) ((w :: m2).reverse) b hRa hRb
        hcra hcrb hgra hgrb with h | h
    · exact h
    · have := h.length_le
      simp only [List.length_reverse, List.length_cons] at this
      omega
  have hvm2 : v ∈ m2 := by
    have hv2 : v ∈ (w :: m2).reverse := hpre2.subset (by simp)
    rw [List.mem_reverse] at hv2
    rcases List.mem_cons.mp hv2 with h | h
    · exact absurd h hvw
    · exact h
  rw [List.nodup_append] at hnod
  exact hnod.2.2 hvm1 (List.mem_cons_of_mem _ hvm2)

theorem spi_unique {good : Point → Prop} {D : Point → Nat} {s : Point}
    (td : TreeDepth good D s) :
    ∀ (a b : Point) (la lb : List Point),
      SimplePathIn good a b la → SimplePathIn good a b lb → la = lb := by
  intro a b la lb hla hlb
  obtain ⟨l1, v, l2, he1, hd1, ha1⟩ := valley td la a b hla
  obtain ⟨m1, w, m2, he2, hd2, ha2⟩ := valley td lb a b hlb
  obtain ⟨hh1, hh2, hh3, hh4, hh5⟩ := hla
  obtain ⟨hg1, hg2, hg3, hg4, hg5⟩ := hlb
  rw [he1] at hh1 hh2 hh4 hh5
  rw [he2] at hg1 hg2 hg4 hg5
  have hLa : (l1 ++ [v]).head? = some a := by rw [← head_append_cons]; exact hh1
  have hMa : (m1 ++ [w]).head? = some a := by rw [← head_append_cons]; exact hg1
  have hRa : ((v :: l2).reverse).head? = some b := by
    rw [List.head?_reverse, ← List.getLast?_append_of_ne_nil l1 (List.cons_ne_nil v l2)]
    exact hh2
  have hRb : ((w :: m2).reverse).head? = some b := by
    rw [List.head?_reverse, ← List.getLast?_append_of_ne_nil m1 (List.cons_ne_nil w m2)]
    exact hg2
  have hcra := asc_reverse_desc ha1
  have hcrb := asc_reverse_desc ha2
  have hgl : ∀ x ∈ l1 ++ [v], good x := by
    intro x hx
    apply hh4
    rcases List.mem_append.mp hx with h | h
    · exact List.mem_append_left _ h
    · rw [List.mem_singleton.mp h]
      exact List.mem_append_right _ (List.mem_cons_self _ _)
  have hgm : ∀ x ∈ m1 ++ [w], good x := by
    intro x hx
    apply hg4
    rcases List.mem_append.mp hx with h | h
    · exact List.mem_append_left _ h
    · rw [List.mem_singleton.mp h]
      exact List.mem_append_right _ (List.mem_cons_self _ _)
  have hgra : ∀ x ∈ (v :: l2).reverse, good x := by
    intro x hx
    rw [List.mem_reverse] at hx
    exact hh4 x (List.mem_append_right _ hx)
  have hgrb : ∀ x ∈ (w :: m2).reverse, good x := by
    intro x hx
    rw [List.mem_reverse] at hx
    exact hg4 x (List.mem_append_right _ hx)
  rcases Nat.lt_trichotomy l1.length m1.length with hlt | heqj | hlt
  · exact absurd (valley_clash td hLa hMa hd1 hd2 hgl hgm hRa hRb hcra hcrb
      hgra hgrb hg5 hlt) (fun hf => hf)
  · have hpr : l1 ++ [v] <+: m1 ++ [w] ∨ m1 ++ [w] <+: l1 ++ [v] :=
      desc_prefix td (l1 ++ [v]) (m1 ++ [w]) a hLa hMa hd1 hd2 hgl hgm
    have harm : l1 ++ [v] = m1 ++ [w] := by
      rcases hpr with h | h
      · exact h.eq_of_length (by simp [heqj])
      · exact (h.eq_of_length (by simp [heqj])).symm
    obtain ⟨hl1m1, hvw⟩ := List.append_inj' harm rfl
    have hvw2 : v = w := by
      injection hvw
    have e3 := desc_last_depth ((v :: l2).reverse) b v hcra hRa (by simp)
    have e4 := desc_last_depth ((w :: m2).reverse) b w hcrb hRb (by simp)
    simp only [List.length_reverse, List.length_cons] at e3 e4
    rw [hvw2] at e3
    have hk : l2.length = m2.length := by omega
    have hpr2 : (v :: l2).reverse <+: (w :: m2).reverse ∨
        (w :: m2).reverse <+: (v :: l2).reverse :=
      desc_prefix td _ _ b hRa hRb hcra hcrb hgra hgrb
    have harm2 : (v :: l2).reverse = (w :: m2).reverse := by
      rcases hpr2 with h | h
      · exact h.eq_of_length (by simp [hk])
      · exact (h.eq_of_length (by simp [hk])).symm
    have harm3 : v :: l2 = w :: m2 := List.reverse_injective harm2
    injection harm3 with _ hl2m2
    rw [he1, he2, hl1m1, hvw2, hl2m2]
  · exact absurd (valley_clash td hMa hLa hd2 hd1 hgm hgl hRb hRa hcrb hcra
      hgrb hgra hh5 hlt) (fun hf => hf)

theorem spi_connect {good : Point → Prop} {D : Point → Nat} {s : Point}
    (td : TreeDepth good D s) (b : Point) :
    ∀ (ca : List Point) (a : Point),
      SimplePathIn good a s ca → ca.Chain' (DStep D) →
      ∀ (cb : List Point), SimplePathIn good b s cb → cb.Chain' (DStep D) →
      ∃ l, SimplePathIn good a b l ∧ ∀ x ∈ l, x ∈ ca ∨ x ∈ cb := by
  intro ca
  induction ca with
  | nil =>
    intro a h _ _ _ _
    exact absurd h.1 (by simp)
  | cons x xs ih =>
    intro a hspa hca cb hspb hcb
    obtain ⟨ha1, ha2, ha3, ha4, ha5⟩ := hspa
    injection ha1 with ha1
    subst ha1
    by_cases hx : x ∈ cb
    · obtain ⟨pre, suf, hcbq⟩ := List.append_of_mem hx
      have hpfx : pre ++ [x] <+: cb := ⟨suf, by rw [hcbq, List.append_assoc]; rfl⟩
      obtain ⟨hb1, hb2, hb3, hb4, hb5⟩ := hspb
      refine ⟨(pre ++ [x]).reverse, ⟨?_, ?_, ?_, ?_, ?_⟩, ?_⟩
      · rw [List.head?_reverse]
        simp
      · rw [List.getLast?_reverse]
        rw [hcbq, head_append_cons] at hb1
        exact hb1
      · rw [List.chain'_reverse]
        refine List.Chain'.imp (fun u2 v2 h2 => nbrs_symm h2) ?_
        exact List.Chain'.prefix hb3 hpfx
      · intro x2 hx2
        rw [List.mem_reverse] at hx2
        exact hb4 x2 (hpfx.subset hx2)
      · exact List.nodup_reverse.mpr (hpfx.sublist.nodup hb5)
      · intro x2 hx2
        rw [List.mem_reverse] at hx2
        exact Or.inr (hpfx.subset hx2)
    · cases xs with
      | nil =>
        exfalso
        injection ha2 with ha2
        subst ha2
        obtain ⟨hb1, hb2, _, _, _⟩ := hspb
        exact hx (List.mem_of_mem_getLast? hb2)
      | cons u us =>
        have hspa2 : SimplePathIn good u s (u :: us) :=
          spi_tail ⟨rfl, ha2, ha3, ha4, ha5⟩
        obtain ⟨l', hl', hmem'⟩ := ih u hspa2 hca.tail cb hspb hcb
        obtain ⟨hc1, hc2, hc3, hc4, hc5⟩ := hl'
        refine ⟨x :: l', ⟨rfl, ?_, ?_, ?_, ?_⟩, ?_⟩
        · cases l' with
          | nil => exact Option.noConfusion hc1
          | cons z zs =>
            rw [List.getLast?_cons_cons]
            exact hc2
        · cases l' with
          | nil => exact Option.noConfusion hc1
          | cons z zs =>
            injection hc1 with hc1
            subst hc1
            rw [List.chain'_cons]
            rw [List.chain'_cons] at hca
            exact ⟨hca.1.1, hc3⟩
        · intro x2 hx2
          rcases List.mem_cons.mp hx2 with rfl | h2
          · exact ha4 x2 (List.mem_cons_self _ _)
          · exact hc4 x2 h2
        · rw [List.nodup_cons]
          refine ⟨fun hmem => ?_, hc5⟩
          rcases hmem' x hmem with h2 | h2
          · rw [List.nodup_cons] at ha5
            exact ha5.1 h2
          · exact hx h2
        · intro x2 hx2
          rcases List.mem_cons.mp hx2 with rfl | h2
          · exact Or.inl (List.mem_cons_self _ _)
          · rcases hmem' x2 h2 with h3 | h3
            · exact Or.inl (List.mem_cons_of_mem _ h3)
            · exact Or.inr h3

theorem spi_exists {good : Point → Prop} {D : Point → Nat} {s : Point}
    (td : TreeDepth good D s) (a b : Point) (ha : good a) (hb : good b) :
    ∃ l, SimplePathIn good a b l := by
  obtain ⟨ca, hca, hdca⟩ := desc_exists td (D a) a ha rfl
  obtain ⟨cb, hcb, hdcb⟩ := desc_exists td (D b) b hb rfl
  obtain ⟨l, hl, _⟩ := spi_connect td b ca a hca hdca cb hcb hdcb
  exact ⟨l, hl⟩

theorem twoNbrs_cases {p q : Point} :
    q ∈ twoNbrs p ↔ (q.X = p.X ∧ (q.Y = p.Y - 2 ∨ q.Y = p.Y + 2)) ∨
      (q.Y = p.Y ∧ (q.X = p.X - 2 ∨ q.X = p.X + 2)) := by
  cases p with
  | mk px py =>
    cases q with
    | mk qx qy =>
      simp only [twoNbrs, twoStepDirs, Point.add, List.map_cons, List.map_nil,
        List.mem_cons, List.not_mem_nil, or_false, Point.mk.injEq]
      omega

theorem twoNbrs_symm {p q : Point} (h : q ∈ twoNbrs p) : p ∈ twoNbrs q := by
  rw [twoNbrs_cases] at h ⊢
  omega

theorem mid_spec {p q : Point} (h : q ∈ twoNbrs p) :
    2 * (Mid p q).X = p.X + q.X ∧ 2 * (Mid p q).Y = p.Y + q.Y := by
  rw [twoNbrs_cases] at h
  have hx : q.X - p.X = 0 ∨ q.X - p.X = -2 ∨ q.X - p.X = 2 := by omega
  have hy : q.Y - p.Y = 0 ∨ q.Y - p.Y = -2 ∨ q.Y - p.Y = 2 := by omega
  have hdx : goDiv (q.X - p.X) 2 * 2 = q.X - p.X := by
    rcases hx with h1 | h1 | h1 <;> rw [h1] <;> decide
  have hdy : goDiv (q.Y - p.Y) 2 * 2 = q.Y - p.Y := by
    rcases hy with h1 | h1 | h1 <;> rw [h1] <;> decide
  unfold Mid
  dsimp only
  constructor <;> omega

theorem point_eq_of_coords {p q : Point} (hx : p.X = q.X) (hy : p.Y = q.Y) :
    p = q := by
  cases p
  cases q
  simp_all

theorem mid_symm {p q : Point} (h : q ∈ twoNbrs p) : Mid q p = Mid p q := by
  have h1 := mid_spec h
  have h2 := mid_spec (twoNbrs_symm h)
  exact point_eq_of_coords (by omega) (by omega)

theorem mid_not_odd {m : Maze} {q pq : Point} (hq : Odd q.X ∧ Odd q.Y)
    (hpar : pq ∈ twoNbrs q) : ¬ OddCell m (Mid q pq) := by
  intro hodd
  have hms := mid_spec hpar
  rw [twoNbrs_cases] at hpar
  have e1 := Int.odd_iff.mp hq.1
  have e2 := Int.odd_iff.mp hq.2
  have e3 := Int.odd_iff.mp hodd.1
  have e4 := Int.odd_iff.mp hodd.2.1
  omega

theorem mid_endpoint {q pq p : Point} (hpar : pq ∈ twoNbrs q)
    (hoq : Odd q.X ∧ Odd q.Y) (hop : Odd p.X ∧ Odd p.Y)
    (hadj : p ∈ (Mid q pq).nbrs) : p = q ∨ p = pq := by
  have hms := mid_spec hpar
  rw [twoNbrs_cases] at hpar
  rw [mem_nbrs_iff] at hadj
  have e1 := Int.odd_iff.mp hoq.1
  have e2 := Int.odd_iff.mp hoq.2
  have e3 := Int.odd_iff.mp hop.1
  have e4 := Int.odd_iff.mp hop.2
  have hcoords : (p.X = q.X ∧ p.Y = q.Y) ∨ (p.X = pq.X ∧ p.Y = pq.Y) := by omega
  rcases hcoords with ⟨hx, hy⟩ | ⟨hx, hy⟩
  · exact Or.inl (point_eq_of_coords hx hy)
  · exact Or.inr (point_eq_of_coords hx hy)

theorem mid_nbrs {q pq : Point} (hpar : pq ∈ twoNbrs q) :
    Mid q pq ∈ q.nbrs ∧ q ∈ (Mid q pq).nbrs ∧ pq ∈ (Mid q pq).nbrs := by
  have hms := mid_spec hpar
  rw [twoNbrs_cases] at hpar
  refine ⟨?_, ?_, ?_⟩ <;> (rw [mem_nbrs_iff]; omega)

theorem mid_interior {m : Maze} {q pq : Point} (hpar : pq ∈ twoNbrs q)
    (hq : OddCell m q) (hp : OddCell m pq) :
    0 < (Mid q pq).X ∧ (Mid q pq).X < m.width - 1 ∧
    0 < (Mid q pq).Y ∧ (Mid q pq).Y < m.height - 1 := by
  have hms := mid_spec hpar
  obtain ⟨_, _, b1, b2, b3, b4⟩ := hq
  obtain ⟨_, _, c1, c2, c3, c4⟩ := hp
  omega

theorem mid_rep_unique {q1 q2 p1 p2 : Point} {d : Point → Nat}
    (h1 : p1 ∈ twoNbrs q1) (h2 : p2 ∈ twoNbrs q2)
    (ho1 : Odd q1.X ∧ Odd q1.Y) (ho2 : Odd q2.X ∧ Odd q2.Y)
    (hop1 : Odd p1.X ∧ Odd p1.Y) (hop2 : Odd p2.X ∧ Odd p2.Y)
    (hd1 : d q1 = d p1 + 1) (hd2 : d q2 = d p2 + 1)
    (heq : Mid q1 p1 = Mid q2 p2) : q1 = q2 := by
  have hq2adj : q2 ∈ (Mid q1 p1).nbrs := by
    rw [heq]
    exact (mid_nbrs h2).2.1
  have hp2adj : p2 ∈ (Mid q1 p1).nbrs := by
    rw [heq]
    exact (mid_nbrs h2).2.2
  rcases mid_endpoint h1 ho1 ho2 hq2adj with hq2 | hq2
  · exact hq2.symm
  · rcases mid_endpoint h1 ho1 hop2 hp2adj with hp2 | hp2
    · rw [hq2, hp2] at hd2
      omega
    · rw [hq2, ← hp2] at h2
      rw [twoNbrs_cases] at h2
      omega

theorem insideDen_denless {mz : Maze} (h : mz.denWidth ≤ 0 ∨ mz.denHeight ≤ 0)
    (p : Point) : mz.IsInsideDen p = false := by
  unfold Maze.IsInsideDen
  rw [if_pos h]

theorem adjDen_denless {mz : Maze} (h : mz.denWidth ≤ 0 ∨ mz.denHeight ≤ 0)
    (p : Point) : mz.IsAdjacentToDen p = false := by
  unfold Maze.IsAdjacentToDen
  rw [if_pos h]

theorem fvn_fold_mem (mz : Maze) (p : Point) :
    ∀ (dirs : List Point) (acc : List Point) (q : Point),
      q ∈ dirs.foldl
        (fun acc dir =>
          let next := p.add dir
          if next.X > 0 ∧ next.X < mz.width - 1 ∧ next.Y > 0 ∧ next.Y < mz.height - 1 ∧
              mz.grid next = Cell.Wall then
            let wallBetween : Point := ⟨p.X + goDiv dir.X 2, p.Y + goDiv dir.Y 2⟩
            if mz.IsInsideDen wallBetween ∨ mz.IsAdjacentToDen next then acc
            else acc ++ [next]
          else acc) acc ↔
      q ∈ acc ∨ ∃ dir ∈ dirs,
        ((p.add dir).X > 0 ∧ (p.add dir).X < mz.width - 1 ∧ (p.add dir).Y > 0 ∧
          (p.add dir).Y < mz.height - 1 ∧ mz.grid (p.add dir) = Cell.Wall) ∧
        ¬(mz.IsInsideDen ⟨p.X + goDiv dir.X 2, p.Y + goDiv dir.Y 2⟩ = true ∨
          mz.IsAdjacentToDen (p.add dir) = true) ∧
        q = p.add dir := by
  intro dirs
  induction dirs with
  | nil =>
    intro acc q
    simp
  | cons d ds ih =>
    intro acc q
    rw [List.foldl_cons, ih]
    simp only [List.mem_cons, exists_eq_or_imp]
    by_cases hc1 : (p.add d).X > 0 ∧ (p.add d).X < mz.width - 1 ∧ (p.add d).Y > 0 ∧
        (p.add d).Y < mz.height - 1 ∧ mz.grid (p.add d) = Cell.Wall
    · by_cases hc2 : mz.IsInsideDen ⟨p.X + goDiv d.X 2, p.Y + goDiv d.Y 2⟩ = true ∨
          mz.IsAdjacentToDen (p.add d) = true
      · rw [if_pos hc1, if_pos hc2]
        constructor
        · intro h
          rcases h with h | h
          · exact Or.inl h
          · exact Or.inr (Or.inr h)
        · intro h
          rcases h with h | ⟨_, hn, _⟩ | h
          · exact Or.inl h
          · exact absurd hc2 hn
          · exact Or.inr h
      · rw [if_pos hc1, if_neg hc2]
        constructor
        · intro h
          rcases h with h | h
          · rcases List.mem_append.mp h with h2 | h2
            · exact Or.inl h2
            · exact Or.inr (Or.inl ⟨hc1, hc2, List.mem_singleton.mp h2⟩)
          · exact Or.inr (Or.inr h)
        · intro h
          rcases h with h | ⟨_, _, hq⟩ | h
          · exact Or.inl (List.mem_append_left _ h)
          · exact Or.inl (List.mem_append_right _ (List.mem_singleton.mpr hq))
          · exact Or.inr h
    · rw [if_neg hc1]
      constructor
      · intro h
        rcases h with h | h
        · exact Or.inl h
        · exact Or.inr (Or.inr h)
      · intro h
        rcases h with h | ⟨hb, _, _⟩ | h
        · exact Or.inl h
        · exact absurd hb hc1
        · exact Or.inr h

theorem mem_fvn {mz : Maze} (hden : mz.denWidth ≤ 0 ∨ mz.denHeight ≤ 0)
    (p q : Point) :
    q ∈ findValidNeighbors mz p ↔ ∃ dir ∈ twoStepDirs,
      ((p.add dir).X > 0 ∧ (p.add dir).X < mz.width - 1 ∧ (p.add dir).Y > 0 ∧
        (p.add dir).Y < mz.height - 1 ∧ mz.grid (p.add dir) = Cell.Wall) ∧
      q = p.add dir := by
  unfold findValidNeighbors
  rw [fvn_fold_mem mz p [⟨0, -2⟩, ⟨0, 2⟩, ⟨-2, 0⟩, ⟨2, 0⟩] [] q]
  simp only [List.not_mem_nil, false_or]
  constructor
  · intro h
    obtain ⟨dir, hd, hb, _, hq⟩ := h
    exact ⟨dir, hd, hb, hq⟩
  · intro h
    obtain ⟨dir, hd, hb, hq⟩ := h
    refine ⟨dir, hd, hb, ?_, hq⟩
    rw [insideDen_denless hden, adjDen_denless hden]
    simp

theorem cbn_mem {neighbors stack : List Point} {bias : ℚ} {r : Rng}
    (h : neighbors.length > 0) :
    (chooseBiasedNeighbor neighbors stack bias r).1 ∈ neighbors := by
  have hlen : (0 : Int) < (neighbors.length : Int) := by
    exact_mod_cast h
  unfold chooseBiasedNeighbor
  dsimp only
  split
  · rename_i n hso
    rcases hf : r.float64 with ⟨f, r2⟩
    dsimp only
    split
    · exact List.mem_of_find?_eq_some hso
    · rcases hi : r2.intn (neighbors.length : Int) with ⟨i, r3⟩
      dsimp only
      apply getD_mem
      have hb := intn_bounds (r := r2) hlen
      rw [hi] at hb
      dsimp only at hb
      omega
  · rcases hi : r.intn (neighbors.length : Int) with ⟨i, r3⟩
    dsimp only
    apply getD_mem
    have hb := intn_bounds (r := r) hlen
    rw [hi] at hb
    dsimp only at hb
    omega

theorem odd_in_grid {m : Maze} {p : Point} (h : OddCell m p) : m.inGrid p = true := by
  obtain ⟨_, _, h1, h2, h3, h4⟩ := h
  unfold Maze.inGrid
  exact decide_eq_true (by omega)

theorem uncarved_erase {m : Maze} {g : Point → Cell} {next mid : Point}
    (hmid : ¬ OddCell m mid) :
    uncarvedOdds m (updF (updF g mid Cell.Path) next Cell.Path) =
      (uncarvedOdds m g).erase next := by
  ext p
  simp only [uncarvedOdds, Finset.mem_filter, Finset.mem_erase]
  constructor
  · rintro ⟨hg, ho, hw⟩
    by_cases hpn : p = next
    · subst hpn
      rw [updF_self] at hw
      exact absurd hw (fun hc => Cell.noConfusion hc)
    · rw [updF_ne _ _ _ hpn] at hw
      by_cases hpm : p = mid
      · subst hpm
        rw [updF_self] at hw
        exact absurd hw (fun hc => Cell.noConfusion hc)
      · rw [updF_ne _ _ _ hpm] at hw
        exact ⟨hpn, hg, ho, hw⟩
  · rintro ⟨hpn, hg, ho, hw⟩
    refine ⟨hg, ho, ?_⟩
    rw [updF_ne _ _ _ hpn]
    by_cases hpm : p = mid
    · subst hpm
      exact absurd ho hmid
    · rw [updF_ne _ _ _ hpm]
      exact hw

theorem runDFSLoop_inv {m : Maze} {bias : ℚ} {s : Point}
    (hden : m.denWidth ≤ 0 ∨ m.denHeight ≤ 0) :
    ∀ (fuel : Nat) (stack : List Point) (g : Point → Cell) (r : Rng)
      (par : Point → Point) (d : Point → Nat),
      DfsTreeInv m s g par d stack →
      2 * (uncarvedOdds m g).card + stack.length < fuel →
      ∃ g2 r2 par2 d2,
        runDFSLoop bias fuel stack { m with grid := g } r =
          ({ m with grid := g2 }, r2) ∧
        DfsTreeInv m s g2 par2 d2 [] ∧
        (∀ p, g p ≠ Cell.Wall → g2 p ≠ Cell.Wall) := by
  intro fuel
  induction fuel with
  | zero =>
    intro stack g r par d _ hm
    exact absurd hm (by omega)
  | succ f ih =>
    intro stack g r par d inv hm
    cases stack with
    | nil =>
      rw [runDFSLoop]
      exact ⟨g, r, par, d, rfl, inv, fun p h => h⟩
    | cons current rest =>
      rw [runDFSLoop]
      dsimp only
      have hcur := inv.stack_ok current (List.mem_cons_self _ _)
      by_cases hn : (findValidNeighbors { m with grid := g } current).length > 0
      · rw [if_pos hn]
        rcases hcb : chooseBiasedNeighbor
            (findValidNeighbors { m with grid := g } current)
            (current :: rest) bias r with ⟨next, r2⟩
        dsimp only
        have hnextmem : next ∈ findValidNeighbors { m with grid := g } current := by
          have hmem := @cbn_mem (findValidNeighbors { m with grid := g } current)
            (current :: rest) bias r hn
          rw [hcb] at hmem
          exact hmem
        obtain ⟨dir, hdir, hbounds, hqeq⟩ :=
          (@mem_fvn { m with grid := g } hden current next).mp hnextmem
        rw [← hqeq] at hbounds
        have hnext2 : next ∈ twoNbrs current := by
          rw [hqeq]
          exact List.mem_map_of_mem _ hdir
        have hwall_next : g next = Cell.Wall := hbounds.2.2.2.2
        have hodd_next : OddCell m next := by
          have hc1 := Int.odd_iff.mp hcur.2.1
          have hc2 := Int.odd_iff.mp hcur.2.2.1
          have ht := twoNbrs_cases.mp hnext2
          refine ⟨?_, ?_, hbounds.1, hbounds.2.1, hbounds.2.2.1, hbounds.2.2.2.1⟩ <;>
            (rw [Int.odd_iff]; omega)
        have hneqs : next ≠ s := fun he => inv.s_carved (he ▸ hwall_next)
        have hfresh : ∀ p, g p ≠ Cell.Wall → p ≠ next :=
          fun p hp he => hp (he ▸ hwall_next)
        have hmid_notodd : ¬ OddCell m (Mid current next) :=
          mid_not_odd ⟨hcur.2.1, hcur.2.2.1⟩ hnext2
        have hmid_ne_next : Mid current next ≠ next :=
          fun he => hmid_notodd (by rw [he]; exact hodd_next)
        have hmid_ne_s : Mid current next ≠ s :=
          fun he => hmid_notodd (by rw [he]; exact inv.s_odd)
        have hg'next : updF (updF g (Mid current next) Cell.Path) next Cell.Path next =
            Cell.Path := updF_self _ _ _
        have hg'mid : updF (updF g (Mid current next) Cell.Path) next Cell.Path
            (Mid current next) = Cell.Path := by
          rw [updF_ne _ _ _ hmid_ne_next]
          exact updF_self _ _ _
        have hg'old : ∀ p, p ≠ next → p ≠ Mid current next →
            updF (updF g (Mid current next) Cell.Path) next Cell.Path p = g p := by
          intro p h1 h2
          rw [updF_ne _ _ _ h1, updF_ne _ _ _ h2]
        have hcmono : ∀ p, g p ≠ Cell.Wall →
            updF (updF g (Mid current next) Cell.Path) next Cell.Path p ≠ Cell.Wall := by
          intro p hp
          by_cases h1 : p = next
          · subst h1
            rw [hg'next]
            exact fun hc => Cell.noConfusion hc
          · by_cases h2 : p = Mid current next
            · subst h2
              rw [hg'mid]
              exact fun hc => Cell.noConfusion hc
            · rw [hg'old p h1 h2]
              exact hp
        have hcur_ne_next : current ≠ next := hfresh current hcur.1
        have hmidsymm : Mid next current = Mid current next := mid_symm hnext2
        have inv2 : DfsTreeInv m s
            (updF (updF g (Mid current next) Cell.Path) next Cell.Path)
            (updF par next current) (updF d next (d current + 1))
            (next :: current :: rest) := by
          refine ⟨hcmono s inv.s_carved, inv.s_odd, ?_, ?_, ?_, ?_, ?_⟩
          · rw [updF_ne _ _ _ (Ne.symm hneqs)]
            exact inv.d_s
          · intro p hp hpo hps
            by_cases h1 : p = next
            · subst h1
              rw [updF_self, updF_self]
              refine ⟨hcur.2, hcmono current hcur.1, twoNbrs_symm hnext2, ?_, ?_⟩
              · rw [hmidsymm]
                rw [hg'mid]
                exact fun hc => Cell.noConfusion hc
              · rw [updF_ne _ _ _ hcur_ne_next]
            · have h2 : p ≠ Mid current next := fun he => hmid_notodd (he ▸ hpo)
              rw [hg'old p h1 h2] at hp
              obtain ⟨k1, k2, k3, k4, k5⟩ := inv.node_par p hp hpo hps
              have hpar_ne : par p ≠ next := hfresh (par p) k2
              rw [updF_ne par next current h1, updF_ne d next (d current + 1) h1,
                updF_ne d next (d current + 1) hpar_ne]
              exact ⟨k1, hcmono _ k2, k3, hcmono _ k4, k5⟩
          · intro p hp hpo
            by_cases h2 : p = Mid current next
            · subst h2
              refine ⟨next, ?_, hodd_next, hneqs, ?_⟩
              · rw [hg'next]
                exact fun hc => Cell.noConfusion hc
              · rw [updF_self, hmidsymm]
            · by_cases h1 : p = next
              · subst h1
                exact absurd hodd_next hpo
              · rw [hg'old p h1 h2] at hp
                obtain ⟨q, k1, k2, k3, k4⟩ := inv.carved_shape p hp hpo
                have hq_ne : q ≠ next := hfresh q k1
                refine ⟨q, hcmono q k1, k2, k3, ?_⟩
                rw [updF_ne _ _ _ hq_ne]
                exact k4
          · intro p hp
            rcases List.mem_cons.mp hp with rfl | hp2
            · refine ⟨?_, hodd_next⟩
              rw [hg'next]
              exact fun hc => Cell.noConfusion hc
            · have := inv.stack_ok p hp2
              exact ⟨hcmono p this.1, this.2⟩
          · intro p hp hpo hpstack q hq b1 b2 b3 b4
            have h1 : p ≠ next := fun he => hpstack (he ▸ List.mem_cons_self _ _)
            have h2 : p ≠ Mid current next := fun he => hmid_notodd (he ▸ hpo)
            rw [hg'old p h1 h2] at hp
            have hpold : p ∉ current :: rest := fun hmem =>
              hpstack (List.mem_cons_of_mem _ hmem)
            exact hcmono q (inv.sat p hp hpo hpold q hq b1 b2 b3 b4)
        have hmem_unc : next ∈ uncarvedOdds m g := by
          simp only [uncarvedOdds, Finset.mem_filter]
          exact ⟨mem_gridFinset.mpr (odd_in_grid hodd_next), hodd_next, hwall_next⟩
        have hcard : (uncarvedOdds m
            (updF (updF g (Mid current next) Cell.Path) next Cell.Path)).card =
            (uncarvedOdds m g).card - 1 := by
          rw [uncarved_erase hmid_notodd]
          exact Finset.card_erase_of_mem hmem_unc
        have hcardpos : 0 < (uncarvedOdds m g).card := Finset.card_pos.mpr ⟨next, hmem_unc⟩
        obtain ⟨g2, r3, par2, d2, hrun, hinv2, hmono2⟩ :=
          ih (next :: current :: rest)
            (updF (updF g (Mid current next) Cell.Path) next Cell.Path) r2
            (updF par next current) (updF d next (d current + 1)) inv2
            (by
              rw [hcard]
              simp only [List.length_cons] at hm ⊢
              omega)
        refine ⟨g2, r3, par2, d2, ?_, hinv2, ?_⟩
        · exact hrun
        · exact fun p hp => hmono2 p (hcmono p hp)
      · rw [if_neg hn]
        have hempty : findValidNeighbors { m with grid := g } current = [] :=
          List.eq_nil_of_length_eq_zero (by omega)
        have inv2 : DfsTreeInv m s g par d rest := by
          refine ⟨inv.s_carved, inv.s_odd, inv.d_s, inv.node_par, inv.carved_shape, ?_, ?_⟩
          · exact fun p hp => inv.stack_ok p (List.mem_cons_of_mem _ hp)
          · intro p hp hpo hpstack q hq b1 b2 b3 b4
            by_cases hpc : p = current
            · subst hpc
              by_contra hqwall
              obtain ⟨dir2, hdir2, hadd⟩ := List.mem_map.mp hq
              have hqfvn : q ∈ findValidNeighbors { m with grid := g } p := by
                rw [@mem_fvn { m with grid := g } hden]
                exact ⟨dir2, hdir2, by rw [hadd]; exact ⟨b1, b2, b3, b4, hqwall⟩,
                  hadd.symm⟩
              rw [hempty] at hqfvn
              exact absurd hqfvn (List.not_mem_nil q)
            · have hpold : p ∉ current :: rest := fun hmem => by
                rcases List.mem_cons.mp hmem with h2 | h2
                · exact hpc h2
                · exact hpstack h2
              exact inv.sat p hp hpo hpold q hq b1 b2 b3 b4
        refine ih rest g r par d inv2 ?_
        simp only [List.length_cons] at hm
        omega

theorem uncarved_le (m : Maze) (g : Point → Cell) :
    (uncarvedOdds m g).card ≤ (m.width * m.height).toNat :=
  le_trans (Finset.card_filter_le _ _) (card_le_mulToNat m)

theorem runDFS_inv {m : Maze} (hden : m.denWidth ≤ 0 ∨ m.denHeight ≤ 0)
    {s : Point} (hs : OddCell m s) (r : Rng) (bias : ℚ) (g0 : Point → Cell)
    (hg0 : ∀ p, g0 p = Cell.Wall) :
    ∃ g2 r2 par2 d2,
      runDFS { m with grid := g0 } r s bias = ({ m with grid := g2 }, r2) ∧
      DfsTreeInv m s g2 par2 d2 [] := by
  have hs_ne : ∀ p, p ≠ s → updF g0 s Cell.Path p = Cell.Wall := by
    intro p hp
    rw [updF_ne _ _ _ hp]
    exact hg0 p
  have inv0 : DfsTreeInv m s (updF g0 s Cell.Path) (fun _ => s) (fun _ => 0) [s] := by
    refine ⟨?_, hs, rfl, ?_, ?_, ?_, ?_⟩
    · rw [updF_self]
      exact fun hc => Cell.noConfusion hc
    · intro p hp _ hps
      exact absurd (hs_ne p hps) hp
    · intro p hp hpo
      by_cases hps : p = s
      · subst hps
        exact absurd hs hpo
      · exact absurd (hs_ne p hps) hp
    · intro p hp
      rw [List.mem_singleton.mp hp, updF_self]
      exact ⟨fun hc => Cell.noConfusion hc, hs⟩
    · intro p hp hpo hpstack
      by_cases hps : p = s
      · exact absurd (by rw [hps]; exact List.mem_singleton.mpr rfl) hpstack
      · exact absurd (hs_ne p hps) hp
  obtain ⟨g2, r2, par2, d2, hrun, hinv, _⟩ :=
    runDFSLoop_inv hden (dfsFuel m) [s] (updF g0 s Cell.Path) r
      (fun _ => s) (fun _ => 0) inv0
      (by
        have := uncarved_le m (updF g0 s Cell.Path)
        unfold dfsFuel
        simp only [List.length_singleton]
        omega)
  exact ⟨g2, r2, par2, d2, hrun, hinv⟩

theorem odd_complete {m : Maze} {s : Point} {g : Point → Cell}
    {par : Point → Point} {d : Point → Nat}
    (inv : DfsTreeInv m s g par d []) :
    ∀ p, OddCell m p → g p ≠ Cell.Wall := by
  suffices h : ∀ n p, OddCell m p →
      ((p.X - s.X).natAbs + (p.Y - s.Y).natAbs) = n → g p ≠ Cell.Wall by
    exact fun p hp => h _ p hp rfl
  intro n
  induction n using Nat.strong_induction_on with
  | _ n ih =>
    intro p hp hn
    obtain ⟨hpx, hpy, pb1, pb2, pb3, pb4⟩ := hp
    by_cases hps : p = s
    · subst hps
      exact inv.s_carved
    · have hkey : ∀ q, OddCell m q → g q ≠ Cell.Wall → p ∈ twoNbrs q →
          g p ≠ Cell.Wall := fun q hq hgq hmem =>
        inv.sat q hgq hq (List.not_mem_nil q) p hmem pb1 pb2 pb3 pb4
      obtain ⟨hsx, hsy, sb1, sb2, sb3, sb4⟩ := inv.s_odd
      have ox := Int.odd_iff.mp hpx
      have oy := Int.odd_iff.mp hpy
      have osx := Int.odd_iff.mp hsx
      have osy := Int.odd_iff.mp hsy
      have hne : p.X ≠ s.X ∨ p.Y ≠ s.Y := by
        by_contra hc
        push_neg at hc
        exact hps (point_eq_of_coords hc.1 hc.2)
      have hclose : ∀ q : Point, OddCell m q →
          ((q.X - s.X).natAbs + (q.Y - s.Y).natAbs) < n → p ∈ twoNbrs q →
          g p ≠ Cell.Wall := fun q hq hlt hmem =>
        hkey q hq (ih _ hlt q hq rfl) hmem
      rcases hne with hdx | hdy
      · rcases lt_or_gt_of_ne hdx with hlt | hgt
        · refine hclose ⟨p.X + 2, p.Y⟩ ?_ ?_ ?_
          · exact ⟨by rw [Int.odd_iff]; dsimp only; omega, hpy,
              by dsimp only; omega, by dsimp only; omega, pb3, pb4⟩
          · dsimp only
            omega
          · rw [twoNbrs_cases]
            dsimp only
            omega
        · refine hclose ⟨p.X - 2, p.Y⟩ ?_ ?_ ?_
          · exact ⟨by rw [Int.odd_iff]; dsimp only; omega, hpy,
              by dsimp only; omega, by dsimp only; omega, pb3, pb4⟩
          · dsimp only
            omega
          · rw [twoNbrs_cases]
            dsimp only
            omega
      · rcases lt_or_gt_of_ne hdy with hlt | hgt
        · refine hclose ⟨p.X, p.Y + 2⟩ ?_ ?_ ?_
          · exact ⟨hpx, by rw [Int.odd_iff]; dsimp only; omega,
              pb1, pb2, by dsimp only; omega, by dsimp only; omega⟩
          · dsimp only
            omega
          · rw [twoNbrs_cases]
            dsimp only
            omega
        · refine hclose ⟨p.X, p.Y - 2⟩ ?_ ?_ ?_
          · exact ⟨hpx, by rw [Int.odd_iff]; dsimp only; omega,
              pb1, pb2, by dsimp only; omega, by dsimp only; omega⟩
          · dsimp only
            omega
          · rw [twoNbrs_cases]
            dsimp only
            omega

theorem treeDepth_of_inv {m : Maze} {s : Point} {g : Point → Cell}
    {par : Point → Point} {d : Point → Nat}
    (inv : DfsTreeInv m s g par d []) :
    ∃ D, TreeDepth (fun p => g p ≠ Cell.Wall) D s := by
  classical
  refine ⟨fun p => if OddCell m p then 2 * d p
    else if h : ∃ q, g q ≠ Cell.Wall ∧ OddCell m q ∧ q ≠ s ∧ p = Mid q (par q)
      then 2 * d (Classical.choose h) - 1 else 0, ?_⟩
  set D : Point → Nat := fun p => if OddCell m p then 2 * d p
    else if h : ∃ q, g q ≠ Cell.Wall ∧ OddCell m q ∧ q ≠ s ∧ p = Mid q (par q)
      then 2 * d (Classical.choose h) - 1 else 0 with hDdef
  have hdpos : ∀ p, g p ≠ Cell.Wall → OddCell m p → p ≠ s → 1 ≤ d p := by
    intro p h1 h2 h3
    have := (inv.node_par p h1 h2 h3).2.2.2.2
    omega
  have hD_odd : ∀ p, OddCell m p → D p = 2 * d p := by
    intro p hp
    rw [hDdef]
    dsimp only
    rw [if_pos hp]
  have hD_mid : ∀ q, g q ≠ Cell.Wall → OddCell m q → q ≠ s →
      D (Mid q (par q)) = 2 * d q - 1 := by
    intro q h1 h2 h3
    obtain ⟨k1, k2, k3, k4, k5⟩ := inv.node_par q h1 h2 h3
    have hnotodd : ¬ OddCell m (Mid q (par q)) := mid_not_odd ⟨h2.1, h2.2.1⟩ k3
    have hex : ∃ q2, g q2 ≠ Cell.Wall ∧ OddCell m q2 ∧ q2 ≠ s ∧
        Mid q (par q) = Mid q2 (par q2) := ⟨q, h1, h2, h3, rfl⟩
    rw [hDdef]
    dsimp only
    rw [if_neg hnotodd, dif_pos hex]
    obtain ⟨c1, c2, c3, c4⟩ := Classical.choose_spec hex
    obtain ⟨l1, l2, l3, l4, l5⟩ := inv.node_par _ c1 c2 c3
    have hcq : Classical.choose hex = q :=
      mid_rep_unique l3 k3 ⟨c2.1, c2.2.1⟩ ⟨h2.1, h2.2.1⟩ ⟨l1.1, l1.2.1⟩
        ⟨k1.1, k1.2.1⟩ l5 k5 c4.symm
    rw [hcq]
  have hD_rep : ∀ p q, g q ≠ Cell.Wall → OddCell m q → q ≠ s →
      p = Mid q (par q) → D p = 2 * d q - 1 := by
    intro p q h1 h2 h3 hp
    rw [hp]
    exact hD_mid q h1 h2 h3
  have hmid_par : ∀ q, g q ≠ Cell.Wall → OddCell m q → q ≠ s →
      ((Mid q (par q)).X % 2 = 1 ∧ (Mid q (par q)).Y % 2 = 0) ∨
      ((Mid q (par q)).X % 2 = 0 ∧ (Mid q (par q)).Y % 2 = 1) := by
    intro q h1 h2 h3
    obtain ⟨k1, k2, k3, k4, k5⟩ := inv.node_par q h1 h2 h3
    have hms := mid_spec k3
    have ht := twoNbrs_cases.mp k3
    have o1 := Int.odd_iff.mp h2.1
    have o2 := Int.odd_iff.mp h2.2.1
    have o3 := Int.odd_iff.mp k1.1
    have o4 := Int.odd_iff.mp k1.2.1
    omega
  have hcarved_cases : ∀ p, g p ≠ Cell.Wall → OddCell m p ∨
      ∃ q, g q ≠ Cell.Wall ∧ OddCell m q ∧ q ≠ s ∧ p = Mid q (par q) := by
    intro p h1
    by_cases h2 : OddCell m p
    · exact Or.inl h2
    · exact Or.inr (inv.carved_shape p h1 h2)
  have hstep : ∀ p q, g p ≠ Cell.Wall → g q ≠ Cell.Wall → OddCell m p →
      ¬ OddCell m q → q ∈ p.nbrs → D q = D p + 1 ∨ D p = D q + 1 := by
    intro p q h1 h2 hop hnq hadj
    obtain ⟨t, t1, t2, t3, t4⟩ := inv.carved_shape q h2 hnq
    obtain ⟨k1, k2, k3, k4, k5⟩ := inv.node_par t t1 t2 t3
    have hDq : D q = 2 * d t - 1 := hD_rep q t t1 t2 t3 t4
    have hadj2 : p ∈ (Mid t (par t)).nbrs := by
      rw [← t4]
      exact nbrs_symm hadj
    rcases mid_endpoint k3 ⟨t2.1, t2.2.1⟩ ⟨hop.1, hop.2.1⟩ hadj2 with hpt | hpt
    · refine Or.inr ?_
      rw [hD_odd p hop, hDq, hpt]
      have := hdpos t t1 t2 t3
      omega
    · refine Or.inl ?_
      rw [hD_odd p hop, hDq, hpt]
      have := hdpos t t1 t2 t3
      omega
  refine ⟨inv.s_carved, ?_, ?_, ?_, ?_, ?_⟩
  · rw [hD_odd s inv.s_odd, inv.d_s]
  · intro p h1 hD0
    rcases hcarved_cases p h1 with hop | ⟨t, t1, t2, t3, t4⟩
    · by_contra hps
      have := hdpos p h1 hop hps
      rw [hD_odd p hop] at hD0
      omega
    · exfalso
      have := hdpos t t1 t2 t3
      rw [hD_rep p t t1 t2 t3 t4] at hD0
      omega
  · intro p q h1 h2 hadj
    by_cases hop : OddCell m p <;> by_cases hoq : OddCell m q
    · exfalso
      have o1 := Int.odd_iff.mp hop.1
      have o2 := Int.odd_iff.mp hop.2.1
      have o3 := Int.odd_iff.mp hoq.1
      have o4 := Int.odd_iff.mp hoq.2.1
      have := (mem_nbrs_iff _ _).mp hadj
      omega
    · exact hstep p q h1 h2 hop hoq hadj
    · exact (hstep q p h2 h1 hoq hop (nbrs_symm hadj)).symm
    · exfalso
      obtain ⟨t, t1, t2, t3, t4⟩ := inv.carved_shape p h1 hop
      obtain ⟨u, u1, u2, u3, u4⟩ := inv.carved_shape q h2 hoq
      have hp1 := hmid_par t t1 t2 t3
      have hp2 := hmid_par u u1 u2 u3
      rw [← t4] at hp1
      rw [← u4] at hp2
      have := (mem_nbrs_iff _ _).mp hadj
      omega
  · intro p h1 hDp
    rcases hcarved_cases p h1 with hop | ⟨t, t1, t2, t3, t4⟩
    · have hps : p ≠ s := by
        intro he
        rw [he, hD_odd s inv.s_odd, inv.d_s] at hDp
        omega
      obtain ⟨k1, k2, k3, k4, k5⟩ := inv.node_par p h1 hop hps
      refine ⟨Mid p (par p), k4, (mid_nbrs k3).1, ?_⟩
      rw [hD_mid p h1 hop hps, hD_odd p hop]
      have := hdpos p h1 hop hps
      omega
    · obtain ⟨k1, k2, k3, k4, k5⟩ := inv.node_par t t1 t2 t3
      refine ⟨par t, k2, ?_, ?_⟩
      · rw [t4]
        exact (mid_nbrs k3).2.2
      · rw [hD_rep p t t1 t2 t3 t4, hD_odd (par t) k1]
        have := hdpos t t1 t2 t3
        omega
  · intro p u v h1 hu hv huadj hvadj hDu hDv
    rcases hcarved_cases p h1 with hop | ⟨t, t1, t2, t3, t4⟩
    · have hps : p ≠ s := by
        intro he
        rw [he, hD_odd s inv.s_odd, inv.d_s] at hDu
        omega
      obtain ⟨k1, k2, k3, k4, k5⟩ := inv.node_par p h1 hop hps
      have huniq : ∀ w, g w ≠ Cell.Wall → w ∈ p.nbrs → D w + 1 = D p →
          w = Mid p (par p) := by
        intro w hw hwadj hDw
        have hwnotodd : ¬ OddCell m w := by
          intro ho
          have o1 := Int.odd_iff.mp hop.1
          have o2 := Int.odd_iff.mp hop.2.1
          have o3 := Int.odd_iff.mp ho.1
          have o4 := Int.odd_iff.mp ho.2.1
          have := (mem_nbrs_iff _ _).mp hwadj
          omega
        obtain ⟨t2', u1, u2, u3, u4⟩ := inv.carved_shape w hw hwnotodd
        obtain ⟨l1, l2, l3, l4, l5⟩ := inv.node_par t2' u1 u2 u3
        have hadj2 : p ∈ (Mid t2' (par t2')).nbrs := by
          rw [← u4]
          exact nbrs_symm hwadj
        rcases mid_endpoint l3 ⟨u2.1, u2.2.1⟩ ⟨hop.1, hop.2.1⟩ hadj2 with hpt | hpt
        · rw [u4, ← hpt]
        · exfalso
          have hDw2 : D w = 2 * d t2' - 1 := hD_rep w t2' u1 u2 u3 u4
          rw [hDw2, hD_odd p hop] at hDw
          rw [← hpt] at l5
          have := hdpos t2' u1 u2 u3
          omega
      rw [huniq u hu huadj hDu, huniq v hv hvadj hDv]
    · obtain ⟨k1, k2, k3, k4, k5⟩ := inv.node_par t t1 t2 t3
      have hpar : ∀ w, g w ≠ Cell.Wall → w ∈ p.nbrs → D w + 1 = D p →
          w = par t := by
        intro w hw hwadj hDw
        have hwodd : OddCell m w := by
          by_contra hno
          obtain ⟨u, u1, u2, u3, u4⟩ := inv.carved_shape w hw hno
          have hp1 := hmid_par t t1 t2 t3
          have hp2 := hmid_par u u1 u2 u3
          rw [← t4] at hp1
          rw [← u4] at hp2
          have := (mem_nbrs_iff _ _).mp hwadj
          omega
        have hadj2 : w ∈ (Mid t (par t)).nbrs := by
          rw [← t4]
          exact hwadj
        rcases mid_endpoint k3 ⟨t2.1, t2.2.1⟩ ⟨hwodd.1, hwodd.2.1⟩ hadj2 with hwt | hwt
        · exfalso
          rw [hD_odd w hwodd, hwt, hD_rep p t t1 t2 t3 t4] at hDw
          have := hdpos t t1 t2 t3
          omega
        · exact hwt
      rw [hpar u hu huadj hDu, hpar v hv hvadj hDv]

theorem connectDen_denless {mz : Maze} (r : Rng) (ud : Option Point) (ds : String)
    (h : mz.denWidth ≤ 0 ∨ mz.denHeight ≤ 0) :
    connectDen mz r ud ds = ((mz, r), none) := by
  unfold connectDen
  rw [if_pos h]

theorem newOk_grid_wall {aw ah adw adh : Int} (h : adw ≤ 0 ∨ adh ≤ 0) (p : Point) :
    (newOk aw ah adw adh).grid p = Cell.Wall := by
  show initialGrid _ p = Cell.Wall
  unfold initialGrid
  rw [insideDen_denless h]
  simp

theorem selectStart_oddcell {mz : Maze} (hw : 3 ≤ mz.width) (hh : 3 ≤ mz.height) :
    ∀ (fuel : Nat) (r : Rng) (p : Point) (r2 : Rng),
      selectStart mz fuel r = some (p, r2) → OddCell mz p := by
  have hwd : 1 ≤ goDiv (mz.width - 1) 2 := by
    unfold goDiv
    rw [Int.tdiv_eq_ediv (by omega) (by norm_num)]
    rw [Int.le_ediv_iff_mul_le (by norm_num : (0:Int) < 2)]
    omega
  have hhd : 1 ≤ goDiv (mz.height - 1) 2 := by
    unfold goDiv
    rw [Int.tdiv_eq_ediv (by omega) (by norm_num)]
    rw [Int.le_ediv_iff_mul_le (by norm_num : (0:Int) < 2)]
    omega
  have hwub : goDiv (mz.width - 1) 2 * 2 ≤ mz.width - 1 := by
    unfold goDiv
    rw [Int.tdiv_eq_ediv (by omega) (by norm_num)]
    exact Int.ediv_mul_le _ (by norm_num)
  have hhub : goDiv (mz.height - 1) 2 * 2 ≤ mz.height - 1 := by
    unfold goDiv
    rw [Int.tdiv_eq_ediv (by omega) (by norm_num)]
    exact Int.ediv_mul_le _ (by norm_num)
  intro fuel
  induction fuel with
  | zero =>
    intro r p r2 h
    exact Option.noConfusion h
  | succ f ih =>
    intro r p r2 h
    rw [selectStart] at h
    rcases h1 : r.intn (goDiv (mz.width - 1) 2) with ⟨sx, r1⟩
    rw [h1] at h
    dsimp only at h
    rcases h2 : r1.intn (goDiv (mz.height - 1) 2) with ⟨sy, rr⟩
    rw [h2] at h
    dsimp only at h
    by_cases hin : mz.IsInsideDen ⟨sx * 2 + 1, sy * 2 + 1⟩ = false
    · rw [if_pos hin] at h
      injection h with h
      injection h with hp hr
      subst hp
      have hbx := intn_bounds (r := r) hwd
      rw [h1] at hbx
      dsimp only at hbx
      have hby := intn_bounds (r := r1) hhd
      rw [h2] at hby
      dsimp only at hby
      refine ⟨⟨sx, by dsimp only; ring⟩, ⟨sy, by dsimp only; ring⟩, ?_, ?_, ?_, ?_⟩ <;>
        (dsimp only; omega)
    · rw [if_neg hin] at h
      exact ih rr p r2 h

theorem far_walkable {mz : Maze} {gs : Point} (h : mz.grid gs ≠ Cell.Wall) :
    mz.grid (findFarthestPoint mz gs).1 ≠ Cell.Wall := by
  obtain ⟨st, hrun, hinv⟩ := farRun_some mz gs
  unfold findFarthestPoint
  rw [hrun]
  dsimp only
  rcases lt_or_eq_of_le hinv.maxNonneg with hpos | hzero
  · obtain ⟨_, hd, _⟩ := hinv.far_pos hpos
    have hfq : st.farthest ∈ st.queue :=
      (hinv.dom_iff st.farthest).mp (by rw [hd]; rfl)
    rcases hinv.inQ st.farthest hfq with heq | hb
    · rw [heq]
      exact h
    · exact hb.2.2.2.2
  · rw [hinv.far_zero hzero.symm]
    exact h

theorem carved_inGrid {m : Maze} {s : Point} {g : Point → Cell}
    {par : Point → Point} {d : Point → Nat}
    (inv : DfsTreeInv m s g par d []) :
    ∀ p, g p ≠ Cell.Wall → m.inGrid p = true := by
  intro p hp
  unfold Maze.inGrid
  apply decide_eq_true
  by_cases hop : OddCell m p
  · obtain ⟨_, _, b1, b2, b3, b4⟩ := hop
    omega
  · obtain ⟨q, h1, h2, h3, h4⟩ := inv.carved_shape p hp hop
    obtain ⟨k1, k2, k3, _, _⟩ := inv.node_par q h1 h2 h3
    have := mid_interior k3 h2 k1
    rw [← h4] at this
    omega

theorem treeDepth_congr {good1 good2 : Point → Prop} {D : Point → Nat} {s : Point}
    (h : ∀ p, good1 p ↔ good2 p) (td : TreeDepth good1 D s) :
    TreeDepth good2 D s := by
  refine ⟨(h s).mp td.root_good, td.root_d, ?_, ?_, ?_, ?_⟩
  · exact fun p hp h0 => td.d_zero p ((h p).mpr hp) h0
  · exact fun p q hp hq hadj => td.step_pm p q ((h p).mpr hp) ((h q).mpr hq) hadj
  · intro p hp hDp
    obtain ⟨u, hu, hadj, hDu⟩ := td.down_ex p ((h p).mpr hp) hDp
    exact ⟨u, (h u).mp hu, hadj, hDu⟩
  · exact fun p u v hp hu hv hau hav h1 h2 =>
      td.down_uniq p u v ((h p).mpr hp) ((h u).mpr hu) ((h v).mpr hv) hau hav h1 h2

theorem grid_mark_iff {g2 : Point → Cell} {sstar estar : Point}
    (hs : g2 sstar ≠ Cell.Wall) (he : g2 estar ≠ Cell.Wall) (p : Point) :
    updF (updF g2 sstar Cell.Start) estar Cell.End p ≠ Cell.Wall ↔
      g2 p ≠ Cell.Wall := by
  by_cases h1 : p = estar
  · subst h1
    rw [updF_self]
    exact ⟨fun _ => he, fun _ hc => Cell.noConfusion hc⟩
  · rw [updF_ne _ _ _ h1]
    by_cases h2 : p = sstar
    · subst h2
      rw [updF_self]
      exact ⟨fun _ => hs, fun _ hc => Cell.noConfusion hc⟩
    · rw [updF_ne _ _ _ h2]


theorem stepOKB_iff_of_walk {m0 : Maze} {g2 : Point → Cell} {mzX : Maze}
    (hw : mzX.width = m0.width) (hh : mzX.height = m0.height)
    (hiff : ∀ p, mzX.grid p ≠ Cell.Wall ↔ g2 p ≠ Cell.Wall)
    (hing : ∀ p, g2 p ≠ Cell.Wall → m0.inGrid p = true) (p : Point) :
    stepOKB mzX p = true ↔ g2 p ≠ Cell.Wall := by
  unfold stepOKB
  rw [Bool.and_eq_true, decide_eq_true_eq]
  constructor
  · exact fun h => (hiff p).mp h.2
  · intro h
    refine ⟨?_, (hiff p).mpr h⟩
    have := hing p h
    unfold Maze.inGrid at this ⊢
    rw [hw, hh]
    exact this

theorem place_frame (mz : Maze) (gs : Point) (ups : Bool) :
    (placeStartAndEnd mz gs ups).width = mz.width ∧
    (placeStartAndEnd mz gs ups).height = mz.height := by
  cases ups <;> exact ⟨rfl, rfl⟩

theorem place_walk_iff {m0 : Maze} {g2 : Point → Cell} {gs : Point}
    (hRoot : g2 gs ≠ Cell.Wall) (ups : Bool) :
    g2 (placeStartAndEnd { m0 with grid := g2 } gs ups).start ≠ Cell.Wall ∧
    ∀ p, (placeStartAndEnd { m0 with grid := g2 } gs ups).grid p ≠ Cell.Wall ↔
      g2 p ≠ Cell.Wall := by
  cases ups with
  | true =>
    have hestar : g2 (findFarthestPoint { m0 with grid := g2, start := gs } gs).1 ≠
        Cell.Wall := @far_walkable { m0 with grid := g2, start := gs } gs hRoot
    have hgr : (placeStartAndEnd { m0 with grid := g2 } gs true).grid =
        updF (updF g2 gs Cell.Start)
          (findFarthestPoint { m0 with grid := g2, start := gs } gs).1 Cell.End := rfl
    refine ⟨hRoot, ?_⟩
    intro p
    rw [hgr]
    exact grid_mark_iff hRoot hestar p
  | false =>
    have hsstar : g2 (findFarthestPoint { m0 with grid := g2 } gs).1 ≠ Cell.Wall :=
      @far_walkable { m0 with grid := g2 } gs hRoot
    have hestar : g2 (findFarthestPoint
        { m0 with grid := g2, start := (findFarthestPoint { m0 with grid := g2 } gs).1 }
        (findFarthestPoint { m0 with grid := g2 } gs).1).1 ≠ Cell.Wall :=
      @far_walkable
        { m0 with grid := g2, start := (findFarthestPoint { m0 with grid := g2 } gs).1 }
        (findFarthestPoint { m0 with grid := g2 } gs).1 hsstar
    have hgr : (placeStartAndEnd { m0 with grid := g2 } gs false).grid =
        updF (updF g2 (findFarthestPoint { m0 with grid := g2 } gs).1 Cell.Start)
          (findFarthestPoint
            { m0 with grid := g2, start := (findFarthestPoint { m0 with grid := g2 } gs).1 }
            (findFarthestPoint { m0 with grid := g2 } gs).1).1 Cell.End := rfl
    refine ⟨hsstar, ?_⟩
    intro p
    rw [hgr]
    exact grid_mark_iff hsstar hestar p

theorem place_perfect {m0 : Maze} {g2 : Point → Cell} {par2 : Point → Point}
    {d2 : Point → Nat} {gs : Point}
    (hinv : DfsTreeInv m0 gs g2 par2 d2 []) (ups : Bool) :
    (∀ p, OddCell m0 p →
      (placeStartAndEnd { m0 with grid := g2 } gs ups).grid p ≠ Cell.Wall) ∧
    stepOKB (placeStartAndEnd { m0 with grid := g2 } gs ups)
      (placeStartAndEnd { m0 with grid := g2 } gs ups).start = true ∧
    ∃ D, TreeDepth
      (fun p => stepOKB (placeStartAndEnd { m0 with grid := g2 } gs ups) p = true)
      D gs := by
  have hRoot : g2 gs ≠ Cell.Wall := hinv.s_carved
  have hOdds : ∀ p, OddCell m0 p → g2 p ≠ Cell.Wall := odd_complete hinv
  have hing := carved_inGrid hinv
  obtain ⟨D0, td0⟩ := treeDepth_of_inv hinv
  obtain ⟨hstart, hwalk⟩ := place_walk_iff hRoot ups
  obtain ⟨hwf, hhf⟩ := place_frame { m0 with grid := g2 } gs ups
  have hiff : ∀ p,
      stepOKB (placeStartAndEnd { m0 with grid := g2 } gs ups) p = true ↔
      g2 p ≠ Cell.Wall :=
    stepOKB_iff_of_walk hwf hhf hwalk hing
  refine ⟨?_, ?_, ?_⟩
  · exact fun p hp => (hwalk p).mpr (hOdds p hp)
  · exact (hiff _).mpr hstart
  · exact ⟨D0, treeDepth_congr (fun p => (hiff p).symm) td0⟩

theorem generateCore_perfect {m0 : Maze} {r : Rng} {gs : Point} {ups : Bool}
    {door : Option Point} {ds : String} {bias : ℚ} {mzG : Maze}
    (hden : m0.denWidth ≤ 0 ∨ m0.denHeight ≤ 0)
    (hg0 : ∀ p, m0.grid p = Cell.Wall)
    (hgs : OddCell m0 gs)
    (hrun : generateCore m0 r gs ups door ds bias = (mzG, none)) :
    mzG.width = m0.width ∧ mzG.height = m0.height ∧
    (∀ p, OddCell m0 p → mzG.grid p ≠ Cell.Wall) ∧
    stepOKB mzG mzG.start = true ∧
    ∃ D, TreeDepth (fun p => stepOKB mzG p = true) D gs := by
  unfold generateCore at hrun
  obtain ⟨g2, r2, par2, d2, hdfs, hinv⟩ := runDFS_inv hden hgs r bias m0.grid hg0
  have hdfs2 : runDFS m0 r gs bias = ({ m0 with grid := g2 }, r2) := hdfs
  rw [hdfs2] at hrun
  dsimp only at hrun
  rw [@connectDen_denless { m0 with grid := g2 } r2 door ds hden] at hrun
  dsimp only at hrun
  have hmz := congrArg Prod.fst hrun
  dsimp only at hmz
  rw [← hmz]
  obtain ⟨h1, h2, h3⟩ := place_perfect hinv ups
  obtain ⟨hwf, hhf⟩ := place_frame { m0 with grid := g2 } gs ups
  exact ⟨hwf, hhf, h1, h2, h3⟩

theorem solPath_last_stepOK {m : Maze} {a b : Point} {l : List Point}
    (h : SolPath m a b l) (hne : b ≠ a) : stepOKB m b = true := by
  obtain ⟨h1, h2, _, h4⟩ := h
  cases l with
  | nil => exact Option.noConfusion h1
  | cons x xs =>
    injection h1 with h1
    subst h1
    cases xs with
    | nil =>
      injection h2 with h2
      exact absurd h2.symm hne
    | cons y ys =>
      apply h4
      rw [List.getLast?_cons_cons] at h2
      exact List.mem_of_mem_getLast? h2

/-- C2 counterexample: in the successfully generated 5×5 den-less maze from
seed 1 and start (1,1), the interior cell (2,2) is strictly inside the border
yet remains a `Wall` and no solver walk from `start` can reach it, so "every
non-border cell is reachable from start" fails read literally; only the
walkable cells are spanned. -/
theorem C2_counterexample :
    (Generate (newOk 5 5 0 0) 1 (some ⟨1, 1⟩) none "" 0).2 = none ∧
    ((0 : Int) < 2 ∧
      (2 : Int) < (Generate (newOk 5 5 0 0) 1 (some ⟨1, 1⟩) none "" 0).1.width - 1) ∧
    (Generate (newOk 5 5 0 0) 1 (some ⟨1, 1⟩) none "" 0).1.grid ⟨2, 2⟩ = Cell.Wall ∧
    ¬ ∃ l, SolPath (Generate (newOk 5 5 0 0) 1 (some ⟨1, 1⟩) none "" 0).1
      (Generate (newOk 5 5 0 0) 1 (some ⟨1, 1⟩) none "" 0).1.start ⟨2, 2⟩ l := by
  refine ⟨by decide, ⟨by decide, by decide⟩, by decide, ?_⟩
  rintro ⟨l, hl⟩
  have hne : (⟨2, 2⟩ : Point) ≠
      (Generate (newOk 5 5 0 0) 1 (some ⟨1, 1⟩) none "" 0).1.start := by decide
  have hstep := solPath_last_stepOK hl hne
  rw [show stepOKB (Generate (newOk 5 5 0 0) 1 (some ⟨1, 1⟩) none "" 0).1 ⟨2, 2⟩ =
    false from by decide] at hstep
  exact Bool.noConfusion hstep

/-- C2 (amended): for a maze built with zero den dimensions (and dimensions at
least 3, below which the Go program's `rand.Intn(0)` panics) that `Generate`
completes successfully, every interior odd/odd cell is carved walkable, every
walkable cell is reachable from `start`, and the walkable cells form a
spanning acyclic corridor graph: between any two walkable cells there is
exactly one simple path.  Cells that remain walls are not reachable, so
"every non-border cell" must be read as "every walkable cell". -/
theorem C2_perfect_maze (w h seed : Int) (os odoor : Option Point)
    (side : String) (bias : ℚ) (m0 mzG : Maze)
    (hnew : New w h 0 0 = Except.ok m0)
    (hw3 : 3 ≤ m0.width) (hh3 : 3 ≤ m0.height)
    (hgen : Generate m0 seed os odoor side bias = (mzG, none)) :
    (∀ p : Point, Odd p.X → Odd p.Y → 0 < p.X → p.X < mzG.width - 1 →
      0 < p.Y → p.Y < mzG.height - 1 → mzG.grid p ≠ Cell.Wall) ∧
    (∀ p, stepOKB mzG p = true →
      ∃ l, SimplePathIn (fun v => stepOKB mzG v = true) mzG.start p l) ∧
    (∀ a b, stepOKB mzG a = true → stepOKB mzG b = true →
      ∃! l, SimplePathIn (fun v => stepOKB mzG v = true) a b l) := by
  rw [New_eq] at hnew
  by_cases c1 : w ≤ 0 ∨ h ≤ 0
  · rw [if_pos c1] at hnew
    exact Except.noConfusion hnew
  rw [if_neg c1] at hnew
  rw [if_neg (by omega : ¬((0:Int) < 0 ∨ (0:Int) < 0))] at hnew
  rw [if_neg (fun hc => absurd hc.1 (by decide))] at hnew
  rw [if_neg (fun hc => absurd hc.1 (by decide))] at hnew
  injection hnew with hm0
  have hden : m0.denWidth ≤ 0 ∨ m0.denHeight ≤ 0 := by
    rw [← hm0]
    exact Or.inl (show adjustToOdd 0 ≤ 0 by decide)
  have hg0 : ∀ p, m0.grid p = Cell.Wall := by
    intro p
    rw [← hm0]
    exact newOk_grid_wall (Or.inl (by decide)) p
  have main : ∀ (gs : Point) (ups : Bool) (r2 : Rng),
      OddCell m0 gs → generateCore m0 r2 gs ups odoor side bias = (mzG, none) →
      (∀ p : Point, Odd p.X → Odd p.Y → 0 < p.X → p.X < mzG.width - 1 →
        0 < p.Y → p.Y < mzG.height - 1 → mzG.grid p ≠ Cell.Wall) ∧
      (∀ p, stepOKB mzG p = true →
        ∃ l, SimplePathIn (fun v => stepOKB mzG v = true) mzG.start p l) ∧
      (∀ a b, stepOKB mzG a = true → stepOKB mzG b = true →
        ∃! l, SimplePathIn (fun v => stepOKB mzG v = true) a b l) := by
    intro gs ups r2 hgs hcore
    obtain ⟨hweq, hheq, hodds, hstart, D, td⟩ :=
      generateCore_perfect hden hg0 hgs hcore
    refine ⟨?_, ?_, ?_⟩
    · intro p o1 o2 b1 b2 b3 b4
      refine hodds p ⟨o1, o2, b1, ?_, b3, ?_⟩
      · rw [← hweq]
        exact b2
      · rw [← hheq]
        exact b4
    · intro p hp
      exact spi_exists td mzG.start p hstart hp
    · intro a b2 ha hb
      obtain ⟨l, hl⟩ := spi_exists td a b2 ha hb
      exact ⟨l, hl, fun l2 h2 => spi_unique td a b2 l2 l h2 hl⟩
  unfold Generate at hgen
  cases os with
  | some s0 =>
    dsimp only at hgen
    by_cases hb1 : badStartGeom m0 s0
    · rw [if_pos hb1] at hgen
      exact absurd (congrArg Prod.snd hgen) (by simp)
    rw [if_neg hb1] at hgen
    by_cases hb2 : m0.IsInsideDen s0 = true
    · rw [if_pos hb2] at hgen
      exact absurd (congrArg Prod.snd hgen) (by simp)
    rw [if_neg hb2] at hgen
    unfold badStartGeom at hb1
    push_neg at hb1
    obtain ⟨q1, q2, q3, q4, q5, q6⟩ := hb1
    exact main s0 true _ ⟨odd_of_tmod_ne q5, odd_of_tmod_ne q6,
      by omega, by omega, by omega, by omega⟩ hgen
  | none =>
    dsimp only at hgen
    cases hsel : selectStart m0 (solveFuel m0) (rngOfSeed seed) with
    | none =>
      rw [hsel] at hgen
      exact absurd (congrArg Prod.snd hgen) (by simp)
    | some pr =>
      obtain ⟨gs, r2⟩ := pr
      rw [hsel] at hgen
      dsimp only at hgen
      exact main gs false r2 (selectStart_oddcell hw3 hh3 _ _ _ _ hsel) hgen

theorem C2_perfect_maze_witness :
    New (5 : Int) 5 0 0 = Except.ok (newOk 5 5 0 0) ∧
    (3 : Int) ≤ (newOk 5 5 0 0).width ∧ (3 : Int) ≤ (newOk 5 5 0 0).height ∧
    Generate (newOk 5 5 0 0) 1 (some ⟨1, 1⟩) none "" 0 =
      ((Generate (newOk 5 5 0 0) 1 (some ⟨1, 1⟩) none "" 0).1, none) ∧
    ((∀ p : Point, Odd p.X → Odd p.Y → 0 < p.X →
        p.X < (Generate (newOk 5 5 0 0) 1 (some ⟨1, 1⟩) none "" 0).1.width - 1 →
        0 < p.Y →
        p.Y < (Generate (newOk 5 5 0 0) 1 (some ⟨1, 1⟩) none "" 0).1.height - 1 →
        (Generate (newOk 5 5 0 0) 1 (some ⟨1, 1⟩) none "" 0).1.grid p ≠ Cell.Wall) ∧
      (∀ p, stepOKB (Generate (newOk 5 5 0 0) 1 (some ⟨1, 1⟩) none "" 0).1 p = true →
        ∃ l, SimplePathIn
          (fun v => stepOKB (Generate (newOk 5 5 0 0) 1 (some ⟨1, 1⟩) none "" 0).1 v = true)
          (Generate (newOk 5 5 0 0) 1 (some ⟨1, 1⟩) none "" 0).1.start p l) ∧
      (∀ a b, stepOKB (Generate (newOk 5 5 0 0) 1 (some ⟨1, 1⟩) none "" 0).1 a = true →
        stepOKB (Generate (newOk 5 5 0 0) 1 (some ⟨1, 1⟩) none "" 0).1 b = true →
        ∃! l, SimplePathIn
          (fun v => stepOKB (Generate (newOk 5 5 0 0) 1 (some ⟨1, 1⟩) none "" 0).1 v = true)
          a b l)) := by
  have hnew : New (5 : Int) 5 0 0 = Except.ok (newOk 5 5 0 0) := by
    rw [New_eq]
    rfl
  have h2 : (Generate (newOk 5 5 0 0) 1 (some ⟨1, 1⟩) none "" 0).2 = none := by
    decide
  have hgen : Generate (newOk 5 5 0 0) 1 (some ⟨1, 1⟩) none "" 0 =
      ((Generate (newOk 5 5 0 0) 1 (some ⟨1, 1⟩) none "" 0).1, none) :=
    Prod.ext rfl h2
  exact ⟨hnew, by decide, by decide, hgen,
    C2_perfect_maze 5 5 1 (some ⟨1, 1⟩) none "" 0 (newOk 5 5 0 0) _
      hnew (by decide) (by decide) hgen⟩
